import Mathlib

/-!
# Verification of the random TOML document generator

This file is a shallow embedding, in Lean 4, of the random TOML v1.0.0
document generator implemented in `random_test/gen_random_toml.py`
(class `TomlGenerator`), together with proofs about it.

## Modelling conventions

* The Python `random.Random` instance is modelled by an *oracle*: an
  infinite stream of natural numbers together with a position
  (structure `Rng`).  Every PRNG primitive consumes exactly one stream
  value per draw and maps it into its range:
  - `random()` (a float in `[0,1)`) becomes the exact rational
    `(k % 2^53) / 2^53` — Python's `random()` returns precisely the
    dyadic rationals `k / 2^53`, so this is an exact model;
  - `randint(a, b)` becomes `a + k % (b - a + 1)`, covering exactly the
    inclusive range `[a, b]`;
  - `choice(seq)` becomes `seq[k % len(seq)]`;
  - `_rand_exp(mean, lo, hi)` performs floating-point logarithms and then
    clamps with `max(lo, min(hi, v))`, where the pre-clamp value `v` is a
    nonnegative integer.  The model keeps exactly the clamp and lets the
    oracle choose the pre-clamp integer:  `max lo (min hi k)`.  Every
    behaviour of the Python code is a behaviour of the model.
  All theorems quantify over all oracles, hence over all seeds.
* Python strings are Lean `String`s; keys (tuples of strings) are
  `List String`.
* The unbounded `while` loops of the source (`_gen_key`'s rejection loop
  and the whitespace-retry loop of `_gen_ml_basic_string`) are given
  explicit fuel.  `_gen_key` reports fuel exhaustion as an error; the
  whitespace retry returns the last drawn character when fuel runs out
  (for the claims proved here only the set of reachable outputs matters,
  and theorems quantify over all fuels).
* Python `assert` statements in the tree model are modelled as the error
  value `GenErr.assertFail`; the (unreachable) dynamic-type confusions
  that Python would report as `TypeError`/`IndexError` are modelled as
  `GenErr.typeErr`.
* The value of `_gen_integer`'s magnitude expression
  `round(exp(r**2 * ln(2^80 + 1)) - 1)` is a float computation whose
  result is an integer in `[0, 2^80]` (since `r < 1`); the model lets
  the oracle choose the magnitude in that range.  Similarly the float
  semantic value of `_gen_float` is recorded by its underscore-stripped
  literal text rather than as an IEEE-754 number.
-/

namespace TomlGen

/-- Oracle model of `random.Random`: a stream of naturals and a cursor. -/
structure Rng where
  stream : Nat → Nat
  pos : Nat

/-- Draw one raw oracle value. -/
def Rng.next (g : Rng) : Nat × Rng :=
  (g.stream g.pos, ⟨g.stream, g.pos + 1⟩)

/-- Model of `random.Random.random()`: an exact dyadic rational in `[0,1)`. -/
def Rng.randFloat (g : Rng) : ℚ × Rng :=
  let (k, g') := g.next
  (mkRat (k % 2 ^ 53) (2 ^ 53), g')

/-- Model of `random.Random.randint(a, b)` at natural arguments. -/
def Rng.randNat (a b : Nat) (g : Rng) : Nat × Rng :=
  let (k, g') := g.next
  (a + k % (b - a + 1), g')

/-- Model of `random.Random.randint(a, b)` at integer arguments. -/
def Rng.randInt (a b : Int) (g : Rng) : Int × Rng :=
  let (k, g') := g.next
  (a + (k : Int) % (b - a + 1), g')

/-- Model of `random.Random.choice(seq)` (weights do not matter for the
nondeterministic model; any element can be drawn). -/
def Rng.choice {α : Type} (l : List α) (dflt : α) (g : Rng) : α × Rng :=
  let (k, g') := g.next
  (l.getD (k % l.length) dflt, g')

/-- Model of `random.Random.choices(seq, weights, k)`: `n` independent draws. -/
def Rng.choices {α : Type} (l : List α) (dflt : α) : Nat → Rng → List α × Rng
  | 0, g => ([], g)
  | n + 1, g =>
    let (x, g) := Rng.choice l dflt g
    let (xs, g) := Rng.choices l dflt n g
    (x :: xs, g)

/-- Model of `TomlGenerator._rand_exp(mean, minval, maxval)`: the source
computes `floor(log(1-r)/log(1-p))` (a nonnegative integer) and clamps it
with `max(minval, min(maxval, v))`; the model keeps the clamp and lets the
oracle pick the pre-clamp integer. -/
def randExp (_mean : ℚ) (minval maxval : Nat) (g : Rng) : Nat × Rng :=
  let (k, g') := g.next
  (max minval (min maxval k), g')

/-! ## Generator constants (`TomlGenerator` class attributes) -/

def MAX_EXPRESSIONS : Nat := 200
def MEAN_WS_LEN : ℚ := mkRat 2 1
def MAX_WS_LEN : Nat := 100
def MEAN_COMMENT_LEN : ℚ := mkRat 8 1
def MAX_COMMENT_LEN : Nat := 100
def MEAN_KEY_LEN : ℚ := mkRat 5 1
def MAX_KEY_LEN : Nat := 100
def MEAN_STRING_LEN : ℚ := mkRat 10 1
def MAX_STRING_LEN : Nat := 100
def MEAN_MLSTRING_LEN : ℚ := mkRat 25 1
def MAX_MLSTRING_LEN : Nat := 200
def MEAN_ARRAY_ELEMS : ℚ := mkRat 2 1
def MAX_ARRAY_ELEMS : Nat := 10
def MAX_DOTTED_LEN : Nat := 3
def MAX_INT_VALUE : Nat := 2 ^ 80

def PROB_COMMENT : ℚ := mkRat 1 2
def PROB_EXPR_KEYVAL : ℚ := mkRat 7 10
def PROB_EXPR_TABLE : ℚ := mkRat 1 10
def PROB_COMMENT_WS : ℚ := mkRat 1 10
def PROB_COMMENT_NASTY : ℚ := mkRat 1 10
def PROB_COMMENT_NONASCII : ℚ := mkRat 1 10
def PROB_QUOTED_KEY : ℚ := mkRat 2 5
def PROB_EXISTING_KEY : ℚ := mkRat 1 2
def PROB_ESCAPE_CHAR : ℚ := mkRat 1 10
def PROB_ML_NEWLINE : ℚ := mkRat 1 10
def PROB_ML_ESCAPED_NEWLINE : ℚ := mkRat 1 20
def PROB_ML_QUOTE : ℚ := mkRat 1 10
def PROB_SPECIAL_FLOAT : ℚ := mkRat 1 10

/-- The characters that may appear risk scanner confusion as literals, so we
name them once via their code points. -/
def bsC : Char := Char.ofNat 92

def dqC : Char := Char.ofNat 34

def sqC : Char := Char.ofNat 39

def bsS : String := String.mk [bsC]

def dqS : String := String.mk [dqC]

def sqS : String := String.mk [sqC]

/-- `TomlGenerator.ESCAPE_CHARS`, already in the sorted order produced by
`sorted(ESCAPE_CHARS.items())`. -/
def ESCAPE_CHARS : List (Nat × String) :=
  [(0x08, "b"), (0x09, "t"), (0x0a, "n"), (0x0c, "f"), (0x0d, "r"),
   (0x22, dqS), (0x5c, bsS)]

/-! ## Hex formatting (`_rand_format_hex`) -/

/-- The list of base-16 digits of `val`, least significant first, padded to
at least `minwidth` digits.  Mirrors the iteration structure of the loop
`while len(s) < minwidth or val > 0`. -/
def hexDigitsFuel : Nat → Nat → Nat → List Nat
  | 0, _, _ => []
  | fuel + 1, val, minwidth =>
    if val = 0 ∧ minwidth = 0 then []
    else val % 16 :: hexDigitsFuel fuel (val / 16) (minwidth - 1)

/-- `val + minwidth` bounds the number of loop iterations, so this fuel
never runs out (`hexDigitsFuel_congr` below). -/
def hexDigitsLSB (val minwidth : Nat) : List Nat :=
  hexDigitsFuel (val + minwidth) val minwidth

/-- Render one hex digit; digits above 9 get a random case
(`_rand_format_hex` draws `randint(0, 1)` for each letter digit). -/
def hexDigitChar (d : Nat) (g : Rng) : Char × Rng :=
  if d < 10 then (Char.ofNat (48 + d), g)
  else
    let (b, g) := Rng.randNat 0 1 g
    if b = 0 then (Char.ofNat (97 + d - 10), g) else (Char.ofNat (65 + d - 10), g)

/-- Process the LSB-first digit list, producing the final (MSB-first)
character list.  The Python loop prepends each new digit, so the digit at
the head of the LSB list consumes its randomness first. -/
def hexCharsGo : List Nat → Rng → List Char × Rng
  | [], g => ([], g)
  | d :: ds, g =>
    let (c, g) := hexDigitChar d g
    let (cs, g) := hexCharsGo ds g
    (cs ++ [c], g)

/-- Model of `TomlGenerator._rand_format_hex(val, minwidth)`. -/
def randFormatHex (val : Nat) (minwidth : Nat) (g : Rng) : String × Rng :=
  let (cs, g) := hexCharsGo (hexDigitsLSB val minwidth) g
  (String.mk cs, g)

/-! ## Simple emitters: newline, whitespace, comment -/

/-- `_gen_newline`: `choice(("\n", "\r\n"))`. -/
def genNewline (g : Rng) : String × Rng :=
  Rng.choice ["\n", "\r\n"] "\n" g

/-- `_gen_ws`. -/
def genWs (g : Rng) : String × Rng :=
  let (n, g) := randExp MEAN_WS_LEN 0 MAX_WS_LEN g
  if n = 0 then ("", g)
  else
    let (cs, g) := Rng.choices ['\t', ' '] ' ' n g
    (String.mk cs, g)

/-- One comment character given its drawn type tag (1..5). -/
def genCommentChar (t : Nat) (g : Rng) : Char × Rng :=
  if t = 1 then Rng.choice ['\t', ' ', ' ', ' ', ' '] ' ' g
  else if t = 2 then Rng.choice ['#', dqC, sqC, bsC] '#' g
  else if t = 3 then
    let (c, g) := Rng.randNat 0x80 0xd7ff g
    (Char.ofNat c, g)
  else if t = 4 then
    let (c, g) := Rng.randNat 0xe000 0x10ffff g
    (Char.ofNat c, g)
  else
    let (c, g) := Rng.randNat 0x21 0x7e g
    (Char.ofNat c, g)

/-- Map the drawn character types to characters, in order. -/
def genCommentChars : List Nat → Rng → List Char × Rng
  | [], g => ([], g)
  | t :: ts, g =>
    let (c, g) := genCommentChar t g
    let (cs, g) := genCommentChars ts g
    (c :: cs, g)

/-- `_gen_comment`. -/
def genComment (g : Rng) : String × Rng :=
  let (n, g) := randExp MEAN_COMMENT_LEN 0 MAX_COMMENT_LEN g
  let (ts, g) := Rng.choices [1, 2, 3, 4, 5] 5 n g
  let (cs, g) := genCommentChars ts g
  ("#" ++ String.mk cs, g)

/-! ## Data model

`Val` is `_ValueType`: the semantic TOML value attached to the document.
The tree built by `Context` (`_InternalTableType`) stores values, `Table`
nodes (with their `defined`/`dotted` flags) and `TableArray` nodes. -/

/-- A key (`_KeyType`, a tuple of strings). -/
abbrev Key := List String

/-- Semantic TOML values (`_ValueType`).  Floats are recorded by their
underscore-stripped literal text (IEEE-754 conversion abstracted). -/
inductive Val : Type where
  | str (s : String)
  | boolean (b : Bool)
  | intv (i : Int)
  | floatv (text : String)
  | dateV (y m d : Nat)
  | timeV (h mi s us : Nat)
  | localDT (y m d h mi s us : Nat)
  | offsetDT (y m d h mi s us : Nat) (tz : Int)
  | arr (elems : List Val)
  | tbl (elems : List (String × Val))

mutual
/-- A child of an internal table: a plain value, a `TomlGenerator.Table`
(with `defined` and `dotted` flags) or a `TomlGenerator.TableArray`. -/
inductive Child : Type where
  | value (v : Val)
  | table (defined dotted : Bool) (elems : ITable)
  | tarray (elems : TList)

/-- An internal table (`_InternalTableType`): an insertion-ordered map from
key segments to children, as a Python `dict`. -/
inductive ITable : Type where
  | nil
  | cons (k : String) (c : Child) (rest : ITable)

/-- The element list of a `TableArray`. -/
inductive TList : Type where
  | nil
  | cons (t : ITable) (rest : TList)
end

namespace ITable

/-- Python `p in tbl`. -/
def contains : ITable → String → Bool
  | .nil, _ => false
  | .cons k _ rest, p => if k = p then true else contains rest p

/-- Python `tbl[p]` (first binding wins, as in a `dict`). -/
def find? : ITable → String → Option Child
  | .nil, _ => none
  | .cons k c rest, p => if k = p then some c else find? rest p

/-- Python `tbl[p] = c`: replace in place if present, else append at the
end (dict insertion order). -/
def set : ITable → String → Child → ITable
  | .nil, p, c => .cons p c .nil
  | .cons k c0 rest, p, c =>
    if k = p then .cons k c rest else .cons k c0 (set rest p c)

end ITable

namespace TList

/-- Python `elems[-1]`. -/
def last? : TList → Option ITable
  | .nil => none
  | .cons t rest =>
    match rest with
    | .nil => some t
    | .cons _ _ => last? rest

/-- Python `elems.append(t)`. -/
def push : TList → ITable → TList
  | .nil, t => .cons t .nil
  | .cons t0 rest, t => .cons t0 (push rest t)

/-- Replace the last element (used to write back a mutated `elems[-1]`). -/
def setLast : TList → ITable → TList
  | .nil, _ => .nil
  | .cons t0 rest, t =>
    match rest with
    | .nil => .cons t .nil
    | .cons _ _ => .cons t0 (setLast rest t)

end TList

/-! ## Sorting of key lists (the queries return `sorted(keys)`) -/

/-- Python `<` on strings is code-point lexicographic, as is Lean's. -/
def keyLt : Key → Key → Bool
  | [], [] => false
  | [], _ :: _ => true
  | _ :: _, [] => false
  | a :: as, b :: bs =>
    if a < b then true else if b < a then false else keyLt as bs

/-- Insert into a sorted list of keys. -/
def insertKey (x : Key) : List Key → List Key
  | [] => [x]
  | y :: ys => if keyLt x y then x :: y :: ys else y :: insertKey x ys

/-- Python `sorted` on a list of keys (insertion sort; same sorted result). -/
def sortKeys : List Key → List Key
  | [] => []
  | x :: xs => insertKey x (sortKeys xs)

/-! ## Context queries -/

mutual
/-- Paths of all assigned items below a table, in traversal order
(the `rec` of `get_active_item_keys` / `get_item_keys`). -/
def itemKeysIT : ITable → List Key
  | .nil => []
  | .cons k c rest => itemKeysC k c ++ itemKeysIT rest

def itemKeysC (k : String) : Child → List Key
  | .value _ => [[k]]
  | .table _ _ elems => (itemKeysIT elems).map (k :: ·)
  | .tarray l => (itemKeysLast l).map (k :: ·)

/-- Item keys of the *last* element of a table array. -/
def itemKeysLast : TList → List Key
  | .nil => []
  | .cons t rest =>
    match rest with
    | .nil => itemKeysIT t
    | .cons _ _ => itemKeysLast rest
end

/-- The `rec` of `get_active_item_prefixes`: paths of dotted tables,
recursing only into dotted tables. -/
def itemPresIT : ITable → List Key
  | .nil => []
  | .cons k c rest =>
    (match c with
     | .table _ true elems => [k] :: (itemPresIT elems).map (k :: ·)
     | _ => []) ++ itemPresIT rest

/-- `get_active_subtable_keys`: direct children that are non-dotted tables
or table arrays. -/
def subtableKeysIT : ITable → List Key
  | .nil => []
  | .cons k c rest =>
    (match c with
     | .table _ false _ => [[k]]
     | .tarray _ => [[k]]
     | _ => []) ++ subtableKeysIT rest

mutual
/-- The `rec` of `get_table_keys(defined, array)`. -/
def tableKeysIT (df ar : Option Bool) : ITable → List Key
  | .nil => []
  | .cons k c rest => tableKeysC df ar k c ++ tableKeysIT df ar rest

def tableKeysC (df ar : Option Bool) (k : String) : Child → List Key
  | .value _ => []
  | .table dfn _ elems =>
    (if ar ≠ some true ∧ (df = none ∨ df = some dfn) then [[k]] else []) ++
      (tableKeysIT df ar elems).map (k :: ·)
  | .tarray l =>
    (if ar ≠ some false then [[k]] else []) ++
      (tableKeysLast df ar l).map (k :: ·)

def tableKeysLast (df ar : Option Bool) : TList → List Key
  | .nil => []
  | .cons t rest =>
    match rest with
    | .nil => tableKeysIT df ar t
    | .cons _ _ => tableKeysLast df ar rest
end

mutual
/-- `Context._simplify_tables`. -/
def simplifyIT : ITable → List (String × Val)
  | .nil => []
  | .cons k c rest => (k, simplifyC c) :: simplifyIT rest

def simplifyC : Child → Val
  | .value v => v
  | .table _ _ elems => .tbl (simplifyIT elems)
  | .tarray l => .arr (simplifyTL l)

def simplifyTL : TList → List Val
  | .nil => []
  | .cons t rest => .tbl (simplifyIT t) :: simplifyTL rest
end

/-! ## Resolution of paths (for stating invariants and preconditions) -/

/-- Resolve a path to the child it names, descending through tables and
through the *last* element of table arrays (the traversal rule of
`_make_subtable` and of all queries). -/
def resolveC : ITable → Key → Option Child
  | _, [] => none
  | t, [p] => t.find? p
  | t, p :: rest =>
    match t.find? p with
    | some (.table _ _ elems) => resolveC elems rest
    | some (.tarray l) =>
      match l.last? with
      | some e => resolveC e rest
      | none => none
    | _ => none

/-- Resolve a path to a table *position* (the dict a reference like
`active_table` points at): tables yield their `elems`, arrays their last
element. -/
def resolveT : ITable → Key → Option ITable
  | t, [] => some t
  | t, p :: rest =>
    match t.find? p with
    | some (.table _ _ elems) => resolveT elems rest
    | some (.tarray l) =>
      match l.last? with
      | some e => resolveT e rest
      | none => none
    | _ => none

/-! ## Context -/

/-- Failure modes of the embedded generator.  `assertFail` models exactly
the `assert` statements of the tree model; `typeErr` models dynamic-type
confusion that Python would raise as an exception (never an `assert`);
`fuelEmpty` models exhaustion of the explicit fuel given to the source's
unbounded loops. -/
inductive GenErr : Type where
  | assertFail
  | typeErr
  | fuelEmpty
  deriving DecidableEq

/-- `TomlGenerator.Context`: the root table plus the active table.  The
Python `active_table` reference is represented by the path from the root
at which it sits; `resolveT data active` is the dict it aliases.  Every
operation that appends to a table array also resets `active`, so the
path-based representation agrees with the reference-based one. -/
structure Ctx where
  data : ITable
  active : Key

def Ctx.init : Ctx := ⟨.nil, []⟩

/-- `Context.open_table` (including `_make_subtable(..., dotted=False)` on
the leading segments): create missing ancestors, check the asserts, set
`defined` and return the updated table. -/
def openTableGo : ITable → Key → Except GenErr ITable
  | _, [] => .error .typeErr
  | t, [p] =>
    match t.find? p with
    | none => .ok (t.set p (.table true false .nil))
    | some (.table df dt elems) =>
      if df || dt then .error .assertFail
      else .ok (t.set p (.table true false elems))
    | some _ => .error .assertFail
  | t, p :: rest =>
    match t.find? p with
    | none => do
      let sub ← openTableGo .nil rest
      .ok (t.set p (.table false false sub))
    | some (.table df dt elems) => do
      let e ← openTableGo elems rest
      .ok (t.set p (.table df dt e))
    | some (.tarray l) =>
      match l.last? with
      | some last => do
        let e ← openTableGo last rest
        .ok (t.set p (.tarray (l.setLast e)))
      | none => .error .typeErr
    | some (.value _) => .error .assertFail

def Ctx.openTable (ctx : Ctx) (key : Key) : Except GenErr Ctx := do
  let d ← openTableGo ctx.data key
  .ok ⟨d, key⟩

/-- `Context.open_table_array`. -/
def openTableArrayGo : ITable → Key → Except GenErr ITable
  | _, [] => .error .typeErr
  | t, [p] =>
    match t.find? p with
    | none => .ok (t.set p (.tarray (.cons .nil .nil)))
    | some (.tarray l) => .ok (t.set p (.tarray (l.push .nil)))
    | some _ => .error .assertFail
  | t, p :: rest =>
    match t.find? p with
    | none => do
      let sub ← openTableArrayGo .nil rest
      .ok (t.set p (.table false false sub))
    | some (.table df dt elems) => do
      let e ← openTableArrayGo elems rest
      .ok (t.set p (.table df dt e))
    | some (.tarray l) =>
      match l.last? with
      | some last => do
        let e ← openTableArrayGo last rest
        .ok (t.set p (.tarray (l.setLast e)))
      | none => .error .typeErr
    | some (.value _) => .error .assertFail

def Ctx.openTableArray (ctx : Ctx) (key : Key) : Except GenErr Ctx := do
  let d ← openTableArrayGo ctx.data key
  .ok ⟨d, key⟩

/-- `Context.assign` relative to the table it is applied to (the active
table): `_make_subtable(active_table, key[:-1], dotted=True)` plus the
final `assert p not in tbl` and insertion. -/
def assignGo : ITable → Key → Val → Except GenErr ITable
  | _, [], _ => .error .typeErr
  | t, [p], v =>
    if t.contains p then .error .assertFail else .ok (t.set p (.value v))
  | t, p :: rest, v =>
    match t.find? p with
    | none => do
      let sub ← assignGo .nil rest v
      .ok (t.set p (.table true true sub))
    | some (.table df dt elems) => do
      let e ← assignGo elems rest v
      .ok (t.set p (.table df dt e))
    | some (.tarray l) =>
      match l.last? with
      | some last => do
        let e ← assignGo last rest v
        .ok (t.set p (.tarray (l.setLast e)))
      | none => .error .typeErr
    | some (.value _) => .error .assertFail

/-- Apply a table-level mutation at the position the active path names. -/
def modifyAt (t : ITable) (path : Key) (f : ITable → Except GenErr ITable) :
    Except GenErr ITable :=
  match path with
  | [] => f t
  | p :: rest =>
    match t.find? p with
    | some (.table df dt elems) => do
      let e ← modifyAt elems rest f
      .ok (t.set p (.table df dt e))
    | some (.tarray l) =>
      match l.last? with
      | some last => do
        let e ← modifyAt last rest f
        .ok (t.set p (.tarray (l.setLast e)))
      | none => .error .typeErr
    | _ => .error .typeErr

def Ctx.assign (ctx : Ctx) (key : Key) (v : Val) : Except GenErr Ctx := do
  let d ← modifyAt ctx.data ctx.active (fun t => assignGo t key v)
  .ok ⟨d, ctx.active⟩

/-- `get_active_item_keys` etc. operate on the table the `active_table`
reference aliases; an unresolvable active path (impossible in the Python
aliasing semantics) yields the empty table. -/
def Ctx.activeTable (ctx : Ctx) : ITable :=
  (resolveT ctx.data ctx.active).getD .nil

def Ctx.getActiveItemKeys (ctx : Ctx) : List Key :=
  sortKeys (itemKeysIT ctx.activeTable)

def Ctx.getActiveItemPres (ctx : Ctx) : List Key :=
  sortKeys (itemPresIT ctx.activeTable)

def Ctx.getActiveSubtableKeys (ctx : Ctx) : List Key :=
  sortKeys (subtableKeysIT ctx.activeTable)

def Ctx.getItemKeys (ctx : Ctx) : List Key :=
  sortKeys (itemKeysIT ctx.data)

def Ctx.getTableKeys (ctx : Ctx) (df ar : Option Bool) : List Key :=
  sortKeys (tableKeysIT df ar ctx.data)

/-- `Context.get_data`. -/
def Ctx.getData (ctx : Ctx) : List (String × Val) :=
  simplifyIT ctx.data

/-! ## String values -/

/-- `_gen_basic_char`: returns `(doc_char, val_char)`. -/
def genBasicChar (g : Rng) : (String × String) × Rng :=
  let (r, g) := g.randFloat
  if r < mkRat 1 20 then -- 0.5 * PROB_ESCAPE_CHAR
    let (i, g) := Rng.randNat 0 (ESCAPE_CHARS.length - 1) g
    let (c, sym) := ESCAPE_CHARS.getD i (0x08, "b")
    ((bsS ++ sym, String.mk [Char.ofNat c]), g)
  else if r < PROB_ESCAPE_CHAR then
    let (r2, g) := g.randFloat
    let (c, g) :=
      if r2 < mkRat 1 2 then Rng.randNat 0 0xd7ff g
      else Rng.randNat 0xe000 0x10ffff g
    if c < 0x10000 ∧ r2 < mkRat 9 10 then
      let (h, g) := randFormatHex c 4 g
      ((bsS ++ "u" ++ h, String.mk [Char.ofNat c]), g)
    else
      let (h, g) := randFormatHex c 8 g
      ((bsS ++ "U" ++ h, String.mk [Char.ofNat c]), g)
  else
    let (r3, g) := g.randFloat
    let (c, g) :=
      if r3 < mkRat 1 10 then
        let (c, g) := Rng.randNat 0x20 0x2f g
        (if c = 0x22 then 0x09 else c, g)
      else if r3 < mkRat 8 10 then
        let (c, g) := Rng.randNat 0x30 0x7e g
        (if c = 0x5c then 0x41 else c, g)
      else if r3 < mkRat 9 10 then Rng.randNat 0x80 0xd7ff g
      else Rng.randNat 0xe000 0x10ffff g
    ((String.mk [Char.ofNat c], String.mk [Char.ofNat c]), g)

/-- The character loop of `_gen_basic_string`. -/
def genBasicChars : Nat → Rng → (String × String) × Rng
  | 0, g => (("", ""), g)
  | n + 1, g =>
    let ((d, v), g) := genBasicChar g
    let ((ds, vs), g) := genBasicChars n g
    ((d ++ ds, v ++ vs), g)

/-- `_gen_basic_string`. -/
def genBasicString (g : Rng) : (String × String) × Rng :=
  let (n, g) := randExp MEAN_STRING_LEN 0 MAX_STRING_LEN g
  let ((d, v), g) := genBasicChars n g
  ((dqS ++ d ++ dqS, v), g)

/-- `_gen_literal_char`. -/
def genLiteralChar (g : Rng) : Char × Rng :=
  let (r, g) := g.randFloat
  if r < mkRat 1 10 then
    let (c, g) := Rng.randNat 0x20 0x2f g
    (Char.ofNat (if c = 0x27 then 0x09 else c), g)
  else if r < mkRat 8 10 then
    let (c, g) := Rng.randNat 0x30 0x7e g
    (Char.ofNat c, g)
  else if r < mkRat 9 10 then
    let (c, g) := Rng.randNat 0x80 0xd7ff g
    (Char.ofNat c, g)
  else
    let (c, g) := Rng.randNat 0xe000 0x10ffff g
    (Char.ofNat c, g)

/-- The character loop of `_gen_literal_string`. -/
def genLiteralChars : Nat → Rng → List Char × Rng
  | 0, g => ([], g)
  | n + 1, g =>
    let (c, g) := genLiteralChar g
    let (cs, g) := genLiteralChars n g
    (c :: cs, g)

/-- `_gen_literal_string`. -/
def genLiteralString (g : Rng) : (String × String) × Rng :=
  let (n, g) := randExp MEAN_STRING_LEN 0 MAX_STRING_LEN g
  let (cs, g) := genLiteralChars n g
  let val := String.mk cs
  ((sqS ++ val ++ sqS, val), g)

/-! ## Multiline strings

Each loop iteration of `_gen_ml_basic_string` / `_gen_ml_literal_string`
is modelled by a step function that also reports which branch was taken
(a ghost observation of the source's control flow). -/

/-- Which branch a multiline-string loop iteration took. -/
inductive MlTag : Type where
  | quote
  | newline
  | escNl
  | chr
  deriving DecidableEq

/-- The whitespace-retry loop inside `_gen_ml_basic_string`
(`while True: ... if allow_whitespace or (doc_char not in "\t "): break`).
On fuel exhaustion the last drawn character is returned. -/
def mlBasicCharRetry : Nat → Bool → Rng → (String × String) × Rng
  | 0, _, g => genBasicChar g
  | f + 1, allowWs, g =>
    let ((d, v), g) := genBasicChar g
    if allowWs || !(d = "\t" || d = " ") then ((d, v), g)
    else mlBasicCharRetry f allowWs g

/-- The `(ws newline){0..2}` run of the line-continuation branch. -/
def escNlRuns : Nat → Rng → String × Rng
  | 0, g => ("", g)
  | k + 1, g =>
    let (w, g) := genWs g
    let (nl, g) := genNewline g
    let (rest, g) := escNlRuns k g
    (w ++ nl ++ rest, g)

/-- One loop iteration of `_gen_ml_basic_string`: takes whether the model
value accumulated so far is non-empty plus the `allow_quote` /
`allow_whitespace` flags; returns the branch tag, the document / value
units and the new flags. -/
def mlBasicIter (rfuel : Nat) (valsNonempty allowQuote allowWs : Bool)
    (g : Rng) : (MlTag × (String × String) × Bool × Bool) × Rng :=
  let (r, g) := g.randFloat
  if allowQuote && decide (r < PROB_ML_QUOTE) then
    if r < mkRat 1 20 then -- 0.5 * PROB_ML_QUOTE
      ((.quote, (dqS ++ dqS, dqS ++ dqS), false, true), g)
    else
      ((.quote, (dqS, dqS), false, true), g)
  else
    let (r, g) := g.randFloat
    if decide (r < PROB_ML_NEWLINE) && valsNonempty && allowWs then
      let (nl, g) := genNewline g
      ((.newline, (nl, "\n"), true, allowWs), g)
    else if r < mkRat 3 20 then -- PROB_ML_NEWLINE + PROB_ML_ESCAPED_NEWLINE
      let (w1, g) := genWs g
      let (nl1, g) := genNewline g
      let (k, g) := Rng.randNat 0 2 g
      let (mid, g) := escNlRuns k g
      let (w2, g) := genWs g
      ((.escNl, (bsS ++ w1 ++ nl1 ++ mid ++ w2, ""), true, false), g)
    else
      let ((d, v), g) := mlBasicCharRetry rfuel allowWs g
      ((.chr, (d, v), true, true), g)

/-- The body loop of `_gen_ml_basic_string`. -/
def mlBasicLoop (rfuel : Nat) :
    Nat → String → String → Bool → Bool → Rng → (String × String) × Rng
  | 0, docs, vals, _, _, g => ((docs, vals), g)
  | n + 1, docs, vals, aq, aw, g =>
    let ((_, (d, v), aq', aw'), g) := mlBasicIter rfuel (!vals.isEmpty) aq aw g
    mlBasicLoop rfuel n (docs ++ d) (vals ++ v) aq' aw' g

/-- `_gen_ml_basic_string`, split so that the body between the delimiters
is accessible. -/
def genMlBasicBody (rfuel : Nat) (g : Rng) : (String × String) × Rng :=
  let (n, g) := randExp MEAN_MLSTRING_LEN 0 MAX_MLSTRING_LEN g
  let (lead, g) := Rng.randNat 0 1 g
  let (leadStr, g) := if lead > 0 then genNewline g else ("", g)
  mlBasicLoop rfuel n leadStr "" true true g

/-- `_gen_ml_basic_string`. -/
def genMlBasicString (rfuel : Nat) (g : Rng) : (String × String) × Rng :=
  let ((body, val), g) := genMlBasicBody rfuel g
  ((dqS ++ dqS ++ dqS ++ body ++ dqS ++ dqS ++ dqS, val), g)

/-- One loop iteration of `_gen_ml_literal_string`. -/
def mlLiteralIter (valsNonempty allowQuote : Bool) (g : Rng) :
    (MlTag × (String × String) × Bool) × Rng :=
  let (r, g) := g.randFloat
  if allowQuote && decide (r < PROB_ML_QUOTE) then
    if r < mkRat 1 20 then -- 0.5 * PROB_ML_QUOTE
      ((.quote, (sqS ++ sqS, sqS ++ sqS), false), g)
    else
      ((.quote, (sqS, sqS), false), g)
  else
    let (r, g) := g.randFloat
    if decide (r < PROB_ML_NEWLINE) && valsNonempty then
      let (nl, g) := genNewline g
      ((.newline, (nl, "\n"), true), g)
    else
      let (c, g) := genLiteralChar g
      ((.chr, (String.mk [c], String.mk [c]), true), g)

/-- The body loop of `_gen_ml_literal_string`. -/
def mlLiteralLoop : Nat → String → String → Bool → Rng → (String × String) × Rng
  | 0, docs, vals, _, g => ((docs, vals), g)
  | n + 1, docs, vals, aq, g =>
    let ((_, (d, v), aq'), g) := mlLiteralIter (!vals.isEmpty) aq g
    mlLiteralLoop n (docs ++ d) (vals ++ v) aq' g

/-- `_gen_ml_literal_string`, split so that the body is accessible. -/
def genMlLiteralBody (g : Rng) : (String × String) × Rng :=
  let (n, g) := randExp MEAN_MLSTRING_LEN 0 MAX_MLSTRING_LEN g
  let (lead, g) := Rng.randNat 0 1 g
  let (leadStr, g) := if lead > 0 then genNewline g else ("", g)
  mlLiteralLoop n leadStr "" true g

/-- `_gen_ml_literal_string`. -/
def genMlLiteralString (g : Rng) : (String × String) × Rng :=
  let ((body, val), g) := genMlLiteralBody g
  ((sqS ++ sqS ++ sqS ++ body ++ sqS ++ sqS ++ sqS, val), g)

/-- `_gen_string`. -/
def genString (rfuel : Nat) (g : Rng) : (String × String) × Rng :=
  let (idx, g) := Rng.randNat 0 3 g
  match idx with
  | 0 => genMlBasicString rfuel g
  | 1 => genBasicString g
  | 2 => genMlLiteralString g
  | _ => genLiteralString g

/-! ## Keys -/

/-- A character acceptable in an unquoted key (`ALPHA / DIGIT / "-" / "_"`). -/
def bareChar (c : Char) : Bool :=
  c = '-' || c = '_' || (0x30 ≤ c.toNat && c.toNat ≤ 0x39) ||
    (97 ≤ c.toNat && c.toNat ≤ 122) || (65 ≤ c.toNat && c.toNat ≤ 90)

/-- A character acceptable in a literal string (`literal-char`). -/
def litChar (c : Char) : Bool :=
  c.toNat = 0x09 || (0x20 ≤ c.toNat && c.toNat ≤ 0x7e && c ≠ sqC) ||
    (0x80 ≤ c.toNat && c.toNat ≤ 0xd7ff) ||
    (0xe000 ≤ c.toNat && c.toNat ≤ 0x10ffff)

/-- A character acceptable unescaped in a basic string (`basic-unescaped`). -/
def basicUnesc (c : Char) : Bool :=
  c.toNat = 0x09 || (0x20 ≤ c.toNat && c.toNat ≤ 0x7e && c ≠ dqC && c ≠ bsC) ||
    (0x80 ≤ c.toNat && c.toNat ≤ 0xd7ff) ||
    (0xe000 ≤ c.toNat && c.toNat ≤ 0x10ffff)

/-- The Python list `[chr(ord('a')+i) ...] + [chr(ord('A')+i) ...]`. -/
def letterChars : List Char :=
  (List.range 26).map (fun i => Char.ofNat (97 + i)) ++
    (List.range 26).map (fun i => Char.ofNat (65 + i))

/-- One character of `_gen_unquoted_key`. -/
def unquotedKeyChar (g : Rng) : Char × Rng :=
  let (r, g) := g.randFloat
  if r < mkRat 1 2 then Rng.choice "0123456789-_".data '0' g
  else Rng.choice letterChars 'a' g

def unquotedKeyChars : Nat → Rng → List Char × Rng
  | 0, g => ([], g)
  | n + 1, g =>
    let (c, g) := unquotedKeyChar g
    let (cs, g) := unquotedKeyChars n g
    (c :: cs, g)

/-- `_gen_unquoted_key`. -/
def genUnquotedKey (g : Rng) : (String × String) × Rng :=
  let (n, g) := randExp MEAN_KEY_LEN 1 MAX_KEY_LEN g
  let (cs, g) := unquotedKeyChars n g
  let key := String.mk cs
  ((key, key), g)

/-- `_gen_simple_key`. -/
def genSimpleKey (g : Rng) : (String × String) × Rng :=
  let (r, g) := g.randFloat
  if r < PROB_QUOTED_KEY then
    if r < mkRat 1 5 then genBasicString g -- 0.5 * PROB_QUOTED_KEY
    else genLiteralString g
  else genUnquotedKey g

/-- The escape symbol `ESCAPE_CHARS[n]`. -/
def escSym (n : Nat) : String :=
  ((ESCAPE_CHARS.find? (fun p => p.1 == n)).map (·.2)).getD ""

/-- Rendering of one character inside the basic-string branch of
`_format_simple_key`. -/
def fmtKeyChar (c : Char) (g : Rng) : String × Rng :=
  let needEscape := !basicUnesc c
  let (r, g) := g.randFloat
  if needEscape || decide (r < PROB_ESCAPE_CHAR) then
    let (r, g) := g.randFloat
    if (ESCAPE_CHARS.any (fun p => p.1 == c.toNat)) && decide (r < mkRat 1 2) then
      (bsS ++ escSym c.toNat, g)
    else if c.toNat < 0x10000 ∧ r < mkRat 9 10 then
      let (h, g) := randFormatHex c.toNat 4 g
      (bsS ++ "u" ++ h, g)
    else
      let (h, g) := randFormatHex c.toNat 8 g
      (bsS ++ "U" ++ h, g)
  else (String.mk [c], g)

def fmtKeyChars : List Char → Rng → String × Rng
  | [], g => ("", g)
  | c :: cs, g =>
    let (s, g) := fmtKeyChar c g
    let (rest, g) := fmtKeyChars cs g
    (s ++ rest, g)

/-- `_format_simple_key`. -/
def formatSimpleKey (key : String) (g : Rng) : String × Rng :=
  let needQuote := key.isEmpty || key.data.any (fun c => !bareChar c)
  let needBasic := key.data.any (fun c => !litChar c)
  let (doQuote, g) :=
    if needQuote then (true, g)
    else
      let (r, g) := g.randFloat
      (decide (r < PROB_QUOTED_KEY), g)
  if doQuote then
    let (doBasic, g) :=
      if needBasic then (true, g)
      else
        let (r, g) := g.randFloat
        (decide (r < mkRat 1 2), g)
    if doBasic then
      let (s, g) := fmtKeyChars key.data g
      (dqS ++ s ++ dqS, g)
    else (sqS ++ key ++ sqS, g)
  else (key, g)

/-- Shared loop of `_format_key` and of the prefix rendering in
`_gen_dotted_key`: renders segments, inserting `ws "." ws` separators
before every segment but the first. -/
def formatKeyGo : List String → Bool → Rng → String × Rng
  | [], _, g => ("", g)
  | k :: ks, first, g =>
    let (sep, g) :=
      if first then ("", g)
      else
        let (w1, g) := genWs g
        let (w2, g) := genWs g
        (w1 ++ "." ++ w2, g)
    let (s, g) := formatSimpleKey k g
    let (rest, g) := formatKeyGo ks false g
    (sep ++ s ++ rest, g)

/-- `_format_key`. -/
def formatKey (key : Key) (g : Rng) : String × Rng :=
  formatKeyGo key true g

/-- The fresh-segment loop of `_gen_dotted_key`. -/
def genDottedKeySegs : Nat → Bool → Rng → (String × List String) × Rng
  | 0, _, g => (("", []), g)
  | n + 1, first, g =>
    let (sep, g) :=
      if first then ("", g)
      else
        let (w1, g) := genWs g
        let (w2, g) := genWs g
        (w1 ++ "." ++ w2, g)
    let ((s, k), g) := genSimpleKey g
    let ((rest, ks), g) := genDottedKeySegs n false g
    ((sep ++ s ++ rest, k :: ks), g)

/-- `_gen_dotted_key(prefix)`. -/
def genDottedKey (pre : Key) (g : Rng) : (String × Key) × Rng :=
  let (preStr, g) := formatKeyGo pre true g
  let (n, g) := Rng.randNat 1 MAX_DOTTED_LEN g
  let ((s, ks), g) := genDottedKeySegs n pre.isEmpty g
  ((preStr ++ s, pre ++ ks), g)

/-- The rejection test of `_gen_key`'s loop: the key is not in
`exclude_key` and no proper prefix of it is in `exclude_prefix`. -/
def checkKeyOK (exPre exKeys : List Key) (key : Key) : Bool :=
  !(exKeys.contains key) &&
    !((List.range key.length).any fun i =>
        decide (1 ≤ i) && exPre.contains (key.take i))

/-- The rejection loop of `_gen_key`, with fuel. -/
def genKeyLoop (exPre exKeys : List Key) (pre : Key) :
    Nat → Rng → Except GenErr ((String × Key) × Rng)
  | 0, _ => .error .fuelEmpty
  | fuel + 1, g =>
    let ((ks, key), g) := genDottedKey pre g
    if checkKeyOK exPre exKeys key then .ok ((ks, key), g)
    else genKeyLoop exPre exKeys pre fuel g

/-- `_gen_key`. -/
def genKey (fuel : Nat) (exPre exKeys rePre reKeys : List Key) (g : Rng) :
    Except GenErr ((String × Key) × Rng) :=
  if rePre.isEmpty && reKeys.isEmpty then
    genKeyLoop exPre exKeys [] fuel g
  else
    let (r, g) := g.randFloat
    if r < PROB_EXISTING_KEY then
      let n := rePre.length + reKeys.length
      let (i, g) := Rng.randNat 0 (n - 1) g
      if i < reKeys.length then
        let key := reKeys.getD i []
        let (ks, g) := formatKey key g
        .ok ((ks, key), g)
      else
        let pre := rePre.getD (i - reKeys.length) []
        genKeyLoop exPre exKeys pre fuel g
    else
      genKeyLoop exPre exKeys [] fuel g

/-! ## Numbers -/

/-- The underscore-splicing loop of `_splice_number` on the character
list: one float draw per boundary between adjacent characters. -/
def spliceGo : List Char → Rng → List Char × Rng
  | [], g => ([], g)
  | [c], g => ([c], g)
  | c :: c2 :: rest, g =>
    let (r, g) := g.randFloat
    let (tail, g) := spliceGo (c2 :: rest) g
    if r < mkRat 1 10 then (c :: '_' :: tail, g) else (c :: tail, g)

/-- `_splice_number`. -/
def spliceNumber (s : String) (g : Rng) : String × Rng :=
  let (cs, g) := spliceGo s.data g
  (String.mk cs, g)

/-- Base-`b` digits of `n`, least significant first (fuel-structural so
that the kernel can evaluate it; `n` iterations always suffice). -/
def digitsFuelLSB (b : Nat) : Nat → Nat → List Nat
  | 0, _ => []
  | _ + 1, 0 => []
  | fuel + 1, n + 1 => (n + 1) % b :: digitsFuelLSB b fuel ((n + 1) / b)

def natDigitsLSB (b n : Nat) : List Nat := digitsFuelLSB b n n

/-- Decimal / octal / binary rendering (`str`, `"{:o}".format`,
`"{:b}".format`). -/
def natToBase (b n : Nat) : String :=
  if n = 0 then "0"
  else String.mk ((natDigitsLSB b n).reverse.map fun d => Char.ofNat (48 + d))

/-- `_gen_integer`.  The float magnitude expression
`round(exp(r**2 * log(MAX_INT_VALUE + 1)) - 1)` (an integer in
`[0, MAX_INT_VALUE]` since `r < 1`) is modelled by an oracle draw into
that range. -/
def genInteger (g : Rng) : (String × Int) × Rng :=
  let (k, g) := g.next
  let val : Nat := k % (MAX_INT_VALUE + 1)
  let (fidx, g) := Rng.randNat 0 5 g
  let (body, g) :=
    if fidx ≤ 2 then (natToBase 10 val, g)
    else if fidx = 3 then randFormatHex val 1 g
    else if fidx = 4 then (natToBase 8 val, g)
    else (natToBase 2 val, g)
  let (body, g) :=
    if 3 ≤ fidx then
      let (nz, g) := Rng.randNat 0 3 g
      (String.mk (List.replicate nz '0') ++ body, g)
    else (body, g)
  let (body, g) := spliceNumber body g
  let pre :=
    if fidx = 1 then "+" else if fidx = 2 then "-"
    else if fidx = 3 then "0x" else if fidx = 4 then "0o"
    else if fidx = 5 then "0b" else ""
  let sign : Int := if fidx = 2 then -1 else 1
  ((pre ++ body, sign * (val : Int)), g)

/-- `_gen_dec_int`. -/
def genDecInt (maxVal : Nat) (signed zeroPre : Bool) (g : Rng) :
    (String × Int) × Rng :=
  let (v, g) := Rng.randNat 0 maxVal g
  let (signStr, g) :=
    if signed then Rng.choice ["", "+", "-"] "" g else ("", g)
  let (pz, g) :=
    if zeroPre then
      let (nz, g) := Rng.randNat 0 3 g
      (String.mk (List.replicate nz '0'), g)
    else ("", g)
  let (sp, g) := spliceNumber (pz ++ natToBase 10 v) g
  ((signStr ++ sp, if signStr = "-" then -(v : Int) else (v : Int)), g)

/-- Remove underscores (`s.replace("_", "")`). -/
def stripUnderscores (s : String) : String :=
  String.mk (s.data.filter (· ≠ '_'))

/-- `_gen_float`; the semantic value is recorded as the
underscore-stripped literal text. -/
def genFloat (g : Rng) : (String × Val) × Rng :=
  let (r, g) := g.randFloat
  if r < PROB_SPECIAL_FLOAT then
    let (pre, g) := Rng.choice ["", "+", "-"] "" g
    let (sym, g) := Rng.choice ["inf", "nan"] "inf" g
    ((pre ++ sym, .floatv (pre ++ sym)), g)
  else
    let ((intStr, _), g) := genDecInt 999999 true false g
    let (rr, g) := Rng.randNat 0 2 g
    let (expStr, g) :=
      if rr = 0 ∨ rr = 2 then
        let ((es, _), g) := genDecInt 100 true true g
        let (e, g) := Rng.choice ['e', 'E'] 'e' g
        (String.mk [e] ++ es, g)
      else ("", g)
    let (fracStr, g) :=
      if rr = 1 ∨ rr = 2 then
        let ((fs, _), g) := genDecInt 99999 false true g
        ("." ++ fs, g)
      else ("", g)
    let s := intStr ++ fracStr ++ expStr
    ((s, .floatv (stripUnderscores s)), g)

/-- `_gen_boolean`. -/
def genBoolean (g : Rng) : (String × Bool) × Rng :=
  Rng.choice [("true", true), ("false", false)] ("true", true) g

/-! ## Date and time -/

/-- Zero-padded decimal rendering of width `w`. -/
def pad (w n : Nat) : String :=
  let s := natToBase 10 n
  String.mk (List.replicate (w - s.length) '0') ++ s

/-- The Gregorian leap-year test of `_gen_local_date`. -/
def isLeap (y : Nat) : Bool :=
  y % 400 = 0 || (y % 4 = 0 && y % 100 ≠ 0)

/-- `_gen_local_date`; the document text is `date.isoformat()`. -/
def genLocalDate (g : Rng) : (String × (Nat × Nat × Nat)) × Rng :=
  let (year, g) := Rng.randNat 1000 9999 g
  let (month, g) := Rng.randNat 1 12 g
  let maxday :=
    if month = 2 then (if isLeap year then 29 else 28)
    else if month = 4 ∨ month = 6 ∨ month = 9 ∨ month = 11 then 30
    else 31
  let (day, g) := Rng.randNat 1 maxday g
  ((pad 4 year ++ "-" ++ pad 2 month ++ "-" ++ pad 2 day,
    (year, month, day)), g)

/-- `_gen_local_time`; the document text is `time.isoformat()` (which
shows six fractional digits exactly when the microsecond value is
non-zero) plus the explicitly appended all-zero fraction. -/
def genLocalTime (g : Rng) : (String × (Nat × Nat × Nat × Nat)) × Rng :=
  let (hour, g) := Rng.randNat 0 23 g
  let (minute, g) := Rng.randNat 0 59 g
  let (second, g) := Rng.randNat 0 59 g
  let (r, g) := g.randFloat
  let (usec, suffix, g) :=
    if r < mkRat 1 2 then
      let (rr, g) := Rng.randNat 1 6 g
      (0, "." ++ String.mk (List.replicate rr '0'), g)
    else
      let (rr, g) := Rng.randNat 0 6 g
      let (u, g) := Rng.randNat 0 999999 g
      (u - u % 10 ^ rr, "", g)
  let iso := pad 2 hour ++ ":" ++ pad 2 minute ++ ":" ++ pad 2 second ++
    (if usec ≠ 0 then "." ++ pad 6 usec else "")
  ((iso ++ suffix, (hour, minute, second, usec)), g)

/-- `_gen_timezone`.  The timezone value is its total offset in minutes
(`datetime.timezone.utc` is the zero offset). -/
def genTimezone (g : Rng) : (String × Int) × Rng :=
  let (r, g) := g.randFloat
  if r < mkRat 1 5 then (("Z", 0), g)
  else
    let (delta, g) := Rng.randInt (1 - 24 * 60) (24 * 60 - 1) g
    (((if delta < 0 then "-" else "+") ++
        pad 2 (delta.natAbs / 60) ++ ":" ++ pad 2 (delta.natAbs % 60),
      delta), g)

/-- `_gen_offset_date_time`. -/
def genOffsetDateTime (g : Rng) : (String × Val) × Rng :=
  let ((ds, (y, m, d)), g) := genLocalDate g
  let ((ts, (h, mi, s, us)), g) := genLocalTime g
  let ((tzs, tz), g) := genTimezone g
  let (delim, g) := Rng.choice ['T', 't', ' '] 'T' g
  ((ds ++ String.mk [delim] ++ ts ++ tzs, .offsetDT y m d h mi s us tz), g)

/-- `_gen_local_date_time`. -/
def genLocalDateTime (g : Rng) : (String × Val) × Rng :=
  let ((ds, (y, m, d)), g) := genLocalDate g
  let ((ts, (h, mi, s, us)), g) := genLocalTime g
  let (delim, g) := Rng.choice ['T', 't', ' '] 'T' g
  ((ds ++ String.mk [delim] ++ ts, .localDT y m d h mi s us), g)

/-- `_gen_date_time`. -/
def genDateTime (g : Rng) : (String × Val) × Rng :=
  let (idx, g) := Rng.randNat 0 3 g
  match idx with
  | 0 => genOffsetDateTime g
  | 1 => genLocalDateTime g
  | 2 =>
    let ((s, (y, m, d)), g) := genLocalDate g
    ((s, .dateV y m d), g)
  | _ =>
    let ((s, (h, mi, sec, us)), g) := genLocalTime g
    ((s, .timeV h mi sec us), g)

/-! ## Arrays, inline tables, values, expressions, document -/

/-- One item of `_gen_ws_comment_newline`. -/
def wsCommentNewlineItem (g : Rng) : String × Rng :=
  let (r, g) := Rng.randNat 0 5 g
  let (a, g) := if r < 4 then genWs g else ("", g)
  let (b, g) := if r = 2 ∨ r = 4 then genComment g else ("", g)
  let (c, g) := if 2 ≤ r then genNewline g else ("", g)
  (a ++ b ++ c, g)

def wcnLoop : Nat → Rng → String × Rng
  | 0, g => ("", g)
  | n + 1, g =>
    let (s, g) := wsCommentNewlineItem g
    let (rest, g) := wcnLoop n g
    (s ++ rest, g)

/-- `_gen_ws_comment_newline`. -/
def genWsCommentNewline (g : Rng) : String × Rng :=
  let (n, g) := randExp 2 0 5 g
  wcnLoop n g

/-- Association-list analogues of the Python `dict` operations used by
`_gen_inline_table` on its scratch `_TableType`. -/
def findAssoc : List (String × Val) → String → Option Val
  | [], _ => none
  | (k, v) :: rest, p => if k = p then some v else findAssoc rest p

def setAssoc : List (String × Val) → String → Val → List (String × Val)
  | [], p, v => [(p, v)]
  | (k, v0) :: rest, p, v =>
    if k = p then (k, v) :: rest else (k, v0) :: setAssoc rest p v

/-- The nested-dict insertion of `_gen_inline_table` (`subtbl[p] = {}` for
missing ancestors, then `subtbl[p] = v`); descending into a non-dict is a
Python `TypeError`, modelled as `typeErr`. -/
def insertNested : List (String × Val) → Key → Val →
    Except GenErr (List (String × Val))
  | _, [], _ => .error .typeErr
  | tbl, [p], v => .ok (setAssoc tbl p v)
  | tbl, p :: rest, v =>
    match findAssoc tbl p with
    | none => do
      let sub ← insertNested [] rest v
      .ok (setAssoc tbl p (.tbl sub))
    | some (.tbl sub) => do
      let sub2 ← insertNested sub rest v
      .ok (setAssoc tbl p (.tbl sub2))
    | some _ => .error .typeErr

/-- The `item_prefixes` update of `_gen_inline_table`: append every proper
front of `key` not yet present, shortest first. -/
def addPres (key : Key) (pres : List Key) : List Key :=
  (List.range key.length).foldl
    (fun acc i =>
      if 1 ≤ i ∧ ¬acc.contains (key.take i) then acc ++ [key.take i]
      else acc)
    pres

/-- The element loop of `_gen_array`, parameterized by the value
generator (`_gen_val` one fuel level down). -/
def genArrayElemsF (gv : Rng → Except GenErr ((String × Val) × Rng)) :
    Nat → Bool → Rng → Except GenErr ((String × List Val) × Rng)
  | 0, _, g => .ok (("", []), g)
  | n + 1, first, g =>
    match
      (if first then (("", ""), g)
       else
         let (w, g) := genWsCommentNewline g
         ((w, ","), g)) with
    | ((sepW, sepC), g) =>
      let (w1, g) := genWsCommentNewline g
      match gv g with
      | .error e => .error e
      | .ok ((s, v), g) =>
        match genArrayElemsF gv n false g with
        | .error e => .error e
        | .ok ((rest, vs), g) =>
          .ok ((sepW ++ sepC ++ w1 ++ s ++ rest, v :: vs), g)

/-- `_gen_array`, parameterized by the value generator. -/
def genArrayF (gv : Rng → Except GenErr ((String × Val) × Rng)) (g : Rng) :
    Except GenErr ((String × Val) × Rng) :=
  let (n, g) := randExp MEAN_ARRAY_ELEMS 0 MAX_ARRAY_ELEMS g
  match genArrayElemsF gv n true g with
  | .error e => .error e
  | .ok ((parts, vals), g) =>
    let (tail, g) :=
      if 0 < n then
        let (r, g) := g.randFloat
        if r < mkRat 1 2 then
          let (w, g) := genWsCommentNewline g
          (w ++ ",", g)
        else ("", g)
      else ("", g)
    let (wfin, g) := genWsCommentNewline g
    .ok (("[" ++ parts ++ tail ++ wfin ++ "]", .arr vals), g)

/-- The key-value loop of `_gen_inline_table`, carrying the local
`item_keys` / `item_prefixes` / scratch table; `gk` is `_gen_key`
applied to the local constraint lists, `gv` is `_gen_val`. -/
def genInlineItemsF
    (gk : List Key → List Key → List Key → Rng →
      Except GenErr ((String × Key) × Rng))
    (gv : Rng → Except GenErr ((String × Val) × Rng)) :
    Nat → Bool → List Key → List Key → List (String × Val) → Rng →
      Except GenErr ((String × List (String × Val)) × Rng)
  | 0, _, _, _, tbl, g => .ok (("", tbl), g)
  | n + 1, first, itemKeys, itemPres, tbl, g =>
    match gk itemKeys (itemKeys ++ itemPres) itemPres g with
    | .error e => .error e
    | .ok ((keyStr, key), g) =>
      match gv g with
      | .error e => .error e
      | .ok ((valStr, v), g) =>
        let (sep, g) :=
          if first then ("", g)
          else
            let (w, g) := genWs g
            (w ++ ",", g)
        let (w1, g) := genWs g
        let (w2, g) := genWs g
        let (w3, g) := genWs g
        let part := sep ++ w1 ++ keyStr ++ w2 ++ "=" ++ w3 ++ valStr
        match insertNested tbl key v with
        | .error e => .error e
        | .ok tbl2 =>
          match
            genInlineItemsF gk gv n false (itemKeys ++ [key])
              (addPres key itemPres) tbl2 g with
          | .error e => .error e
          | .ok ((rest, tblF), g) => .ok ((part ++ rest, tblF), g)

/-- `_gen_inline_table`, parameterized like `genInlineItemsF`. -/
def genInlineTableF
    (gk : List Key → List Key → List Key → Rng →
      Except GenErr ((String × Key) × Rng))
    (gv : Rng → Except GenErr ((String × Val) × Rng)) (g : Rng) :
    Except GenErr ((String × Val) × Rng) :=
  let (n, g) := randExp MEAN_ARRAY_ELEMS 0 MAX_ARRAY_ELEMS g
  match genInlineItemsF gk gv n true [] [] [] g with
  | .error e => .error e
  | .ok ((parts, tbl), g) =>
    let (w, g) := genWs g
    .ok (("\x7b" ++ parts ++ w ++ "\x7d", .tbl tbl), g)

/-- `_gen_val`, with fuel bounding the value-nesting depth. -/
def genVal : Nat → Rng → Except GenErr ((String × Val) × Rng)
  | 0, _ => .error .fuelEmpty
  | fuel + 1, g =>
    let (idx, g) := Rng.randNat 0 6 g
    match idx with
    | 0 =>
      let ((s, v), g) := genString (fuel + 1) g
      .ok ((s, .str v), g)
    | 1 =>
      let ((s, b), g) := genBoolean g
      .ok ((s, .boolean b), g)
    | 2 =>
      let ((s, i), g) := genInteger g
      .ok ((s, .intv i), g)
    | 3 =>
      let ((s, v), g) := genFloat g
      .ok ((s, v), g)
    | 4 => genArrayF (genVal fuel) g
    | 5 =>
      genInlineTableF
        (fun exPre exKeys rePre g => genKey fuel exPre exKeys rePre [] g)
        (genVal fuel) g
    | _ =>
      let ((s, v), g) := genDateTime g
      .ok ((s, v), g)

/-- `_gen_array`. -/
def genArray (fuel : Nat) : Rng → Except GenErr ((String × Val) × Rng) :=
  genArrayF (genVal fuel)

/-- `_gen_inline_table`. -/
def genInlineTable (fuel : Nat) :
    Rng → Except GenErr ((String × Val) × Rng) :=
  genInlineTableF
    (fun exPre exKeys rePre g => genKey fuel exPre exKeys rePre [] g)
    (genVal fuel)

/-- `_gen_keyval`. -/
def genKeyval (fuel : Nat) (ctx : Ctx) (g : Rng) :
    Except GenErr ((String × Ctx) × Rng) :=
  let itemKeys := ctx.getActiveItemKeys
  let itemPres := ctx.getActiveItemPres
  let tableKeys := ctx.getActiveSubtableKeys
  match
    genKey fuel (itemKeys ++ tableKeys) (itemKeys ++ itemPres ++ tableKeys)
      itemPres [] g with
  | .error e => .error e
  | .ok ((keyStr, key), g) =>
    match genVal fuel g with
    | .error e => .error e
    | .ok ((valStr, v), g) =>
      let (w1, g) := genWs g
      let (w2, g) := genWs g
      match ctx.assign key v with
      | .error e => .error e
      | .ok ctx2 => .ok ((keyStr ++ w1 ++ "=" ++ w2 ++ valStr, ctx2), g)

/-- `_gen_table`. -/
def genTable (fuel : Nat) (ctx : Ctx) (g : Rng) :
    Except GenErr ((String × Ctx) × Rng) :=
  let (b, g) := Rng.randNat 0 1 g
  if 0 < b then
    let itemKeys := ctx.getItemKeys
    let tableKeys := ctx.getTableKeys none (some false)
    let arrayKeys := ctx.getTableKeys none (some true)
    match
      genKey fuel itemKeys (itemKeys ++ tableKeys) (tableKeys ++ arrayKeys)
        arrayKeys g with
    | .error e => .error e
    | .ok ((keyStr, key), g) =>
      match ctx.openTableArray key with
      | .error e => .error e
      | .ok ctx2 =>
        let (w1, g) := genWs g
        let (w2, g) := genWs g
        .ok (("[[" ++ w1 ++ keyStr ++ w2 ++ "]]", ctx2), g)
  else
    let itemKeys := ctx.getItemKeys
    let implicitKeys := ctx.getTableKeys (some false) (some false)
    let definedKeys := ctx.getTableKeys (some true) (some false)
    let arrayKeys := ctx.getTableKeys none (some true)
    match
      genKey fuel itemKeys (itemKeys ++ definedKeys ++ arrayKeys)
        (implicitKeys ++ definedKeys) implicitKeys g with
    | .error e => .error e
    | .ok ((keyStr, key), g) =>
      match ctx.openTable key with
      | .error e => .error e
      | .ok ctx2 =>
        let (w1, g) := genWs g
        let (w2, g) := genWs g
        .ok (("[" ++ w1 ++ keyStr ++ w2 ++ "]", ctx2), g)

/-- The optional trailing comment of `_gen_expression`. -/
def finishExpr (doc : String) (ctx : Ctx) (g : Rng) :
    Except GenErr ((String × Ctx) × Rng) :=
  let (r, g) := g.randFloat
  if r < PROB_COMMENT then
    let (c, g) := genComment g
    .ok ((doc ++ c, ctx), g)
  else .ok ((doc, ctx), g)

/-- `_gen_expression`. -/
def genExpression (fuel : Nat) (ctx : Ctx) (g : Rng) :
    Except GenErr ((String × Ctx) × Rng) :=
  let (w0, g) := genWs g
  let (r, g) := g.randFloat
  if r < PROB_EXPR_KEYVAL then
    match genKeyval fuel ctx g with
    | .error e => .error e
    | .ok ((s, ctx2), g) =>
      let (w1, g) := genWs g
      finishExpr (w0 ++ s ++ w1) ctx2 g
  else if r < mkRat 4 5 then -- PROB_EXPR_KEYVAL + PROB_EXPR_TABLE
    match genTable fuel ctx g with
    | .error e => .error e
    | .ok ((s, ctx2), g) =>
      let (w1, g) := genWs g
      finishExpr (w0 ++ s ++ w1) ctx2 g
  else finishExpr w0 ctx g

/-- The expression loop of `gen_toml`. -/
def genTomlLoop (fuel : Nat) :
    Nat → Bool → Ctx → String → Rng → Except GenErr ((String × Ctx) × Rng)
  | 0, _, ctx, doc, g => .ok ((doc, ctx), g)
  | n + 1, first, ctx, doc, g =>
    let (nl, g) := if first then ("", g) else genNewline g
    match genExpression fuel ctx g with
    | .error e => .error e
    | .ok ((s, ctx2), g) => genTomlLoop fuel n false ctx2 (doc ++ nl ++ s) g

/-- `gen_toml`: the full document generator. -/
def genToml (fuel : Nat) (g : Rng) :
    Except GenErr ((String × List (String × Val)) × Rng) :=
  let (n, g) := Rng.randNat 1 MAX_EXPRESSIONS g
  match genTomlLoop fuel n true Ctx.init "" g with
  | .error e => .error e
  | .ok ((doc, ctx), g) => .ok ((doc, ctx.getData), g)

/-! ## Concrete oracles and basic PRNG lemmas -/

/-- An oracle reading from a finite list (then zeros). -/
def listRng (l : List Nat) : Rng := ⟨fun i => l.getD i 0, 0⟩

theorem Rng.randNat_le {a b : Nat} (h : a ≤ b) (g : Rng) :
    a ≤ (Rng.randNat a b g).1 ∧ (Rng.randNat a b g).1 ≤ b := by
  show a ≤ a + g.stream g.pos % (b - a + 1) ∧
    a + g.stream g.pos % (b - a + 1) ≤ b
  have hlt : g.stream g.pos % (b - a + 1) < b - a + 1 :=
    Nat.mod_lt _ (by omega)
  omega

theorem Rng.randInt_le {a b : Int} (h : a ≤ b) (g : Rng) :
    a ≤ (Rng.randInt a b g).1 ∧ (Rng.randInt a b g).1 ≤ b := by
  show a ≤ a + (g.stream g.pos : Int) % (b - a + 1) ∧
    a + (g.stream g.pos : Int) % (b - a + 1) ≤ b
  have h1 : 0 ≤ ((g.stream g.pos : Int)) % (b - a + 1) :=
    Int.emod_nonneg _ (by omega)
  have h2 : ((g.stream g.pos : Int)) % (b - a + 1) < b - a + 1 :=
    Int.emod_lt_of_pos _ (by omega)
  omega

theorem randExp_le (mean : ℚ) {lo hi : Nat} (h : lo ≤ hi) (g : Rng) :
    lo ≤ (randExp mean lo hi g).1 ∧ (randExp mean lo hi g).1 ≤ hi := by
  show lo ≤ max lo (min hi (g.stream g.pos)) ∧
    max lo (min hi (g.stream g.pos)) ≤ hi
  constructor
  · exact Nat.le_max_left _ _
  · simp only [max_le_iff]
    exact ⟨h, min_le_left _ _⟩

theorem Rng.choice_mem {α : Type} (l : List α) (dflt : α) (g : Rng)
    (h : l ≠ []) : (Rng.choice l dflt g).1 ∈ l := by
  show l.getD (g.stream g.pos % l.length) dflt ∈ l
  have hlt : g.stream g.pos % l.length < l.length :=
    Nat.mod_lt _ (List.length_pos.mpr h)
  rw [List.getD_eq_getElem l dflt hlt]
  exact List.getElem_mem hlt

/-! ## C2 — timezone offsets -/

/-- C2 (amended): every result of `_gen_timezone` is either the pair
`("Z", 0)` (UTC) or a numeric `±HH:MM` offset whose total minutes lie in
`[-(24*60-1), 24*60-1]`.  (The claim's "never zero" is refuted by
`genTimezone_zero_offset`: `randint(1 - 24*60, 24*60 - 1)` can return 0,
rendered `+00:00`.) -/
theorem genTimezone_spec (g : Rng) :
    (genTimezone g).1 = ("Z", 0) ∨
    ∃ delta : Int, -(24 * 60 - 1) ≤ delta ∧ delta ≤ 24 * 60 - 1 ∧
      (genTimezone g).1 =
        ((if delta < 0 then "-" else "+") ++ pad 2 (delta.natAbs / 60) ++
          ":" ++ pad 2 (delta.natAbs % 60), delta) := by
  unfold genTimezone
  set g1 := (g.randFloat).2 with hg1
  by_cases h : (g.randFloat).1 < mkRat 1 5
  · left
    simp [h]
  · right
    have hb := Rng.randInt_le (a := 1 - 24 * 60) (b := 24 * 60 - 1)
      (by norm_num) g1
    refine ⟨(Rng.randInt (1 - 24 * 60) (24 * 60 - 1) g1).1, by omega, by omega, ?_⟩
    simp [h]

/-- C2 counterexample: a concrete oracle on which `_gen_timezone` emits
the numeric offset `+00:00` with zero total minutes, refuting "never
zero". -/
theorem genTimezone_zero_offset :
    (genTimezone (listRng [2 ^ 52, 1439])).1.1 ≠ "Z" ∧
    (genTimezone (listRng [2 ^ 52, 1439])).1.2 = 0 := by
  constructor
  · decide
  · rfl

/-! ## C6 — determinism -/

/-- C6: the generator is a pure function of the seeded PRNG state: two
runs from equal oracle states produce identical documents and models
(there is no other input or ambient state in the model). -/
theorem genToml_deterministic (fuel : Nat) (g1 g2 : Rng)
    (hs : g1.stream = g2.stream) (hp : g1.pos = g2.pos) :
    genToml fuel g1 = genToml fuel g2 := by
  obtain ⟨s1, p1⟩ := g1
  obtain ⟨s2, p2⟩ := g2
  simp only at hs hp
  subst hs
  subst hp
  rfl

/-- Witness for C6 at a concrete seed. -/
theorem genToml_deterministic_witness :
    genToml 1 (listRng [0]) = genToml 1 (listRng [0]) :=
  genToml_deterministic 1 (listRng [0]) (listRng [0]) rfl rfl

/-! ## C1 — dotted-key length -/

theorem genDottedKeySegs_len (n : Nat) : ∀ (first : Bool) (g : Rng),
    ((genDottedKeySegs n first g).1.2).length = n := by
  induction n with
  | zero => intro _ _; rfl
  | succ n ih =>
    intro first g
    simp only [genDottedKeySegs, ih, List.length_cons]

theorem genDottedKey_shape (pre : Key) (g : Rng) :
    ∃ ks : List String, (genDottedKey pre g).1.2 = pre ++ ks ∧
      1 ≤ ks.length ∧ ks.length ≤ MAX_DOTTED_LEN := by
  simp only [genDottedKey]
  refine ⟨_, rfl, ?_, ?_⟩ <;> rw [genDottedKeySegs_len]
  · exact (Rng.randNat_le (by decide) _).1
  · exact (Rng.randNat_le (by decide) _).2

/-- The key component of a successful `_gen_key`-style result. -/
def okKey (r : Except GenErr ((String × Key) × Rng)) : Key :=
  match r with
  | .ok ((_, k), _) => k
  | .error _ => []

theorem genKeyLoop_ok {exPre exKeys : List Key} {pre : Key} :
    ∀ {fuel : Nat} {g : Rng} {s : String} {key : Key} {g' : Rng},
    genKeyLoop exPre exKeys pre fuel g = .ok ((s, key), g') →
    (∃ ks, key = pre ++ ks ∧ 1 ≤ ks.length ∧ ks.length ≤ MAX_DOTTED_LEN) ∧
      checkKeyOK exPre exKeys key = true := by
  intro fuel
  induction fuel with
  | zero => intro g s key g' h; exact absurd h (by simp [genKeyLoop])
  | succ fuel ih =>
    intro g s key g' h
    simp only [genKeyLoop] at h
    split at h
    · rename_i hc
      have hk : (genDottedKey pre g).1.2 = key := by
        have h2 := congrArg okKey h
        simpa [okKey] using h2
      rw [← hk]
      exact ⟨genDottedKey_shape pre g, hc⟩
    · exact ih h

theorem List.getD_mem_of_lt {α : Type} (l : List α) (i : Nat) (dflt : α)
    (h : i < l.length) : l.getD i dflt ∈ l := by
  rw [List.getD_eq_getElem l dflt h]
  exact List.getElem_mem h

/-- Structure of every successful `_gen_key` result: either an element of
`reuse_key` returned verbatim, or a reused (possibly empty) prefix
extended by 1..`MAX_DOTTED_LEN` freshly sampled segments, passing the
exclusion check. -/
theorem genKey_ok {fuel : Nat} {exPre exKeys rePre reKeys : List Key}
    {g : Rng} {s : String} {key : Key} {g' : Rng}
    (h : genKey fuel exPre exKeys rePre reKeys g = .ok ((s, key), g')) :
    key ∈ reKeys ∨
    ∃ pre ks, (pre = [] ∨ pre ∈ rePre) ∧ key = pre ++ ks ∧
      1 ≤ ks.length ∧ ks.length ≤ MAX_DOTTED_LEN ∧
      checkKeyOK exPre exKeys key = true := by
  unfold genKey at h
  split at h
  · obtain ⟨⟨ks, hk, h1, h2⟩, hc⟩ := genKeyLoop_ok h
    exact Or.inr ⟨[], ks, Or.inl rfl, hk, h1, h2, hc⟩
  · rename_i hne
    have hn : 0 < rePre.length + reKeys.length := by
      by_contra hcon
      push_neg at hcon
      have h1 : rePre = [] := by
        cases rePre <;> simp_all
      have h2 : reKeys = [] := by
        cases reKeys <;> simp_all
      simp [h1, h2] at hne
    split at h
    rename_i r g2 heqF
    split at h
    · -- a reuse draw was made
      dsimp only at h
      split at h
      · -- i < reKeys.length : reuse an existing key verbatim
        rename_i hlt
        have hk :
            reKeys.getD
              (Rng.randNat 0 (rePre.length + reKeys.length - 1) g2).1 []
              = key := by
          have h2 := congrArg okKey h
          simpa [okKey] using h2
        rw [← hk]
        exact Or.inl (List.getD_mem_of_lt _ _ _ hlt)
      · -- reuse an existing prefix
        rename_i hge
        obtain ⟨⟨ks, hk, h1, h2⟩, hc⟩ := genKeyLoop_ok h
        refine Or.inr ⟨_, ks, Or.inr ?_, hk, h1, h2, hc⟩
        apply List.getD_mem_of_lt
        have hb := Rng.randNat_le
          (a := 0) (b := rePre.length + reKeys.length - 1) (by omega) g2
        omega
    · obtain ⟨⟨ks, hk, h1, h2⟩, hc⟩ := genKeyLoop_ok h
      exact Or.inr ⟨[], ks, Or.inl rfl, hk, h1, h2, hc⟩

/-- C1 (amended): with both reuse sets empty — the claim's bound cannot
hold for arbitrary reuse sets — every key successfully sampled by
`_gen_key` has between 1 and `MAX_DOTTED_LEN = 3` segments.  (In general
a reused key is returned verbatim and a reused prefix is extended by
1..3 fresh segments; see `genKey_ok`.) -/
theorem genKey_segments (fuel : Nat) (exPre exKeys : List Key) (g : Rng)
    (s : String) (key : Key) (g' : Rng)
    (h : genKey fuel exPre exKeys [] [] g = .ok ((s, key), g')) :
    1 ≤ key.length ∧ key.length ≤ MAX_DOTTED_LEN := by
  rcases genKey_ok h with hk | ⟨pre, ks, hpre, hk, h1, h2, _⟩
  · simp at hk
  · rcases hpre with rfl | hmem
    · subst hk
      simpa using ⟨h1, h2⟩
    · simp at hmem

/-- Oracle exhibiting the C1 counterexample. -/
def cexStreamC1 : List Nat :=
  [0, 0, 2 ^ 52, 0, 0, 2 ^ 52, 0, 0, 2 ^ 52, 0, 0, 2 ^ 52]

/-- C1 counterexample: with a non-empty `reuse_key` constraint set,
`_gen_key` returns the reused key verbatim; here it returns a 4-segment
key, exceeding `MAX_DOTTED_LEN = 3`. -/
theorem genKey_four_segments :
    genKey 1 [] [] [] [["a", "b", "c", "d"]] (listRng cexStreamC1) =
      .ok (("a.b.c.d", ["a", "b", "c", "d"]),
        ⟨(listRng cexStreamC1).stream, 12⟩) ∧
    ¬((["a", "b", "c", "d"] : Key).length ≤ MAX_DOTTED_LEN) :=
  ⟨rfl, by decide⟩

/-- Witness for C1 (amended) at a concrete oracle. -/
theorem genKey_segments_witness :
    1 ≤ (["0"] : Key).length ∧ (["0"] : Key).length ≤ MAX_DOTTED_LEN :=
  genKey_segments 1 [] [] (listRng [0, 2 ^ 53 - 1, 1, 0, 0]) "0" ["0"]
    ⟨(listRng [0, 2 ^ 53 - 1, 1, 0, 0]).stream, 5⟩ (by rfl)

/-! ## C9 — multiline newline branch guard -/

/-- C9: in both multiline-string body loops, the branch that emits a raw
newline into the document together with a `"\n"` in the model value is
taken only when the accumulated model value is non-empty (the flag
`valsNonempty` is exactly `val_chars` in the source); consequently on the
first iteration (empty value) that branch is never taken, so the first
content unit is never such a raw newline. -/
theorem ml_newline_guard :
    (∀ rfuel vne aq aw g,
      (mlBasicIter rfuel vne aq aw g).1.1 = MlTag.newline → vne = true) ∧
    (∀ vne aq g,
      (mlLiteralIter vne aq g).1.1 = MlTag.newline → vne = true) := by
  constructor
  · intro rfuel vne aq aw g h
    unfold mlBasicIter at h
    split at h
    split at h
    · split at h <;> exact MlTag.noConfusion h
    · dsimp only at h
      split at h
      · rename_i hcond
        simp only [Bool.and_eq_true, decide_eq_true_eq] at hcond
        exact hcond.1.2
      · split at h <;> exact MlTag.noConfusion h
  · intro vne aq g h
    unfold mlLiteralIter at h
    split at h
    split at h
    · split at h <;> exact MlTag.noConfusion h
    · dsimp only at h
      split at h
      · rename_i hcond
        simp only [Bool.and_eq_true, decide_eq_true_eq] at hcond
        exact hcond.2
      · exact MlTag.noConfusion h

/-- Witness for C9 at a concrete oracle (both newline branches taken with
a non-empty accumulated value). -/
theorem ml_newline_guard_witness : true = true ∧ true = true :=
  ⟨ml_newline_guard.1 0 true true true (listRng [2 ^ 52, 0, 0]) (by decide),
   ml_newline_guard.2 true true (listRng [2 ^ 52, 0, 0]) (by decide)⟩

/-! ## C7 — integers: magnitude bound and underscore placement -/

/-- `"_".join(parts)` on character lists. -/
def joinUS : List (List Char) → List Char
  | [] => []
  | [p] => p
  | p :: q :: rest => p ++ '_' :: joinUS (q :: rest)

/-- A decimal digit or a hex letter of either case (by code point:
`0-9`, `a-f`, `A-F`). -/
def digitLike (c : Char) : Bool :=
  (48 ≤ c.toNat && c.toNat ≤ 57) || (97 ≤ c.toNat && c.toNat ≤ 102) ||
    (65 ≤ c.toNat && c.toNat ≤ 70)

theorem joinUS_cons_head (c : Char) (p : List Char) (ps : List (List Char)) :
    joinUS ((c :: p) :: ps) = c :: joinUS (p :: ps) := by
  cases ps <;> simp [joinUS]

/-- `_splice_number` splits its argument into non-empty consecutive chunks
and joins them with `"_"`. -/
theorem spliceGo_chunks :
    ∀ (l : List Char) (g : Rng), ∃ parts : List (List Char),
      (∀ p ∈ parts, p ≠ []) ∧ parts.flatten = l ∧
      (spliceGo l g).1 = joinUS parts ∧ (l ≠ [] → parts ≠ [])
  | [], _ => ⟨[], by simp [spliceGo, joinUS]⟩
  | [c], _ => ⟨[[c]], by simp [spliceGo, joinUS]⟩
  | c :: c2 :: rest, g => by
    obtain ⟨parts, hne, hfl, hsp, hnn⟩ :=
      spliceGo_chunks (c2 :: rest) g.randFloat.2
    have hpn : parts ≠ [] := hnn (by simp)
    obtain ⟨p, ps, rfl⟩ := List.exists_cons_of_ne_nil hpn
    by_cases hr : g.randFloat.1 < mkRat 1 10
    · refine ⟨[c] :: p :: ps, ?_, ?_, ?_, by simp⟩
      · intro q hq
        rcases List.mem_cons.mp hq with rfl | hq
        · simp
        · exact hne q hq
      · simpa using hfl
      · simp only [spliceGo, joinUS]
        rw [if_pos hr]
        simpa using hsp
    · refine ⟨(c :: p) :: ps, ?_, ?_, ?_, by simp⟩
      · intro q hq
        rcases List.mem_cons.mp hq with rfl | hq
        · simp
        · exact hne q (List.mem_cons_of_mem _ hq)
      · simpa using hfl
      · simp only [spliceGo]
        rw [if_neg hr, joinUS_cons_head]
        simpa using hsp

theorem digitsFuelLSB_lt {b : Nat} (hb : 0 < b) :
    ∀ (fuel n : Nat), ∀ d ∈ digitsFuelLSB b fuel n, d < b := by
  intro fuel
  induction fuel with
  | zero => intro n d hd; simp [digitsFuelLSB] at hd
  | succ fuel ih =>
    intro n d hd
    cases n with
    | zero => simp [digitsFuelLSB] at hd
    | succ n =>
      simp only [digitsFuelLSB, List.mem_cons] at hd
      rcases hd with rfl | hd
      · exact Nat.mod_lt _ hb
      · exact ih _ _ hd

theorem toNat_ofNat_valid {n : Nat} (hv : n.isValidChar) :
    (Char.ofNat n).toNat = n := by
  rw [Char.ofNat, dif_pos hv]
  rfl

theorem toNat_ofNat_of_lt {n : Nat} (h : n < 0xd800) :
    (Char.ofNat n).toNat = n :=
  toNat_ofNat_valid (Or.inl h)

/-- Characters of decimal / octal / binary renderings are decimal digits. -/
theorem natToBase_digits {b : Nat} (hb1 : 0 < b) (hb2 : b ≤ 10) (n : Nat) :
    ∀ c ∈ (natToBase b n).data, 48 ≤ c.toNat ∧ c.toNat ≤ 57 := by
  intro c hc
  unfold natToBase at hc
  split at hc
  · simp at hc
    subst hc
    decide
  · simp only [String.data] at hc
    simp only [List.mem_map] at hc
    obtain ⟨d, hd, rfl⟩ := hc
    have hdl : d < b := digitsFuelLSB_lt hb1 _ _ d (List.mem_reverse.mp hd)
    have : (Char.ofNat (48 + d)).toNat = 48 + d :=
      toNat_ofNat_of_lt (by omega)
    omega

theorem natToBase_ne_nil {b n : Nat} : (natToBase b n).data ≠ [] := by
  unfold natToBase
  split
  · simp
  · rename_i hn
    cases n with
    | zero => exact absurd rfl hn
    | succ n => simp [natDigitsLSB, digitsFuelLSB]

theorem String.mk_data (l : List Char) : (String.mk l).data = l := rfl

theorem strData_append (s t : String) : (s ++ t).data = s.data ++ t.data := rfl

theorem spliceNumber_data (s : String) (g : Rng) :
    ((spliceNumber s g).1).data = (spliceGo s.data g).1 := rfl

theorem hexDigitsFuel_lt :
    ∀ (fuel val mw : Nat), ∀ d ∈ hexDigitsFuel fuel val mw, d < 16 := by
  intro fuel
  induction fuel with
  | zero => intro val mw d hd; simp [hexDigitsFuel] at hd
  | succ fuel ih =>
    intro val mw d hd
    unfold hexDigitsFuel at hd
    split at hd
    · simp at hd
    · simp only [List.mem_cons] at hd
      rcases hd with rfl | hd
      · exact Nat.mod_lt _ (by omega)
      · exact ih _ _ _ hd

theorem hexDigitChar_digitLike {d : Nat} (hd : d < 16) (g : Rng) :
    digitLike (hexDigitChar d g).1 = true := by
  unfold hexDigitChar digitLike
  dsimp only
  split
  · rename_i h10
    have := toNat_ofNat_of_lt (n := 48 + d) (by omega)
    simp only [this]
    simp only [Bool.or_eq_true, Bool.and_eq_true, decide_eq_true_eq]
    omega
  · rename_i h10
    split
    · have := toNat_ofNat_of_lt (n := 97 + d - 10) (by omega)
      simp only [this]
      simp only [Bool.or_eq_true, Bool.and_eq_true, decide_eq_true_eq]
      omega
    · have := toNat_ofNat_of_lt (n := 65 + d - 10) (by omega)
      simp only [this]
      simp only [Bool.or_eq_true, Bool.and_eq_true, decide_eq_true_eq]
      omega

theorem hexCharsGo_digitLike :
    ∀ (ds : List Nat) (g : Rng), (∀ d ∈ ds, d < 16) →
      ∀ c ∈ (hexCharsGo ds g).1, digitLike c = true := by
  intro ds
  induction ds with
  | nil => intro g _ c hc; simp [hexCharsGo] at hc
  | cons d ds ih =>
    intro g hds c hc
    simp only [hexCharsGo, List.mem_append, List.mem_singleton] at hc
    rcases hc with hc | rfl
    · exact ih _ (fun x hx => hds x (List.mem_cons_of_mem _ hx)) c hc
    · exact hexDigitChar_digitLike (hds d (List.mem_cons_self _ _)) _

theorem hexCharsGo_length (ds : List Nat) (g : Rng) :
    ((hexCharsGo ds g).1).length = ds.length := by
  induction ds generalizing g with
  | nil => rfl
  | cons d ds ih => simp [hexCharsGo, ih]

theorem randFormatHex_digitLike (val mw : Nat) (g : Rng) :
    ∀ c ∈ ((randFormatHex val mw g).1).data, digitLike c = true := by
  intro c hc
  unfold randFormatHex at hc
  exact hexCharsGo_digitLike _ _ (hexDigitsFuel_lt _ _ _) c (by simpa using hc)

theorem hexDigitsLSB_one_ne_nil (val : Nat) : hexDigitsLSB val 1 ≠ [] := by
  unfold hexDigitsLSB hexDigitsFuel
  simp

theorem randFormatHex_ne_nil (val : Nat) (g : Rng) :
    ((randFormatHex val 1 g).1).data ≠ [] := by
  unfold randFormatHex
  simp only [String.mk_data]
  intro hcon
  have hl := hexCharsGo_length (hexDigitsLSB val 1) g
  rw [hcon] at hl
  exact hexDigitsLSB_one_ne_nil val (List.length_eq_zero.mp hl.symm)

/-- Splicing a non-empty all-digit string yields an underscore-join of
non-empty all-digit chunks. -/
theorem splice_exists (X : String) (g : Rng) (hne : X.data ≠ [])
    (hdl : ∀ c ∈ X.data, digitLike c = true) :
    ∃ parts : List (List Char), parts ≠ [] ∧
      (∀ p ∈ parts, p ≠ [] ∧ ∀ c ∈ p, digitLike c = true) ∧
      ((spliceNumber X g).1).data = joinUS parts := by
  obtain ⟨parts, hq, hfl, hsp, hnn⟩ := spliceGo_chunks X.data g
  refine ⟨parts, hnn hne, ?_, by rw [spliceNumber_data, hsp]⟩
  intro p hp
  refine ⟨hq p hp, fun c hc => hdl c ?_⟩
  rw [← hfl]
  exact List.mem_flatten.mpr ⟨p, hp, hc⟩

theorem natToBase_digitLike {b : Nat} (hb1 : 0 < b) (hb2 : b ≤ 10) (n : Nat) :
    ∀ c ∈ (natToBase b n).data, digitLike c = true := by
  intro c hc
  have := natToBase_digits hb1 hb2 n c hc
  unfold digitLike
  simp only [Bool.or_eq_true, Bool.and_eq_true, decide_eq_true_eq]
  omega

theorem replicate_zero_digitLike (nz : Nat) :
    ∀ c ∈ List.replicate nz '0', digitLike c = true := by
  intro c hc
  rw [List.eq_of_mem_replicate hc]
  decide

/-- C7: every integer emitted by `_gen_integer` has `|value| ≤ 2^80`, and
its surface text is an optional prefix (sign or radix prefix, itself
underscore-free) followed by an underscore-join of non-empty runs of
digit characters — so underscores are never adjacent, never at the start
or end of the digit run, never directly after the sign or the
`0x`/`0o`/`0b` prefix and never last. -/
theorem genInteger_spec (g : Rng) :
    (genInteger g).1.2.natAbs ≤ MAX_INT_VALUE ∧
    ∃ (preStr : String) (parts : List (List Char)),
      preStr ∈ (["", "+", "-", "0x", "0o", "0b"] : List String) ∧
      ('_' ∉ preStr.data) ∧
      parts ≠ [] ∧
      (∀ p ∈ parts, p ≠ [] ∧ ∀ c ∈ p, digitLike c = true) ∧
      (genInteger g).1.1.data = preStr.data ++ joinUS parts := by
  unfold genInteger
  dsimp only
  have hval : g.next.1 % (MAX_INT_VALUE + 1) ≤ MAX_INT_VALUE :=
    Nat.le_of_lt_succ (Nat.mod_lt _ (Nat.succ_pos _))
  have hfb := Rng.randNat_le (a := 0) (b := 5) (by omega) g.next.2
  set i := (Rng.randNat 0 5 g.next.2).1 with hi
  obtain ⟨hf1, hf2⟩ := hfb
  interval_cases i
  · obtain ⟨parts, hpne, hpd, hpeq⟩ := splice_exists
      (natToBase 10 (g.next.1 % (MAX_INT_VALUE + 1)))
      (Rng.randNat 0 5 g.next.2).2
      natToBase_ne_nil (natToBase_digitLike (by norm_num) (by norm_num) _)
    refine ⟨?_, "", parts, by simp, by simp, hpne, hpd, ?_⟩
    · simpa using hval
    · simp [strData_append, hpeq]
  · obtain ⟨parts, hpne, hpd, hpeq⟩ := splice_exists
      (natToBase 10 (g.next.1 % (MAX_INT_VALUE + 1)))
      (Rng.randNat 0 5 g.next.2).2
      natToBase_ne_nil (natToBase_digitLike (by norm_num) (by norm_num) _)
    refine ⟨?_, "+", parts, by simp, by decide, hpne, hpd, ?_⟩
    · simpa using hval
    · simp [strData_append, hpeq]
  · obtain ⟨parts, hpne, hpd, hpeq⟩ := splice_exists
      (natToBase 10 (g.next.1 % (MAX_INT_VALUE + 1)))
      (Rng.randNat 0 5 g.next.2).2
      natToBase_ne_nil (natToBase_digitLike (by norm_num) (by norm_num) _)
    refine ⟨?_, "-", parts, by simp, by decide, hpne, hpd, ?_⟩
    · simpa [Int.natAbs_mul] using hval
    · simp [strData_append, hpeq]
  · obtain ⟨parts, hpne, hpd, hpeq⟩ := splice_exists
      (String.mk (List.replicate
          (Rng.randNat 0 3 (randFormatHex (g.next.1 % (MAX_INT_VALUE + 1)) 1
            (Rng.randNat 0 5 g.next.2).2).2).1 '0') ++
        (randFormatHex (g.next.1 % (MAX_INT_VALUE + 1)) 1
          (Rng.randNat 0 5 g.next.2).2).1)
      (Rng.randNat 0 3 (randFormatHex (g.next.1 % (MAX_INT_VALUE + 1)) 1
        (Rng.randNat 0 5 g.next.2).2).2).2
      (by
        rw [strData_append]
        intro hcon
        exact randFormatHex_ne_nil _ _ (List.append_eq_nil.mp hcon).2)
      (by
        rw [strData_append]
        intro c hc
        rcases List.mem_append.mp hc with hc | hc
        · exact replicate_zero_digitLike _ c (by simpa using hc)
        · exact randFormatHex_digitLike _ _ _ c hc)
    refine ⟨?_, "0x", parts, by simp, by decide, hpne, hpd, ?_⟩
    · simpa using hval
    · simp [strData_append, hpeq]
  · obtain ⟨parts, hpne, hpd, hpeq⟩ := splice_exists
      (String.mk (List.replicate
          (Rng.randNat 0 3 (Rng.randNat 0 5 g.next.2).2).1 '0') ++
        natToBase 8 (g.next.1 % (MAX_INT_VALUE + 1)))
      (Rng.randNat 0 3 (Rng.randNat 0 5 g.next.2).2).2
      (by
        rw [strData_append]
        intro hcon
        exact natToBase_ne_nil (List.append_eq_nil.mp hcon).2)
      (by
        rw [strData_append]
        intro c hc
        rcases List.mem_append.mp hc with hc | hc
        · exact replicate_zero_digitLike _ c (by simpa using hc)
        · exact natToBase_digitLike (by norm_num) (by norm_num) _ c hc)
    refine ⟨?_, "0o", parts, by simp, by decide, hpne, hpd, ?_⟩
    · simpa using hval
    · simp [strData_append, hpeq]
  · obtain ⟨parts, hpne, hpd, hpeq⟩ := splice_exists
      (String.mk (List.replicate
          (Rng.randNat 0 3 (Rng.randNat 0 5 g.next.2).2).1 '0') ++
        natToBase 2 (g.next.1 % (MAX_INT_VALUE + 1)))
      (Rng.randNat 0 3 (Rng.randNat 0 5 g.next.2).2).2
      (by
        rw [strData_append]
        intro hcon
        exact natToBase_ne_nil (List.append_eq_nil.mp hcon).2)
      (by
        rw [strData_append]
        intro c hc
        rcases List.mem_append.mp hc with hc | hc
        · exact replicate_zero_digitLike _ c (by simpa using hc)
        · exact natToBase_digitLike (by norm_num) (by norm_num) _ c hc)
    refine ⟨?_, "0b", parts, by simp, by decide, hpne, hpd, ?_⟩
    · simpa using hval
    · simp [strData_append, hpeq]

/-! ## C5 — multiline quote guard

A scanner characterizes quote runs: `scanQgo esc run l` walks `l`
tracking the current run of `"` characters and whether the character
just before the run was a backslash; it reports `false` as soon as an
unescaped run reaches 3 quotes or any run reaches 4.  `noUT l` is the
positional statement: every occurrence of three consecutive `"` in `l`
is immediately preceded by a backslash. -/

def q3step : Bool × Nat → Char → Bool × Nat
  | (esc, run), c =>
    if c = dqC then (esc, run + 1) else (decide (c = bsC), 0)

def qfold (st : Bool × Nat) (l : List Char) : Bool × Nat :=
  l.foldl q3step st

def scanQgo : Bool → Nat → List Char → Bool
  | _, _, [] => true
  | esc, run, c :: rest =>
    if c = dqC then
      if (2 ≤ run && !esc) || 3 ≤ run then false
      else scanQgo esc (run + 1) rest
    else scanQgo (decide (c = bsC)) 0 rest

/-- Every occurrence of three consecutive double quotes is immediately
preceded by a backslash. -/
def noUT (l : List Char) : Prop :=
  ∀ pre post, l = pre ++ dqC :: dqC :: dqC :: post → ∃ pre2, pre = pre2 ++ [bsC]

def scanSgo : Nat → List Char → Bool
  | _, [] => true
  | run, c :: rest =>
    if c = sqC then
      if 2 ≤ run then false else scanSgo (run + 1) rest
    else scanSgo 0 rest

/-- No occurrence of three consecutive single quotes. -/
def noTriple (l : List Char) : Prop :=
  ∀ pre post, l ≠ pre ++ sqC :: sqC :: sqC :: post

theorem qfold_append (st : Bool × Nat) (a b : List Char) :
    qfold st (a ++ b) = qfold (qfold st a) b := by
  simp [qfold, List.foldl_append]

theorem scanQgo_append :
    ∀ (a : List Char) {b : List Char} {esc : Bool} {run : Nat},
      scanQgo esc run (a ++ b) = true →
      scanQgo (qfold (esc, run) a).1 (qfold (esc, run) a).2 b = true := by
  intro a
  induction a with
  | nil => intro b esc run h; simpa [qfold] using h
  | cons c rest ih =>
    intro b esc run h
    simp only [List.cons_append, scanQgo] at h
    split at h
    · rename_i hdq
      split at h
      · exact absurd h (by simp)
      · have := ih h
        simpa [qfold, List.foldl_cons, q3step, hdq] using this
    · rename_i hdq
      have := ih h
      simpa [qfold, List.foldl_cons, q3step, hdq] using this

theorem qfold_eq_escaped :
    ∀ (x : List Char), qfold (false, 0) x = (true, 0) →
      ∃ x2, x = x2 ++ [bsC] := by
  intro x hx
  rcases List.eq_nil_or_concat x with rfl | ⟨L, c, rfl⟩
  · simp [qfold] at hx
  · rw [show L.concat c = L ++ [c] from List.concat_eq_append L c,
      qfold_append] at hx
    simp only [qfold, List.foldl_cons, List.foldl_nil, q3step] at hx
    split at hx
    · simp at hx
    · refine ⟨L, ?_⟩
      have hc : c = bsC := by
        have := congrArg Prod.fst hx
        simpa using this
      rw [hc, List.concat_eq_append]

theorem scanQgo_dq_step {esc : Bool} {run : Nat} {t : List Char}
    (h : scanQgo esc run (dqC :: t) = true) :
    ((2 ≤ run && !esc) || 3 ≤ run) = false ∧ scanQgo esc (run + 1) t = true := by
  rw [scanQgo] at h
  rw [if_pos rfl] at h
  split at h
  · exact absurd h (by simp)
  · rename_i hcond
    exact ⟨by simpa using hcond, h⟩

/-- Soundness of the scanner: a scanned-clean list has no unescaped
triple quote. -/
theorem noUT_of_scanQ {l : List Char} (h : scanQgo false 0 l = true) :
    noUT l := by
  intro pre post heq
  subst heq
  have h1 := scanQgo_append pre h
  set st := qfold (false, 0) pre with hst
  obtain ⟨hc1, h2⟩ := scanQgo_dq_step h1
  obtain ⟨hc2, h3⟩ := scanQgo_dq_step h2
  obtain ⟨hc3, _⟩ := scanQgo_dq_step h3
  have hr : st.2 = 0 := by
    simp only [Bool.or_eq_false_iff, Bool.and_eq_false_iff,
      decide_eq_false_iff_not] at hc3
    omega
  have he : st.1 = true := by
    simp only [Bool.or_eq_false_iff, Bool.and_eq_false_iff,
      decide_eq_false_iff_not, Bool.not_eq_false] at hc3
    rcases hc3.1 with hcon | he
    · omega
    · simpa using he
  apply qfold_eq_escaped
  rw [← hst]
  rw [Prod.ext_iff]
  exact ⟨he, hr⟩

theorem scanSgo_sq_step {run : Nat} {t : List Char}
    (h : scanSgo run (sqC :: t) = true) :
    ¬2 ≤ run ∧ scanSgo (run + 1) t = true := by
  rw [scanSgo] at h
  rw [if_pos rfl] at h
  split at h
  · exact absurd h (by simp)
  · rename_i hcond
    exact ⟨hcond, h⟩

def sfold (run : Nat) (l : List Char) : Nat :=
  l.foldl (fun r c => if c = sqC then r + 1 else 0) run

theorem sfold_append (run : Nat) (a b : List Char) :
    sfold run (a ++ b) = sfold (sfold run a) b := by
  simp [sfold, List.foldl_append]

theorem scanSgo_append :
    ∀ (a : List Char) {b : List Char} {run : Nat},
      scanSgo run (a ++ b) = true → scanSgo (sfold run a) b = true := by
  intro a
  induction a with
  | nil => intro b run h; simpa [sfold] using h
  | cons c rest ih =>
    intro b run h
    simp only [List.cons_append, scanSgo] at h
    split at h
    · rename_i hsq
      split at h
      · exact absurd h (by simp)
      · have := ih h
        simpa [sfold, List.foldl_cons, hsq] using this
    · rename_i hsq
      have := ih h
      simpa [sfold, List.foldl_cons, hsq] using this

/-- Soundness of the single-quote scanner. -/
theorem noTriple_of_scanS {l : List Char} (h : scanSgo 0 l = true) :
    noTriple l := by
  intro pre post heq
  subst heq
  have h1 := scanSgo_append pre h
  obtain ⟨hc1, h2⟩ := scanSgo_sq_step h1
  obtain ⟨hc2, h3⟩ := scanSgo_sq_step h2
  obtain ⟨hc3, _⟩ := scanSgo_sq_step h3
  omega

/-! ### Character classes of the simple emitters -/

theorem Rng.choices_mem {α : Type} {l : List α} (dflt : α) (hl : l ≠ []) :
    ∀ (n : Nat) (g : Rng), ∀ x ∈ (Rng.choices l dflt n g).1, x ∈ l := by
  intro n
  induction n with
  | zero => intro g x hx; simp [Rng.choices] at hx
  | succ n ih =>
    intro g x hx
    simp only [Rng.choices, List.mem_cons] at hx
    rcases hx with rfl | hx
    · exact Rng.choice_mem l dflt g hl
    · exact ih _ x hx

theorem genWs_chars (g : Rng) :
    ∀ c ∈ ((genWs g).1).data, c = '\t' ∨ c = ' ' := by
  intro c hc
  unfold genWs at hc
  split at hc
  split at hc
  · simp at hc
  · have := Rng.choices_mem (l := ['\t', ' ']) ' ' (by simp) _ _ c
      (by simpa using hc)
    simpa using this

theorem genNewline_chars (g : Rng) :
    ∀ c ∈ ((genNewline g).1).data, c = '\n' ∨ c = '\r' := by
  intro c hc
  have hm : (genNewline g).1 ∈ ["\n", "\r\n"] :=
    Rng.choice_mem ["\n", "\r\n"] "\n" g (by simp)
  rcases List.mem_cons.mp hm with h | h
  · rw [h] at hc
    have hd : ("\n" : String).data = ['\n'] := rfl
    rw [hd] at hc
    simp only [List.mem_singleton] at hc
    exact Or.inl hc
  · rcases List.mem_cons.mp h with h | h
    · rw [h] at hc
      have hd : ("\r\n" : String).data = ['\r', '\n'] := rfl
      rw [hd] at hc
      rcases List.mem_cons.mp hc with rfl | hc
      · exact Or.inr rfl
      · simp only [List.mem_singleton] at hc
        exact Or.inl hc
    · simp at h

theorem escNlRuns_chars :
    ∀ (k : Nat) (g : Rng), ∀ c ∈ ((escNlRuns k g).1).data,
      c = '\t' ∨ c = ' ' ∨ c = '\n' ∨ c = '\r' := by
  intro k
  induction k with
  | zero => intro g c hc; simp [escNlRuns] at hc
  | succ k ih =>
    intro g c hc
    simp only [escNlRuns, strData_append, List.mem_append] at hc
    rcases hc with (hc | hc) | hc
    · rcases genWs_chars _ c hc with h | h
      · exact Or.inl h
      · exact Or.inr (Or.inl h)
    · rcases genNewline_chars _ c hc with h | h
      · exact Or.inr (Or.inr (Or.inl h))
      · exact Or.inr (Or.inr (Or.inr h))
    · exact ih _ c hc

theorem digitLike_ne_dq {c : Char} (h : digitLike c = true) : c ≠ dqC := by
  intro heq
  subst heq
  exact absurd h (by decide)

theorem digitLike_ne_sq {c : Char} (h : digitLike c = true) : c ≠ sqC := by
  intro heq
  subst heq
  exact absurd h (by decide)

theorem charOfNat_ne {n : Nat} (hv : n.isValidChar) {c : Char}
    (h : n ≠ c.toNat) : Char.ofNat n ≠ c := by
  intro heq
  apply h
  rw [← heq, toNat_ofNat_valid hv]

theorem uniEscape_doc (tag : Char) (htag : tag ≠ dqC) (v mw : Nat) (g : Rng) :
    (bsS ++ String.mk [tag] ++ (randFormatHex v mw g).1).data ≠ [] ∧
      ∀ c ∈ (bsS ++ String.mk [tag] ++ (randFormatHex v mw g).1).data,
        c ≠ dqC := by
  constructor
  · simp [strData_append, bsS, String.mk_data]
  · intro c hc
    simp only [strData_append, List.mem_append] at hc
    rcases hc with (hc | hc) | hc
    · rw [show (bsS).data = [bsC] from rfl] at hc
      simp only [List.mem_singleton] at hc
      subst hc
      decide
    · simp only [List.mem_singleton] at hc
      subst hc
      exact htag
    · exact digitLike_ne_dq (randFormatHex_digitLike _ _ _ c hc)

/-- Classification of `_gen_basic_char`'s document output: it is either
the escaped quote `\"` or a non-empty string containing no raw `"`. -/
theorem genBasicChar_doc (g : Rng) :
    ((genBasicChar g).1.1).data = [bsC, dqC] ∨
    (((genBasicChar g).1.1).data ≠ [] ∧
      ∀ c ∈ ((genBasicChar g).1.1).data, c ≠ dqC) := by
  unfold genBasicChar
  dsimp only
  split
  · -- closed-set escape
    have h7 : ESCAPE_CHARS.length - 1 = 6 := rfl
    rw [h7]
    have hb := Rng.randNat_le (a := 0) (b := 6) (by omega) g.randFloat.2
    set i := (Rng.randNat 0 6 g.randFloat.2).1 with hi
    obtain ⟨h1, h2⟩ := hb
    interval_cases i
    all_goals first
      | exact Or.inl (by dsimp only; decide)
      | exact Or.inr ⟨by dsimp only; decide, by dsimp only; decide⟩
  · split
    · -- \uXXXX / \UXXXXXXXX escape
      split
      · split
        · exact Or.inr (uniEscape_doc 'u' (by decide) _ _ _)
        · exact Or.inr (uniEscape_doc 'U' (by decide) _ _ _)
      · split
        · exact Or.inr (uniEscape_doc 'u' (by decide) _ _ _)
        · exact Or.inr (uniEscape_doc 'U' (by decide) _ _ _)
    · -- raw character
      refine Or.inr ⟨by simp, ?_⟩
      intro c hc
      simp only [String.mk_data, List.mem_singleton] at hc
      subst hc
      split
      · -- 0x20..0x2f with 0x22 remapped to 0x09
        dsimp only
        have hb := Rng.randNat_le (a := 0x20) (b := 0x2f) (by omega)
          (g.randFloat.2.randFloat).2
        split
        · exact charOfNat_ne (Or.inl (by omega))
            (by rw [show dqC.toNat = 34 from rfl]; omega)
        · rename_i hne22
          exact charOfNat_ne (Or.inl (by omega))
            (by rw [show dqC.toNat = 34 from rfl]; omega)
      · split
        · -- 0x30..0x7e with 0x5c remapped to 0x41
          dsimp only
          have hb := Rng.randNat_le (a := 0x30) (b := 0x7e) (by omega)
            (g.randFloat.2.randFloat).2
          split
          · exact charOfNat_ne (Or.inl (by omega))
              (by rw [show dqC.toNat = 34 from rfl]; omega)
          · exact charOfNat_ne (Or.inl (by omega))
              (by rw [show dqC.toNat = 34 from rfl]; omega)
        · split
          · have hb := Rng.randNat_le (a := 0x80) (b := 0xd7ff) (by omega)
              (g.randFloat.2.randFloat).2
            exact charOfNat_ne (Or.inl (by omega))
              (by rw [show dqC.toNat = 34 from rfl]; omega)
          · have hb := Rng.randNat_le (a := 0xe000) (b := 0x10ffff) (by omega)
              (g.randFloat.2.randFloat).2
            exact charOfNat_ne (Or.inr (by omega))
              (by rw [show dqC.toNat = 34 from rfl]; omega)

theorem mlBasicCharRetry_doc :
    ∀ (fuel : Nat) (aw : Bool) (g : Rng),
      ((mlBasicCharRetry fuel aw g).1.1).data = [bsC, dqC] ∨
      (((mlBasicCharRetry fuel aw g).1.1).data ≠ [] ∧
        ∀ c ∈ ((mlBasicCharRetry fuel aw g).1.1).data, c ≠ dqC) := by
  intro fuel
  induction fuel with
  | zero => intro aw g; exact genBasicChar_doc g
  | succ fuel ih =>
    intro aw g
    unfold mlBasicCharRetry
    dsimp only
    split
    · exact genBasicChar_doc g
    · exact ih _ _

theorem scanQgo_no_dq :
    ∀ (u : List Char), (∀ c ∈ u, c ≠ dqC) → ∀ (e : Bool) (r : Nat),
      scanQgo e r u = true := by
  intro u
  induction u with
  | nil => intro _ e r; rfl
  | cons c rest ih =>
    intro hu e r
    rw [scanQgo, if_neg (hu c (List.mem_cons_self _ _))]
    exact ih (fun x hx => hu x (List.mem_cons_of_mem _ hx)) _ _

theorem qfold_no_dq_run (u : List Char) (st : Bool × Nat)
    (hu : ∀ c ∈ u, c ≠ dqC) (hne : u ≠ []) : (qfold st u).2 = 0 := by
  rcases List.eq_nil_or_concat u with rfl | ⟨L, c, rfl⟩
  · exact absurd rfl hne
  · rw [List.concat_eq_append, qfold_append]
    have hc : c ≠ dqC := hu c (by simp)
    simp [qfold, q3step, hc]

/-- Invariant on the scanner state that permits appending one or two raw
quotes. -/
def QInv (st : Bool × Nat) : Prop := st.2 ≤ 1 ∧ (st.2 = 1 → st.1 = true)

theorem scanQgo_esc_dq (e : Bool) (r : Nat) : scanQgo e r [bsC, dqC] = true := by
  rw [scanQgo, if_neg (by decide : ¬(bsC = dqC))]
  rw [scanQgo, if_pos rfl]
  norm_num
  rfl

theorem qfold_esc_dq (st : Bool × Nat) : qfold st [bsC, dqC] = (true, 1) := by
  obtain ⟨e, r⟩ := st
  simp [qfold, q3step, (by decide : ¬(bsC = dqC))]

theorem scanQ_quote1 {e : Bool} {r : Nat} (h1 : r ≤ 1) :
    scanQgo e r [dqC] = true := by
  have hr : r = 0 ∨ r = 1 := by omega
  rcases hr with rfl | rfl <;> cases e <;> decide

theorem scanQ_quote2 {e : Bool} {r : Nat} (h1 : r ≤ 1) (h2 : r = 1 → e = true) :
    scanQgo e r [dqC, dqC] = true := by
  have hr : r = 0 ∨ r = 1 := by omega
  rcases hr with rfl | rfl
  · cases e <;> decide
  · rw [h2 rfl]
    decide

theorem scanQgo_combine :
    ∀ (a : List Char) {b : List Char} {e : Bool} {r : Nat},
      scanQgo e r a = true →
      scanQgo (qfold (e, r) a).1 (qfold (e, r) a).2 b = true →
      scanQgo e r (a ++ b) = true := by
  intro a
  induction a with
  | nil => intro b e r _ hb; simpa [qfold] using hb
  | cons c rest ih =>
    intro b e r ha hb
    rw [List.cons_append, scanQgo]
    rw [scanQgo] at ha
    split
    · rename_i hdq
      rw [if_pos hdq] at ha
      split at ha
      · exact absurd ha (by simp)
      · rename_i hcond
        rw [if_neg (by simpa using hcond)]
        apply ih ha
        have hst : qfold (e, r) (c :: rest) = qfold (e, r + 1) rest := by
          simp [qfold, q3step, hdq]
        rw [hst] at hb
        exact hb
    · rename_i hdq
      rw [if_neg hdq] at ha
      apply ih ha
      have hst : qfold (e, r) (c :: rest) = qfold (decide (c = bsC), 0) rest := by
        simp [qfold, q3step, hdq]
      rw [hst] at hb
      exact hb

theorem QInv_of_run_zero {st : Bool × Nat} (h : st.2 = 0) : QInv st :=
  ⟨by omega, fun hcon => by omega⟩

/-- One `_gen_ml_basic_string` iteration appended after a scanner state
satisfying the invariant keeps the body clean, and re-establishes the
invariant whenever `allow_quote` is set for the next iteration. -/
theorem mlBasicIter_scan (rfuel : Nat) (vne aq aw : Bool) (g : Rng)
    (e : Bool) (r : Nat) (hq : aq = true → QInv (e, r)) :
    scanQgo e r (((mlBasicIter rfuel vne aq aw g).1.2.1.1).data) = true ∧
    ((mlBasicIter rfuel vne aq aw g).1.2.2.1 = true →
      QInv (qfold (e, r) (((mlBasicIter rfuel vne aq aw g).1.2.1.1).data))) := by
  unfold mlBasicIter
  dsimp only
  split
  · rename_i hcond
    have haq : aq = true := by
      simp only [Bool.and_eq_true] at hcond
      exact hcond.1
    obtain ⟨h1, h2⟩ := hq haq
    split
    · constructor
      · rw [show ((dqS ++ dqS : String)).data = [dqC, dqC] from rfl]
        exact scanQ_quote2 h1 h2
      · intro hfalse
        exact absurd hfalse (by simp)
    · constructor
      · rw [show ((dqS : String)).data = [dqC] from rfl]
        exact scanQ_quote1 h1
      · intro hfalse
        exact absurd hfalse (by simp)
  · split
    · -- raw newline unit
      dsimp only
      have hnd : ∀ c ∈ ((genNewline g.randFloat.2.randFloat.2).1).data,
          c ≠ dqC := by
        intro c hc
        rcases genNewline_chars _ c hc with rfl | rfl <;> decide
      refine ⟨scanQgo_no_dq _ hnd _ _, fun _ => ?_⟩
      have hne : ((genNewline g.randFloat.2.randFloat.2).1).data ≠ [] := by
        have hm : (genNewline g.randFloat.2.randFloat.2).1 ∈ ["\n", "\r\n"] :=
          Rng.choice_mem _ _ _ (by simp)
        rcases List.mem_cons.mp hm with h | h
        · rw [h]; decide
        · rcases List.mem_cons.mp h with h | h
          · rw [h]; decide
          · simp at h
      exact QInv_of_run_zero (qfold_no_dq_run _ (e, r) hnd hne)
    · split
      · -- escaped-newline unit
        dsimp only
        have hnd : ∀ c ∈ ((bsS ++ (genWs g.randFloat.2.randFloat.2).1 ++
            (genNewline (genWs g.randFloat.2.randFloat.2).2).1 ++
            (escNlRuns (Rng.randNat 0 2
              (genNewline (genWs g.randFloat.2.randFloat.2).2).2).1
              (Rng.randNat 0 2
                (genNewline (genWs g.randFloat.2.randFloat.2).2).2).2).1 ++
            (genWs (escNlRuns (Rng.randNat 0 2
              (genNewline (genWs g.randFloat.2.randFloat.2).2).2).1
              (Rng.randNat 0 2
                (genNewline (genWs g.randFloat.2.randFloat.2).2).2).2).2).1
            ).data), c ≠ dqC := by
          intro c hc
          simp only [strData_append, List.mem_append] at hc
          rcases hc with ((((hc | hc) | hc) | hc) | hc)
          · rw [show (bsS).data = [bsC] from rfl] at hc
            simp only [List.mem_singleton] at hc
            subst hc
            decide
          · rcases genWs_chars _ c hc with rfl | rfl <;> decide
          · rcases genNewline_chars _ c hc with rfl | rfl <;> decide
          · rcases escNlRuns_chars _ _ c hc with rfl | rfl | rfl | rfl <;> decide
          · rcases genWs_chars _ c hc with rfl | rfl <;> decide
        refine ⟨scanQgo_no_dq _ hnd _ _, fun _ => ?_⟩
        have hne : ((bsS ++ (genWs g.randFloat.2.randFloat.2).1 ++
            (genNewline (genWs g.randFloat.2.randFloat.2).2).1 ++
            (escNlRuns (Rng.randNat 0 2
              (genNewline (genWs g.randFloat.2.randFloat.2).2).2).1
              (Rng.randNat 0 2
                (genNewline (genWs g.randFloat.2.randFloat.2).2).2).2).1 ++
            (genWs (escNlRuns (Rng.randNat 0 2
              (genNewline (genWs g.randFloat.2.randFloat.2).2).2).1
              (Rng.randNat 0 2
                (genNewline (genWs g.randFloat.2.randFloat.2).2).2).2).2).1
            ).data) ≠ [] := by
          simp [strData_append, bsS, String.mk_data]
        exact QInv_of_run_zero (qfold_no_dq_run _ (e, r) hnd hne)
      · -- basic character unit
        dsimp only
        rcases mlBasicCharRetry_doc rfuel aw g.randFloat.2.randFloat.2 with
          hcase | ⟨hne, hnd⟩
        · rw [hcase]
          refine ⟨scanQgo_esc_dq _ _, fun _ => ?_⟩
          rw [qfold_esc_dq]
          exact ⟨by omega, fun _ => rfl⟩
        · refine ⟨scanQgo_no_dq _ hnd _ _, fun _ => ?_⟩
          exact QInv_of_run_zero (qfold_no_dq_run _ (e, r) hnd hne)

theorem mlBasicLoop_scan (rfuel : Nat) :
    ∀ (n : Nat) (docs vals : String) (aq aw : Bool) (g : Rng),
      scanQgo false 0 docs.data = true →
      (aq = true → QInv (qfold (false, 0) docs.data)) →
      scanQgo false 0
        (((mlBasicLoop rfuel n docs vals aq aw g).1.1).data) = true := by
  intro n
  induction n with
  | zero => intro docs vals aq aw g h1 h2; exact h1
  | succ n ih =>
    intro docs vals aq aw g h1 h2
    have hiter := mlBasicIter_scan rfuel (!vals.isEmpty) aq aw g
      (qfold (false, 0) docs.data).1 (qfold (false, 0) docs.data).2 h2
    simp only [mlBasicLoop]
    apply ih
    · rw [strData_append]
      exact scanQgo_combine _ h1 hiter.1
    · intro haq'
      rw [strData_append, qfold_append]
      exact hiter.2 haq'

theorem genNewline_ne_nil (g : Rng) : ((genNewline g).1).data ≠ [] := by
  have hm : (genNewline g).1 ∈ ["\n", "\r\n"] :=
    Rng.choice_mem _ _ _ (by simp)
  rcases List.mem_cons.mp hm with h | h
  · rw [h]; decide
  · rcases List.mem_cons.mp h with h | h
    · rw [h]; decide
    · simp at h

theorem genMlBasicBody_noUT (rfuel : Nat) (g : Rng) :
    noUT (((genMlBasicBody rfuel g).1.1).data) := by
  apply noUT_of_scanQ
  unfold genMlBasicBody
  dsimp only
  split
  · apply mlBasicLoop_scan
    · exact scanQgo_no_dq _ (fun c hc => by
        rcases genNewline_chars _ c hc with rfl | rfl <;> decide) _ _
    · intro _
      exact QInv_of_run_zero (qfold_no_dq_run _ _ (fun c hc => by
        rcases genNewline_chars _ c hc with rfl | rfl <;> decide)
        (genNewline_ne_nil _))
  · apply mlBasicLoop_scan
    · rfl
    · intro _
      exact QInv_of_run_zero rfl

theorem genLiteralChar_ne_sq (g : Rng) : (genLiteralChar g).1 ≠ sqC := by
  unfold genLiteralChar
  dsimp only
  split
  · split
    · exact @charOfNat_ne 9 (by decide) sqC (by decide)
    · rename_i hne
      have hb := Rng.randNat_le (by omega : (0x20:Nat) ≤ 0x2f) g.randFloat.2
      refine charOfNat_ne (Or.inl (by omega)) ?_
      rw [show sqC.toNat = 39 from rfl]
      omega
  · split
    · have hb := Rng.randNat_le (by omega : (0x30:Nat) ≤ 0x7e) g.randFloat.2
      refine charOfNat_ne (Or.inl (by omega)) ?_
      rw [show sqC.toNat = 39 from rfl]
      omega
    · split
      · have hb := Rng.randNat_le (by omega : (0x80:Nat) ≤ 0xd7ff) g.randFloat.2
        refine charOfNat_ne (Or.inl (by omega)) ?_
        rw [show sqC.toNat = 39 from rfl]
        omega
      · have hb := Rng.randNat_le (by omega : (0xe000:Nat) ≤ 0x10ffff)
          g.randFloat.2
        refine charOfNat_ne (Or.inr ⟨by omega, by omega⟩) ?_
        rw [show sqC.toNat = 39 from rfl]
        omega

theorem scanSgo_no_sq :
    ∀ (u : List Char), (∀ c ∈ u, c ≠ sqC) → ∀ (r : Nat),
      scanSgo r u = true := by
  intro u
  induction u with
  | nil => intro _ r; rfl
  | cons c rest ih =>
    intro hu r
    rw [scanSgo, if_neg (hu c (List.mem_cons_self _ _))]
    exact ih (fun x hx => hu x (List.mem_cons_of_mem _ hx)) _

theorem sfold_no_sq_run (u : List Char) (r : Nat)
    (hu : ∀ c ∈ u, c ≠ sqC) (hne : u ≠ []) : sfold r u = 0 := by
  rcases List.eq_nil_or_concat u with rfl | ⟨L, c, rfl⟩
  · exact absurd rfl hne
  · rw [List.concat_eq_append, sfold_append]
    have hc : c ≠ sqC := hu c (by simp)
    simp [sfold, hc]

theorem scanSgo_combine :
    ∀ (a : List Char) {b : List Char} {r : Nat},
      scanSgo r a = true → scanSgo (sfold r a) b = true →
      scanSgo r (a ++ b) = true := by
  intro a
  induction a with
  | nil => intro b r _ hb; simpa [sfold] using hb
  | cons c rest ih =>
    intro b r ha hb
    rw [List.cons_append, scanSgo]
    rw [scanSgo] at ha
    split
    · rename_i hsq
      rw [if_pos hsq] at ha
      split at ha
      · exact absurd ha (by simp)
      · rename_i hcond
        rw [if_neg hcond]
        apply ih ha
        have hst : sfold r (c :: rest) = sfold (r + 1) rest := by
          simp [sfold, List.foldl_cons, hsq]
        rw [hst] at hb
        exact hb
    · rename_i hsq
      rw [if_neg hsq] at ha
      apply ih ha
      have hst : sfold r (c :: rest) = sfold 0 rest := by
        simp [sfold, List.foldl_cons, hsq]
      rw [hst] at hb
      exact hb

/-- One `_gen_ml_literal_string` iteration keeps the body clean of triple
single quotes, and leaves the quote run at zero whenever `allow_quote` is
set for the next iteration. -/
theorem mlLiteralIter_scan (vne aq : Bool) (g : Rng) (r : Nat)
    (hq : aq = true → r = 0) :
    scanSgo r (((mlLiteralIter vne aq g).1.2.1.1).data) = true ∧
    ((mlLiteralIter vne aq g).1.2.2 = true →
      sfold r (((mlLiteralIter vne aq g).1.2.1.1).data) = 0) := by
  unfold mlLiteralIter
  dsimp only
  split
  · rename_i hcond
    have haq : aq = true := by
      simp only [Bool.and_eq_true] at hcond
      exact hcond.1
    have hr0 : r = 0 := hq haq
    subst hr0
    split
    · refine ⟨?_, ?_⟩
      · rw [show ((sqS ++ sqS : String)).data = [sqC, sqC] from rfl]
        decide
      · intro hfalse
        exact absurd hfalse (by simp)
    · refine ⟨?_, ?_⟩
      · rw [show ((sqS : String)).data = [sqC] from rfl]
        decide
      · intro hfalse
        exact absurd hfalse (by simp)
  · split
    · -- raw newline unit
      dsimp only
      have hnd : ∀ c ∈ ((genNewline g.randFloat.2.randFloat.2).1).data,
          c ≠ sqC := by
        intro c hc
        rcases genNewline_chars _ c hc with rfl | rfl <;> decide
      refine ⟨scanSgo_no_sq _ hnd _, fun _ => ?_⟩
      exact sfold_no_sq_run _ _ hnd (genNewline_ne_nil _)
    · -- literal character unit
      dsimp only
      have hnd : ∀ c ∈ ((String.mk
          [(genLiteralChar g.randFloat.2.randFloat.2).1]).data), c ≠ sqC := by
        intro c hc
        have hx := List.mem_singleton.mp hc
        rw [hx]
        exact genLiteralChar_ne_sq _
      refine ⟨scanSgo_no_sq _ hnd _, fun _ => ?_⟩
      exact sfold_no_sq_run _ _ hnd (List.cons_ne_nil _ _)

theorem mlLiteralLoop_scan :
    ∀ (n : Nat) (docs vals : String) (aq : Bool) (g : Rng),
      scanSgo 0 docs.data = true →
      (aq = true → sfold 0 docs.data = 0) →
      scanSgo 0 (((mlLiteralLoop n docs vals aq g).1.1).data) = true := by
  intro n
  induction n with
  | zero => intro docs vals aq g h1 h2; exact h1
  | succ n ih =>
    intro docs vals aq g h1 h2
    have hiter := mlLiteralIter_scan (!vals.isEmpty) aq g
      (sfold 0 docs.data) h2
    simp only [mlLiteralLoop]
    apply ih
    · rw [strData_append]
      exact scanSgo_combine _ h1 hiter.1
    · intro haq'
      rw [strData_append, sfold_append]
      exact hiter.2 haq'

theorem genMlLiteralBody_noTriple (g : Rng) :
    noTriple (((genMlLiteralBody g).1.1).data) := by
  apply noTriple_of_scanS
  unfold genMlLiteralBody
  dsimp only
  split
  · apply mlLiteralLoop_scan
    · exact scanSgo_no_sq _ (fun c hc => by
        rcases genNewline_chars _ c hc with rfl | rfl <;> decide) _
    · intro _
      exact sfold_no_sq_run _ _ (fun c hc => by
        rcases genNewline_chars _ c hc with rfl | rfl <;> decide)
        (genNewline_ne_nil _)
  · apply mlLiteralLoop_scan
    · rfl
    · intro _
      rfl

/-- C5 (amended): every generated ml-literal-string body is free of three
consecutive single quotes; in every generated ml-basic-string body, any run
of three consecutive double quotes is immediately preceded by a backslash
(i.e. the first quote of the run is an escaped quote `\"`). The original
claim — that an ml-basic-string body never contains three consecutive
double quotes at all — does not hold. -/
theorem mlQuoteGuard :
    (∀ (rfuel : Nat) (g : Rng), noUT (((genMlBasicBody rfuel g).1.1).data)) ∧
    (∀ (g : Rng), noTriple (((genMlLiteralBody g).1.1).data)) :=
  ⟨genMlBasicBody_noUT, genMlLiteralBody_noTriple⟩

/-- Oracle stream refuting the original C5 claim for ml-basic-strings. -/
def cexStreamC5 : List Nat := [2, 0, 2^52, 2^52, 0, 5, 0]

/-- C5 counterexample: on this oracle stream the ml-basic-string body is
`\"""` — it contains three consecutive double quotes (the escaped quote
`\"` followed by the two-raw-quote branch). -/
theorem mlBasic_triple_quote :
    ∃ pre post, (((genMlBasicBody 0 (listRng cexStreamC5)).1.1).data)
      = pre ++ dqC :: dqC :: dqC :: post :=
  ⟨[bsC], [], by rfl⟩

/-! ## Decoding basic-string key renderings (C10)

`decodeBody` is the denotation of a basic-string body: it maps the
rendered character list back to the character list it denotes, per the
TOML escape rules.  `formatSimpleKey` is then proved to emit only
renderings whose denotation is exactly the input key. -/

/-- Value of a hexadecimal digit character. -/
def hexVal (c : Char) : Option Nat :=
  if 48 ≤ c.toNat ∧ c.toNat ≤ 57 then some (c.toNat - 48)
  else if 97 ≤ c.toNat ∧ c.toNat ≤ 102 then some (c.toNat - 87)
  else if 65 ≤ c.toNat ∧ c.toNat ≤ 70 then some (c.toNat - 55)
  else none

/-- Value of a most-significant-first hex digit string. -/
def hexValGo : List Char → Nat → Option Nat
  | [], acc => some acc
  | c :: cs, acc => (hexVal c).bind fun d => hexValGo cs (16 * acc + d)

/-- Value of a least-significant-first base-16 digit list. -/
def natFromLSB : List Nat → Nat
  | [] => 0
  | d :: ds => d + 16 * natFromLSB ds

/-- TOML short escapes, decoding direction. -/
def escChar (e : Char) : Option Char :=
  if e = 'b' then some (Char.ofNat 0x08)
  else if e = 't' then some (Char.ofNat 0x09)
  else if e = 'n' then some (Char.ofNat 0x0a)
  else if e = 'f' then some (Char.ofNat 0x0c)
  else if e = 'r' then some (Char.ofNat 0x0d)
  else if e = dqC then some dqC
  else if e = bsC then some bsC
  else none

/-- Decode a `\uXXXX` escape payload. -/
def decodeU4 : List Char → Option (Char × List Char)
  | a :: b :: c :: d :: rest =>
    (hexValGo [a, b, c, d] 0).bind fun v =>
      if v.isValidChar then some (Char.ofNat v, rest) else none
  | _ => none

/-- Decode a `\UXXXXXXXX` escape payload. -/
def decodeU8 : List Char → Option (Char × List Char)
  | a :: b :: c :: d :: e :: f :: x :: y :: rest =>
    (hexValGo [a, b, c, d, e, f, x, y] 0).bind fun v =>
      if v.isValidChar then some (Char.ofNat v, rest) else none
  | _ => none

/-- Decode the tail of an escape sequence (after the backslash). -/
def decodeEscTail : List Char → Option (Char × List Char)
  | [] => none
  | e :: rest =>
    if e = 'u' then decodeU4 rest
    else if e = 'U' then decodeU8 rest
    else (escChar e).map fun c => (c, rest)

/-- Parse one unit (raw character or escape sequence) of a basic-string
body. -/
def decodeStep : List Char → Option (Char × List Char)
  | [] => none
  | c :: rest =>
    if c = bsC then decodeEscTail rest
    else if basicUnesc c then some (c, rest) else none

/-- Fuelled unit-by-unit decoder. -/
def decodeBodyF : Nat → List Char → Option (List Char)
  | _, [] => some []
  | 0, _ :: _ => none
  | f + 1, c :: rest =>
    (decodeStep (c :: rest)).bind fun p =>
      (decodeBodyF f p.2).map fun t => p.1 :: t

/-- Denotation of a basic-string body (each unit consumes at least one
character, so the length is enough fuel). -/
def decodeBody (l : List Char) : Option (List Char) :=
  decodeBodyF l.length l

theorem decodeBodyF_nil : ∀ (f : Nat), decodeBodyF f [] = some [] := by
  intro f
  cases f <;> rfl

theorem char_toNat_valid (c : Char) : Nat.isValidChar c.toNat := c.valid

theorem ofNat_toNat (c : Char) : Char.ofNat c.toNat = c :=
  Char.ofNat_toNat c

theorem hexDigitsFuel_natFromLSB :
    ∀ (fuel val mw : Nat), val + mw ≤ fuel →
      natFromLSB (hexDigitsFuel fuel val mw) = val := by
  intro fuel
  induction fuel with
  | zero =>
    intro val mw h
    simp only [hexDigitsFuel, natFromLSB]
    omega
  | succ fuel ih =>
    intro val mw h
    unfold hexDigitsFuel
    split
    · rename_i hz
      simp only [natFromLSB]
      omega
    · rename_i hz
      have hrec : val / 16 + (mw - 1) ≤ fuel := by
        rcases Nat.eq_zero_or_pos val with rfl | hv
        · have hm : mw ≠ 0 := fun hm => hz ⟨rfl, hm⟩
          simp only [Nat.zero_div]
          omega
        · have h16 : val / 16 < val := Nat.div_lt_self hv (by omega)
          omega
      rw [natFromLSB, ih _ _ hrec]
      omega

theorem hexDigitsFuel_len_ge :
    ∀ (fuel val mw : Nat), val + mw ≤ fuel →
      mw ≤ (hexDigitsFuel fuel val mw).length := by
  intro fuel
  induction fuel with
  | zero =>
    intro val mw h
    simp only [hexDigitsFuel, List.length_nil]
    omega
  | succ fuel ih =>
    intro val mw h
    unfold hexDigitsFuel
    split
    · rename_i hz
      simp only [List.length_nil]
      omega
    · rename_i hz
      have hrec : val / 16 + (mw - 1) ≤ fuel := by
        rcases Nat.eq_zero_or_pos val with rfl | hv
        · have hm : mw ≠ 0 := fun hm => hz ⟨rfl, hm⟩
          simp only [Nat.zero_div]
          omega
        · have h16 : val / 16 < val := Nat.div_lt_self hv (by omega)
          omega
      have := ih _ _ hrec
      simp only [List.length_cons]
      omega

theorem hexDigitsFuel_len_le :
    ∀ (fuel : Nat) (k val mw : Nat), val < 16 ^ k → mw ≤ k →
      (hexDigitsFuel fuel val mw).length ≤ k := by
  intro fuel
  induction fuel with
  | zero =>
    intro k val mw hv hm
    simp [hexDigitsFuel]
  | succ fuel ih =>
    intro k val mw hv hm
    unfold hexDigitsFuel
    split
    · simp
    · rename_i hz
      rcases k with _ | k
      · exfalso
        apply hz
        constructor
        · omega
        · omega
      · have hdiv : val / 16 < 16 ^ k := by
          rw [Nat.div_lt_iff_lt_mul (by omega : (0:Nat) < 16)]
          calc val < 16 ^ (k + 1) := hv
          _ = 16 ^ k * 16 := by rw [pow_succ]
        have := ih k (val / 16) (mw - 1) hdiv (by omega)
        simp only [List.length_cons]
        omega

theorem hexDigitsLSB_length {val k : Nat} (h : val < 16 ^ k) :
    (hexDigitsLSB val k).length = k := by
  unfold hexDigitsLSB
  exact le_antisymm (hexDigitsFuel_len_le _ k _ _ h le_rfl)
    (hexDigitsFuel_len_ge _ _ _ le_rfl)

theorem hexVal_hexDigitChar {d : Nat} (hd : d < 16) (g : Rng) :
    hexVal (hexDigitChar d g).1 = some d := by
  unfold hexDigitChar
  dsimp only
  split
  · rename_i h10
    have ht := toNat_ofNat_of_lt (n := 48 + d) (by omega)
    unfold hexVal
    rw [ht, if_pos ⟨by omega, by omega⟩]
    simp only [Option.some.injEq]
    omega
  · rename_i h10
    split
    · have ht := toNat_ofNat_of_lt (n := 97 + d - 10) (by omega)
      unfold hexVal
      rw [ht, if_neg (by omega), if_pos ⟨by omega, by omega⟩]
      simp only [Option.some.injEq]
      omega
    · have ht := toNat_ofNat_of_lt (n := 65 + d - 10) (by omega)
      unfold hexVal
      rw [ht, if_neg (by omega), if_neg (by omega), if_pos ⟨by omega, by omega⟩]
      simp only [Option.some.injEq]
      omega

theorem hexValGo_append :
    ∀ (a b : List Char) (acc : Nat),
      hexValGo (a ++ b) acc = (hexValGo a acc).bind fun x => hexValGo b x := by
  intro a
  induction a with
  | nil => intro b acc; rfl
  | cons c a ih =>
    intro b acc
    simp only [List.cons_append, hexValGo]
    cases hexVal c with
    | none => rfl
    | some d =>
      simp only [Option.some_bind]
      exact ih b _

theorem hexValGo_hexCharsGo :
    ∀ (ds : List Nat), (∀ d ∈ ds, d < 16) → ∀ (g : Rng) (acc : Nat),
      hexValGo ((hexCharsGo ds g).1) acc
        = some (acc * 16 ^ ds.length + natFromLSB ds) := by
  intro ds
  induction ds with
  | nil =>
    intro _ g acc
    simp [hexCharsGo, hexValGo, natFromLSB]
  | cons d ds ih =>
    intro hds g acc
    simp only [hexCharsGo]
    rw [hexValGo_append]
    rw [ih (fun x hx => hds x (List.mem_cons_of_mem _ hx)) _ acc]
    simp only [Option.some_bind]
    rw [show hexValGo [(hexDigitChar d g).1]
        (acc * 16 ^ ds.length + natFromLSB ds)
      = (hexVal (hexDigitChar d g).1).bind
          (fun x => some (16 * (acc * 16 ^ ds.length + natFromLSB ds) + x))
      from rfl]
    rw [hexVal_hexDigitChar (hds d (List.mem_cons_self _ _)) g]
    simp only [Option.some_bind, Option.some.injEq]
    rw [natFromLSB, List.length_cons, pow_succ]
    ring

theorem decodeU4_cons (a b c d : Char) (rest : List Char) :
    decodeU4 (a :: b :: c :: d :: rest) =
      (hexValGo [a, b, c, d] 0).bind fun v =>
        if v.isValidChar then some (Char.ofNat v, rest) else none := rfl

theorem decodeU8_cons (a b c d e f x y : Char) (rest : List Char) :
    decodeU8 (a :: b :: c :: d :: e :: f :: x :: y :: rest) =
      (hexValGo [a, b, c, d, e, f, x, y] 0).bind fun v =>
        if v.isValidChar then some (Char.ofNat v, rest) else none := rfl

theorem decodeEscTail_sym {n : Nat}
    (hn : n = 8 ∨ n = 9 ∨ n = 10 ∨ n = 12 ∨ n = 13 ∨ n = 34 ∨ n = 92)
    (rest : List Char) :
    decodeEscTail ((escSym n).data ++ rest) = some (Char.ofNat n, rest) := by
  rcases hn with rfl | rfl | rfl | rfl | rfl | rfl | rfl <;> rfl

theorem decodeStep_esc {n : Nat}
    (hn : n = 8 ∨ n = 9 ∨ n = 10 ∨ n = 12 ∨ n = 13 ∨ n = 34 ∨ n = 92)
    (rest : List Char) :
    decodeStep (((bsS ++ escSym n)).data ++ rest)
      = some (Char.ofNat n, rest) := by
  have hshape : ((bsS ++ escSym n)).data ++ rest
      = bsC :: ((escSym n).data ++ rest) := by
    rw [strData_append]
    rfl
  rw [hshape, decodeStep, if_pos rfl]
  exact decodeEscTail_sym hn rest

theorem randFormatHex_data_len {v k : Nat} (h : v < 16 ^ k) (g : Rng) :
    (((randFormatHex v k g).1)).data.length = k := by
  unfold randFormatHex
  dsimp only
  rw [hexCharsGo_length, hexDigitsLSB_length h]

theorem hexDigitsLSB_natFromLSB (val mw : Nat) :
    natFromLSB (hexDigitsLSB val mw) = val :=
  hexDigitsFuel_natFromLSB _ _ _ le_rfl

theorem hexValGo_randFormatHex (v k : Nat) (g : Rng) :
    hexValGo (((randFormatHex v k g).1)).data 0 = some v := by
  unfold randFormatHex
  dsimp only
  rw [hexValGo_hexCharsGo (hexDigitsLSB v k)
    (fun d hd => hexDigitsFuel_lt _ _ _ d hd) g 0]
  rw [show (0 : Nat) * 16 ^ (hexDigitsLSB v k).length = 0 from by ring,
    Nat.zero_add, hexDigitsLSB_natFromLSB]

theorem decodeStep_u {v : Nat} (hv : v < 0x10000) (hval : v.isValidChar)
    (g : Rng) (rest : List Char) :
    decodeStep (((bsS ++ "u" ++ (randFormatHex v 4 g).1)).data ++ rest)
      = some (Char.ofNat v, rest) := by
  have hv16 : v < 16 ^ 4 := by norm_num at hv ⊢; omega
  have hlen := randFormatHex_data_len hv16 g
  set cs := (((randFormatHex v 4 g).1)).data with hcs
  rcases cs with _ | ⟨a, cs⟩; · simp at hlen
  rcases cs with _ | ⟨b, cs⟩; · simp at hlen
  rcases cs with _ | ⟨c, cs⟩; · simp at hlen
  rcases cs with _ | ⟨d, cs⟩; · simp at hlen
  rcases cs with _ | ⟨e, cs⟩
  swap
  · simp at hlen
  have hshape : ((bsS ++ "u" ++ (randFormatHex v 4 g).1)).data ++ rest
      = bsC :: 'u' :: a :: b :: c :: d :: rest := by
    rw [show ((bsS ++ "u" ++ (randFormatHex v 4 g).1)).data
        = [bsC, 'u'] ++ (((randFormatHex v 4 g).1)).data from rfl, ← hcs]
    rfl
  rw [hshape, decodeStep, if_pos rfl, decodeEscTail, if_pos rfl, decodeU4_cons]
  have hgo := hexValGo_randFormatHex v 4 g
  rw [← hcs] at hgo
  rw [hgo]
  simp only [Option.some_bind]
  rw [if_pos hval]

theorem decodeStep_U {v : Nat} (hval : v.isValidChar)
    (g : Rng) (rest : List Char) :
    decodeStep (((bsS ++ "U" ++ (randFormatHex v 8 g).1)).data ++ rest)
      = some (Char.ofNat v, rest) := by
  have hv16 : v < 16 ^ 8 := by
    rcases hval with h | h <;> norm_num <;> omega
  have hlen := randFormatHex_data_len hv16 g
  set cs := (((randFormatHex v 8 g).1)).data with hcs
  rcases cs with _ | ⟨a, cs⟩; · simp at hlen
  rcases cs with _ | ⟨b, cs⟩; · simp at hlen
  rcases cs with _ | ⟨c, cs⟩; · simp at hlen
  rcases cs with _ | ⟨d, cs⟩; · simp at hlen
  rcases cs with _ | ⟨e, cs⟩; · simp at hlen
  rcases cs with _ | ⟨f, cs⟩; · simp at hlen
  rcases cs with _ | ⟨x, cs⟩; · simp at hlen
  rcases cs with _ | ⟨y, cs⟩; · simp at hlen
  rcases cs with _ | ⟨z, cs⟩
  swap
  · simp at hlen
  have hshape : ((bsS ++ "U" ++ (randFormatHex v 8 g).1)).data ++ rest
      = bsC :: 'U' :: a :: b :: c :: d :: e :: f :: x :: y :: rest := by
    rw [show ((bsS ++ "U" ++ (randFormatHex v 8 g).1)).data
        = [bsC, 'U'] ++ (((randFormatHex v 8 g).1)).data from rfl, ← hcs]
    rfl
  rw [hshape, decodeStep, if_pos rfl, decodeEscTail,
    if_neg (by decide : ¬(('U' : Char) = 'u')), if_pos rfl, decodeU8_cons]
  have hgo := hexValGo_randFormatHex v 8 g
  rw [← hcs] at hgo
  rw [hgo]
  simp only [Option.some_bind]
  rw [if_pos hval]

theorem basicUnesc_ne_bs {c : Char} (hc : basicUnesc c = true) : c ≠ bsC := by
  intro h
  subst h
  exact absurd hc (by decide)

theorem decodeStep_raw {c : Char} (hc : basicUnesc c = true)
    (rest : List Char) :
    decodeStep ((String.mk [c]).data ++ rest) = some (c, rest) := by
  show decodeStep (c :: rest) = some (c, rest)
  rw [decodeStep, if_neg (basicUnesc_ne_bs hc), if_pos hc]

/-- Every unit that `fmtKeyChar` emits decodes back to the character it
renders. -/
theorem decodeStep_fmtKeyChar (c : Char) (g : Rng) (rest : List Char) :
    decodeStep (((fmtKeyChar c g).1).data ++ rest) = some (c, rest) := by
  unfold fmtKeyChar
  dsimp only
  split
  · split
    · -- named escape branch
      rename_i hcond
      have hmem : c.toNat = 8 ∨ c.toNat = 9 ∨ c.toNat = 10 ∨ c.toNat = 12 ∨
          c.toNat = 13 ∨ c.toNat = 34 ∨ c.toNat = 92 := by
        simp only [Bool.and_eq_true] at hcond
        have h1 := hcond.1
        simp [ESCAPE_CHARS] at h1
        omega
      have hstep := decodeStep_esc hmem rest
      rw [ofNat_toNat] at hstep
      exact hstep
    · split
      · -- unicode \u escape
        rename_i hcond hc4
        have hstep := decodeStep_u hc4.1 (char_toNat_valid c)
          g.randFloat.2.randFloat.2 rest
        rw [ofNat_toNat] at hstep
        exact hstep
      · -- unicode \U escape
        have hstep := decodeStep_U (char_toNat_valid c)
          g.randFloat.2.randFloat.2 rest
        rw [ofNat_toNat] at hstep
        exact hstep
  · rename_i hcond
    have hbu : basicUnesc c = true := by
      by_contra hbc
      apply hcond
      rw [Bool.not_eq_true] at hbc
      rw [hbc]
      rfl
    exact decodeStep_raw hbu rest

theorem fmtKeyChar_ne_nil (c : Char) (g : Rng) :
    ((fmtKeyChar c g).1).data ≠ [] := by
  unfold fmtKeyChar
  dsimp only
  split
  · split
    · rw [strData_append]
      simp [bsS]
    · split
      · rw [strData_append, strData_append]
        simp [bsS]
      · rw [strData_append, strData_append]
        simp [bsS]
  · exact List.cons_ne_nil _ _

/-- Appending one rendered unit consumes one fuel step of the decoder. -/
theorem decodeBodyF_unit {u : List Char} {c : Char}
    (hu : ∀ rest, decodeStep (u ++ rest) = some (c, rest)) (hne : u ≠ []) :
    ∀ (f : Nat) (rest : List Char),
      decodeBodyF (f + 1) (u ++ rest)
        = Option.map (fun t => c :: t) (decodeBodyF f rest) := by
  intro f rest
  rcases u with _ | ⟨x, u⟩
  · exact absurd rfl hne
  · rw [List.cons_append, decodeBodyF]
    rw [show x :: (u ++ rest) = (x :: u) ++ rest from rfl]
    rw [hu rest]
    rfl

theorem fmtKeyChars_decode :
    ∀ (cs : List Char) (g : Rng) (f : Nat) (rest : List Char),
      decodeBodyF (cs.length + f) (((fmtKeyChars cs g).1).data ++ rest)
        = Option.map (fun t => cs ++ t) (decodeBodyF f rest) := by
  intro cs
  induction cs with
  | nil =>
    intro g f rest
    show decodeBodyF (0 + f) (([] : List Char) ++ rest)
      = Option.map (fun t => [] ++ t) (decodeBodyF f rest)
    rw [Nat.zero_add, List.nil_append]
    cases decodeBodyF f rest <;> rfl
  | cons c cs ih =>
    intro g f rest
    simp only [fmtKeyChars]
    rw [strData_append, List.append_assoc]
    rw [show (c :: cs).length + f = (cs.length + f) + 1 from by
      simp [List.length_cons]; omega]
    rw [decodeBodyF_unit (fun r => decodeStep_fmtKeyChar c g r)
      (fmtKeyChar_ne_nil c g) (cs.length + f) _]
    rw [ih _ f rest]
    cases decodeBodyF f rest <;> rfl

theorem fmtKeyChars_len (cs : List Char) (g : Rng) :
    cs.length ≤ (((fmtKeyChars cs g).1).data).length := by
  induction cs generalizing g with
  | nil => simp
  | cons c cs ih =>
    simp only [fmtKeyChars]
    rw [strData_append, List.length_append, List.length_cons]
    have h1 := List.length_pos.mpr (fmtKeyChar_ne_nil c g)
    have h2 := ih ((fmtKeyChar c g).2)
    omega

/-- The basic-string rendering produced by `fmtKeyChars` denotes exactly
the input characters. -/
theorem fmtKeyChars_decodeBody (cs : List Char) (g : Rng) :
    decodeBody (((fmtKeyChars cs g).1).data) = some cs := by
  have hlen := fmtKeyChars_len cs g
  have h := fmtKeyChars_decode cs g
    (((((fmtKeyChars cs g).1).data)).length - cs.length) []
  rw [List.append_nil] at h
  unfold decodeBody
  rw [show ((((fmtKeyChars cs g).1).data)).length
      = cs.length + (((((fmtKeyChars cs g).1).data)).length - cs.length)
    from by omega]
  rw [h, decodeBodyF_nil]
  simp

theorem data_eq_nil_iff (s : String) : s.data = [] ↔ s = "" := by
  constructor
  · intro h
    apply String.ext
    rw [h]
  · intro h
    rw [h]

/-- C10: `_format_simple_key` emits a rendering denoting exactly the
input segment: unquoted only for a non-empty all-bare-character segment,
single-quoted (verbatim) only when every character is literal-string
valid, otherwise double-quoted with every unit decoding back to the
character it renders. -/
theorem formatSimpleKey_spec (key : String) (g : Rng) :
    ((formatSimpleKey key g).1 = key ∧ key.data ≠ [] ∧
      (∀ c ∈ key.data, bareChar c = true)) ∨
    ((formatSimpleKey key g).1 = sqS ++ key ++ sqS ∧
      (∀ c ∈ key.data, litChar c = true)) ∨
    (∃ body, (formatSimpleKey key g).1 = dqS ++ body ++ dqS ∧
      decodeBody body.data = some key.data) := by
  unfold formatSimpleKey
  dsimp only
  by_cases hq : (key.isEmpty || key.data.any fun c => !bareChar c) = true
  · rw [if_pos hq]
    dsimp only
    rw [if_pos rfl]
    by_cases hb : (key.data.any fun c => !litChar c) = true
    · rw [if_pos hb]
      dsimp only
      rw [if_pos rfl]
      dsimp only
      exact Or.inr (Or.inr ⟨(fmtKeyChars key.data g).1, rfl,
        fmtKeyChars_decodeBody key.data g⟩)
    · rw [if_neg hb]
      dsimp only
      split
      · exact Or.inr (Or.inr ⟨(fmtKeyChars key.data g.randFloat.2).1, rfl,
          fmtKeyChars_decodeBody key.data _⟩)
      · refine Or.inr (Or.inl ⟨rfl, ?_⟩)
        intro c hc
        simp only [List.any_eq_true, not_exists, not_and,
          Bool.not_eq_true] at hb
        have := hb c hc
        simp at this
        exact this
  · rw [if_neg hq]
    dsimp only
    split
    · by_cases hb : (key.data.any fun c => !litChar c) = true
      · rw [if_pos hb]
        dsimp only
        rw [if_pos rfl]
        dsimp only
        exact Or.inr (Or.inr ⟨(fmtKeyChars key.data g.randFloat.2).1, rfl,
          fmtKeyChars_decodeBody key.data _⟩)
      · rw [if_neg hb]
        dsimp only
        split
        · exact Or.inr (Or.inr
            ⟨(fmtKeyChars key.data g.randFloat.2.randFloat.2).1, rfl,
              fmtKeyChars_decodeBody key.data _⟩)
        · refine Or.inr (Or.inl ⟨rfl, ?_⟩)
          intro c hc
          simp only [List.any_eq_true, not_exists, not_and,
            Bool.not_eq_true] at hb
          have := hb c hc
          simp at this
          exact this
    · simp only [Bool.or_eq_true, not_or, List.any_eq_true, not_exists,
        not_and, Bool.not_eq_true] at hq
      refine Or.inl ⟨rfl, ?_, ?_⟩
      · intro hcon
        have hk : key = "" := (data_eq_nil_iff key).mp hcon
        rw [hk] at hq
        exact absurd hq.1 (by decide)
      · intro c hc
        have := hq.2 c hc
        simp at this
        exact this


/-! ## The `open_table_array` contract (C8) -/

/-- The C8 precondition on `open_table_array(key)`, written from the
spec: the key is non-empty, does not name a non-array table or a value,
and does not traverse a value (traversal descends through tables and
through the last element of table arrays, as `_make_subtable` does). -/
def OTAPre : ITable → Key → Bool
  | _, [] => false
  | t, [p] =>
    match t.find? p with
    | none => true
    | some (.tarray _) => true
    | some _ => false
  | t, p :: rest =>
    match t.find? p with
    | none => OTAPre .nil rest
    | some (.table _ _ elems) => OTAPre elems rest
    | some (.tarray l) =>
      match l.last? with
      | some e => OTAPre e rest
      | none => false
    | some (.value _) => false

theorem find?_set_self : ∀ (t : ITable) (p : String) (c : Child),
    (t.set p c).find? p = some c
  | .nil, p, c => by simp [ITable.set, ITable.find?]
  | .cons k c0 rest, p, c => by
    by_cases hk : k = p
    · simp [ITable.set, ITable.find?, hk]
    · simp [ITable.set, ITable.find?, hk, find?_set_self rest p c]

theorem TList.last?_push : ∀ (l : TList) (x : ITable),
    (l.push x).last? = some x
  | .nil, x => rfl
  | .cons t rest, x => by
    cases rest with
    | nil => rfl
    | cons t2 rest2 => exact TList.last?_push (.cons t2 rest2) x

theorem TList.last?_setLast : ∀ (l : TList) {y : ITable},
    l.last? = some y → ∀ (e : ITable), (l.setLast e).last? = some e
  | .nil, y, h, e => by simp [TList.last?] at h
  | .cons t rest, y, h, e => by
    cases rest with
    | nil => rfl
    | cons t2 rest2 =>
      cases rest2 with
      | nil => rfl
      | cons t3 rest3 =>
        exact TList.last?_setLast (.cons t2 (.cons t3 rest3)) h e

theorem resolveC_nil (key : Key) : resolveC .nil key = none := by
  rcases key with _ | ⟨p, _ | ⟨q, r⟩⟩ <;> rfl

theorem openTableArrayGo_cons (t : ITable) (p q : String)
    (rest2 : List String) :
    openTableArrayGo t (p :: q :: rest2)
      = (match t.find? p with
         | none => do
           let sub ← openTableArrayGo .nil (q :: rest2)
           Except.ok (t.set p (.table false false sub))
         | some (.table df dt elems) => do
           let e ← openTableArrayGo elems (q :: rest2)
           Except.ok (t.set p (.table df dt e))
         | some (.tarray l) =>
           match l.last? with
           | some last => do
             let e ← openTableArrayGo last (q :: rest2)
             Except.ok (t.set p (.tarray (l.setLast e)))
           | none => Except.error .typeErr
         | some (.value _) => Except.error .assertFail) := rfl

theorem resolveC_cons2 (t : ITable) (p q : String) (rest2 : List String) :
    resolveC t (p :: q :: rest2)
      = (match t.find? p with
         | some (.table _ _ elems) => resolveC elems (q :: rest2)
         | some (.tarray l) =>
           match l.last? with
           | some e => resolveC e (q :: rest2)
           | none => none
         | _ => none) := rfl

theorem resolveT_cons (t : ITable) (p : String) (rest : List String) :
    resolveT t (p :: rest)
      = (match t.find? p with
         | some (.table _ _ elems) => resolveT elems rest
         | some (.tarray l) =>
           match l.last? with
           | some e => resolveT e rest
           | none => none
         | _ => none) := rfl

theorem OTAPre_cons2 (t : ITable) (p q : String) (rest2 : List String) :
    OTAPre t (p :: q :: rest2)
      = (match t.find? p with
         | none => OTAPre .nil (q :: rest2)
         | some (.table _ _ elems) => OTAPre elems (q :: rest2)
         | some (.tarray l) =>
           match l.last? with
           | some e => OTAPre e (q :: rest2)
           | none => false
         | some (.value _) => false) := rfl

/-- Success and postconditions of `open_table_array` on the root table,
under the C8 precondition: the call succeeds, the key then names a table
array whose last element is a fresh empty table, the key position
resolves (active-table style) to that fresh element, and the array is
the previous one extended by one empty table — or a new singleton array
if the key was absent. -/
theorem openTableArrayGo_spec :
    ∀ (key : Key) (t : ITable), OTAPre t key = true →
      ∃ d' l', openTableArrayGo t key = .ok d' ∧
        resolveC d' key = some (.tarray l') ∧
        l'.last? = some .nil ∧
        resolveT d' key = some .nil ∧
        (∀ l, resolveC t key = some (.tarray l) → l' = l.push .nil) ∧
        (resolveC t key = none → l' = .cons .nil .nil) := by
  intro key
  induction key with
  | nil => intro t h; exact absurd h (by simp [OTAPre])
  | cons p rest ih =>
    intro t h
    rcases rest with _ | ⟨q, rest2⟩
    · -- single segment
      rcases hfind : t.find? p with _ | c
      · refine ⟨t.set p (.tarray (.cons .nil .nil)), .cons .nil .nil,
          ?_, ?_, rfl, ?_, ?_, fun _ => rfl⟩
        · rw [show openTableArrayGo t [p]
            = (match t.find? p with
               | none => Except.ok (t.set p (.tarray (.cons .nil .nil)))
               | some (.tarray l) =>
                 Except.ok (t.set p (.tarray (l.push .nil)))
               | some _ => Except.error .assertFail) from rfl, hfind]
        · show (t.set p (.tarray (.cons .nil .nil))).find? p = _
          rw [find?_set_self]
        · rw [resolveT_cons, find?_set_self]
          rfl
        · intro l hl
          rw [show resolveC t [p] = t.find? p from rfl, hfind] at hl
          exact absurd hl (by simp)
      · rcases c with v | ⟨df, dt, elems⟩ | l
        · rw [show OTAPre t [p]
            = (match t.find? p with
               | none => true
               | some (.tarray _) => true
               | some _ => false) from rfl, hfind] at h
          exact absurd h (by simp)
        · rw [show OTAPre t [p]
            = (match t.find? p with
               | none => true
               | some (.tarray _) => true
               | some _ => false) from rfl, hfind] at h
          exact absurd h (by simp)
        · refine ⟨t.set p (.tarray (l.push .nil)), l.push .nil,
            ?_, ?_, TList.last?_push l .nil, ?_, ?_, ?_⟩
          · rw [show openTableArrayGo t [p]
              = (match t.find? p with
                 | none => Except.ok (t.set p (.tarray (.cons .nil .nil)))
                 | some (.tarray l) =>
                   Except.ok (t.set p (.tarray (l.push .nil)))
                 | some _ => Except.error .assertFail) from rfl, hfind]
          · show (t.set p (.tarray (l.push .nil))).find? p = _
            rw [find?_set_self]
          · rw [resolveT_cons, find?_set_self]
            show (match (l.push .nil).last? with
                  | some e => resolveT e []
                  | none => none) = some .nil
            rw [TList.last?_push]
            rfl
          · intro l0 hl0
            rw [show resolveC t [p] = t.find? p from rfl, hfind] at hl0
            simp only [Option.some.injEq, Child.tarray.injEq] at hl0
            rw [hl0]
          · intro hnone
            rw [show resolveC t [p] = t.find? p from rfl, hfind] at hnone
            exact absurd hnone (by simp)
    · -- at least two segments
      rcases hfind : t.find? p with _ | c
      · rw [OTAPre_cons2, hfind] at h
        obtain ⟨sub, l', hgo, hres, hlast, hresT, hc1, hc2⟩ := ih .nil h
        refine ⟨t.set p (.table false false sub), l', ?_, ?_, hlast, ?_,
          ?_, ?_⟩
        · rw [openTableArrayGo_cons, hfind, hgo]
          rfl
        · rw [resolveC_cons2, find?_set_self]
          exact hres
        · rw [resolveT_cons, find?_set_self]
          exact hresT
        · intro l hl
          rw [resolveC_cons2, hfind] at hl
          exact absurd hl (by simp)
        · intro _
          exact hc2 (resolveC_nil _)
      · rcases c with v | ⟨df, dt, elems⟩ | l
        · rw [OTAPre_cons2, hfind] at h
          exact absurd h (by simp)
        · rw [OTAPre_cons2, hfind] at h
          obtain ⟨e, l', hgo, hres, hlast, hresT, hc1, hc2⟩ := ih elems h
          refine ⟨t.set p (.table df dt e), l', ?_, ?_, hlast, ?_, ?_, ?_⟩
          · rw [openTableArrayGo_cons]
            simp only [hfind]
            rw [hgo]
            rfl
          · rw [resolveC_cons2, find?_set_self]
            exact hres
          · rw [resolveT_cons, find?_set_self]
            exact hresT
          · intro l hl
            rw [resolveC_cons2] at hl
            simp only [hfind] at hl
            exact hc1 l hl
          · intro hnone
            rw [resolveC_cons2] at hnone
            simp only [hfind] at hnone
            exact hc2 hnone
        · rw [OTAPre_cons2] at h
          simp only [hfind] at h
          rcases hlst : l.last? with _ | last
          · rw [hlst] at h
            exact absurd h (by simp)
          · rw [hlst] at h
            obtain ⟨e, l', hgo, hres, hlast, hresT, hc1, hc2⟩ := ih last h
            refine ⟨t.set p (.tarray (l.setLast e)), l', ?_, ?_, hlast,
              ?_, ?_, ?_⟩
            · rw [openTableArrayGo_cons]
              simp only [hfind, hlst]
              rw [hgo]
              rfl
            · rw [resolveC_cons2, find?_set_self]
              show (match (l.setLast e).last? with
                    | some e2 => resolveC e2 (q :: rest2)
                    | none => none) = some (.tarray l')
              rw [TList.last?_setLast _ hlst e]
              exact hres
            · rw [resolveT_cons, find?_set_self]
              show (match (l.setLast e).last? with
                    | some e2 => resolveT e2 (q :: rest2)
                    | none => none) = some .nil
              rw [TList.last?_setLast _ hlst e]
              exact hresT
            · intro l0 hl0
              rw [resolveC_cons2] at hl0
              simp only [hfind, hlst] at hl0
              exact hc1 l0 hl0
            · intro hnone
              rw [resolveC_cons2] at hnone
              simp only [hfind, hlst] at hnone
              exact hc2 hnone

/-- C8: under its precondition, `open_table_array(key)` succeeds, creating
missing ancestors; the key then names a table array whose element list is
the previous one with one fresh empty table appended (a new singleton
array if the key was absent), and that fresh table becomes the active
table.  Consequently two `open_table_array(('a',))` calls on an empty
context give the model `{a: [{}, {}]}`, and a subsequent assignment lands
only in the second element. -/
theorem openTableArray_spec :
    (∀ (ctx : Ctx) (key : Key), OTAPre ctx.data key = true →
      ∃ c', ctx.openTableArray key = .ok c' ∧ c'.active = key ∧
        c'.activeTable = .nil ∧
        ∃ l', resolveC c'.data key = some (.tarray l') ∧
          l'.last? = some .nil ∧
          (∀ l, resolveC ctx.data key = some (.tarray l) → l' = l.push .nil) ∧
          (resolveC ctx.data key = none → l' = .cons .nil .nil)) ∧
    ((Ctx.init.openTableArray ["a"] >>= fun c1 =>
        c1.openTableArray ["a"] >>= fun c2 =>
          pure (c2.getData, c2.active))
      = .ok ([("a", Val.arr [Val.tbl [], Val.tbl []])], ["a"])) ∧
    (∀ (v : Val),
      (Ctx.init.openTableArray ["a"] >>= fun c1 =>
          c1.openTableArray ["a"] >>= fun c2 =>
            c2.assign ["k"] v >>= fun c3 => pure c3.getData)
        = .ok [("a", Val.arr [Val.tbl [], Val.tbl [("k", v)]])]) := by
  refine ⟨?_, rfl, fun v => rfl⟩
  intro ctx key hpre
  obtain ⟨d', l', hgo, hres, hlast, hresT, hc1, hc2⟩ :=
    openTableArrayGo_spec key ctx.data hpre
  refine ⟨⟨d', key⟩, ?_, rfl, ?_, l', hres, hlast, hc1, hc2⟩
  · unfold Ctx.openTableArray
    rw [hgo]
    rfl
  · unfold Ctx.activeTable
    dsimp only
    rw [hresT]
    rfl

/-- Witness: the C8 contract applied to the two-segment key `a.b` on the
empty context. -/
theorem openTableArray_spec_witness :
    OTAPre Ctx.init.data ["a", "b"] = true ∧
    ∃ c', Ctx.init.openTableArray ["a", "b"] = .ok c' ∧
      c'.active = ["a", "b"] ∧ c'.activeTable = .nil ∧
      ∃ l', resolveC c'.data ["a", "b"] = some (.tarray l') ∧
        l'.last? = some .nil ∧
        (∀ l, resolveC Ctx.init.data ["a", "b"] = some (.tarray l) →
          l' = l.push .nil) ∧
        (resolveC Ctx.init.data ["a", "b"] = none →
          l' = .cons .nil .nil) :=
  ⟨by rfl, openTableArray_spec.1 Ctx.init ["a", "b"] (by rfl)⟩


/-! ## Charset bounds (C3) -/

/-- The amended emitted-codepoint set: tab, LF, CR, and the two scalar
ranges. -/
def allowedChar (c : Char) : Bool :=
  c.toNat = 9 || c.toNat = 10 || c.toNat = 13 ||
    (0x20 ≤ c.toNat && c.toNat ≤ 0xd7ff) ||
    (0xe000 ≤ c.toNat && c.toNat ≤ 0x10ffff)

/-- The charset claimed by the spec (no LF / CR). -/
def origChar (c : Char) : Bool :=
  c.toNat = 9 || (0x20 ≤ c.toNat && c.toNat ≤ 0xd7ff) ||
    (0xe000 ≤ c.toNat && c.toNat ≤ 0x10ffff)

/-- Every character of the string lies in the amended set. -/
abbrev okS (s : String) : Prop := ∀ c ∈ s.data, allowedChar c = true

theorem okS_append {s t : String} (hs : okS s) (ht : okS t) :
    okS (s ++ t) := by
  intro c hc
  rw [strData_append] at hc
  rcases List.mem_append.mp hc with h | h
  · exact hs c h
  · exact ht c h

theorem allowedChar_tn {c : Char}
    (h : c.toNat = 9 ∨ c.toNat = 10 ∨ c.toNat = 13 ∨
      (0x20 ≤ c.toNat ∧ c.toNat ≤ 0xd7ff) ∨
      (0xe000 ≤ c.toNat ∧ c.toNat ≤ 0x10ffff)) : allowedChar c = true := by
  unfold allowedChar
  simp only [Bool.or_eq_true, Bool.and_eq_true, decide_eq_true_eq]
  omega

theorem allowedChar_ofNat {n : Nat}
    (h : n = 9 ∨ n = 10 ∨ n = 13 ∨ (0x20 ≤ n ∧ n ≤ 0xd7ff) ∨
      (0xe000 ≤ n ∧ n ≤ 0x10ffff)) :
    allowedChar (Char.ofNat n) = true := by
  have hv : n.isValidChar := by
    rcases h with h | h | h | h | h
    · exact Or.inl (by omega)
    · exact Or.inl (by omega)
    · exact Or.inl (by omega)
    · exact Or.inl (by omega)
    · exact Or.inr ⟨by omega, by omega⟩
  apply allowedChar_tn
  rw [toNat_ofNat_valid hv]
  exact h

theorem allowed_of_digitLike {c : Char} (h : digitLike c = true) :
    allowedChar c = true := by
  unfold digitLike at h
  simp only [Bool.or_eq_true, Bool.and_eq_true, decide_eq_true_eq] at h
  apply allowedChar_tn
  omega

theorem allowed_of_bareChar {c : Char} (h : bareChar c = true) :
    allowedChar c = true := by
  unfold bareChar at h
  simp only [Bool.or_eq_true, Bool.and_eq_true, decide_eq_true_eq] at h
  apply allowedChar_tn
  rcases h with ((((h | h) | h) | h) | h)
  · rw [h]; right; right; right; left; exact ⟨by decide, by decide⟩
  · rw [h]; right; right; right; left; exact ⟨by decide, by decide⟩
  · omega
  · omega
  · omega

theorem allowed_of_litChar {c : Char} (h : litChar c = true) :
    allowedChar c = true := by
  unfold litChar at h
  simp only [Bool.or_eq_true, Bool.and_eq_true, decide_eq_true_eq] at h
  apply allowedChar_tn
  rcases h with ((h | ⟨⟨h1, h2⟩, _⟩) | h) | h <;> omega

theorem allowed_of_basicUnesc {c : Char} (h : basicUnesc c = true) :
    allowedChar c = true := by
  unfold basicUnesc at h
  simp only [Bool.or_eq_true, Bool.and_eq_true, decide_eq_true_eq] at h
  apply allowedChar_tn
  rcases h with ((h | ⟨⟨⟨h1, h2⟩, _⟩, _⟩) | h) | h <;> omega

theorem okS_genNewline (g : Rng) : okS (genNewline g).1 := by
  intro c hc
  rcases genNewline_chars g c hc with rfl | rfl <;> decide

theorem okS_genWs (g : Rng) : okS (genWs g).1 := by
  intro c hc
  rcases genWs_chars g c hc with rfl | rfl <;> decide

theorem allowed_genCommentChar (t : Nat) (g : Rng) :
    allowedChar (genCommentChar t g).1 = true := by
  unfold genCommentChar
  dsimp only
  split
  · have hm := Rng.choice_mem ['\t', ' ', ' ', ' ', ' '] ' ' g (by simp)
    simp only [List.mem_cons, List.mem_singleton] at hm
    rcases hm with h | h | h | h | h | h
    · rw [h]; decide
    · rw [h]; decide
    · rw [h]; decide
    · rw [h]; decide
    · rw [h]; decide
    · simp at h
  · split
    · have hm := Rng.choice_mem ['#', dqC, sqC, bsC] '#' g (by simp)
      simp only [List.mem_cons, List.mem_singleton] at hm
      rcases hm with h | h | h | h | h
      · rw [h]; decide
      · rw [h]; decide
      · rw [h]; decide
      · rw [h]; decide
      · simp at h
    · split
      · have hb := Rng.randNat_le (by omega : (0x80:Nat) ≤ 0xd7ff) g
        exact allowedChar_ofNat (by omega)
      · split
        · have hb := Rng.randNat_le (by omega : (0xe000:Nat) ≤ 0x10ffff) g
          exact allowedChar_ofNat (by omega)
        · have hb := Rng.randNat_le (by omega : (0x21:Nat) ≤ 0x7e) g
          exact allowedChar_ofNat (by omega)

theorem allowed_genCommentChars :
    ∀ (ts : List Nat) (g : Rng), ∀ c ∈ (genCommentChars ts g).1,
      allowedChar c = true := by
  intro ts
  induction ts with
  | nil => intro g c hc; simp [genCommentChars] at hc
  | cons t ts ih =>
    intro g c hc
    simp only [genCommentChars, List.mem_cons] at hc
    rcases hc with rfl | hc
    · exact allowed_genCommentChar t _
    · exact ih _ c hc

theorem okS_genComment (g : Rng) : okS (genComment g).1 := by
  unfold genComment
  dsimp only
  apply okS_append
  · intro c hc
    simp only [show ("#" : String).data = ['#'] from rfl,
      List.mem_singleton] at hc
    rw [hc]
    decide
  · exact allowed_genCommentChars _ _

theorem okS_randFormatHex (val mw : Nat) (g : Rng) :
    okS (randFormatHex val mw g).1 := by
  intro c hc
  exact allowed_of_digitLike (randFormatHex_digitLike val mw g c hc)

theorem okS_escSym (n : Nat) : okS (escSym n) := by
  unfold escSym
  rcases hf : ESCAPE_CHARS.find? (fun p => p.1 == n) with _ | p
  · rw [hf]
    intro c hc
    simp at hc
  · rw [hf]
    have hp := List.mem_of_find?_eq_some hf
    simp only [ESCAPE_CHARS, List.mem_cons, List.mem_singleton] at hp
    rcases hp with h | h | h | h | h | h | h | h <;>
      first
        | (rw [h]; decide)
        | simp at h

theorem okS_escEntry (i : Nat) : okS ((ESCAPE_CHARS.getD i (0x08, "b")).2) := by
  by_cases hi : i < ESCAPE_CHARS.length
  · have h7 : i < 7 := by simpa [ESCAPE_CHARS] using hi
    interval_cases i <;> decide
  · rw [List.getD_eq_default _ _ (by omega)]
    decide

theorem okS_uniEsc {tag : String} (htag : okS tag) (v mw : Nat) (g : Rng) :
    okS (bsS ++ tag ++ (randFormatHex v mw g).1) :=
  okS_append (okS_append (by decide) htag) (okS_randFormatHex _ _ _)

theorem okS_genBasicChar (g : Rng) : okS ((genBasicChar g).1.1) := by
  unfold genBasicChar
  dsimp only
  split
  · exact okS_append (by decide) (okS_escEntry _)
  · split
    · split
      · split
        · exact okS_uniEsc (by decide) _ _ _
        · exact okS_uniEsc (by decide) _ _ _
      · split
        · exact okS_uniEsc (by decide) _ _ _
        · exact okS_uniEsc (by decide) _ _ _
    · intro c hc
      rcases List.mem_singleton.mp hc with rfl
      split
      · dsimp only
        split
        · exact allowedChar_ofNat (by omega)
        · rename_i hne
          have hb := Rng.randNat_le (by omega : (0x20:Nat) ≤ 0x2f)
            g.randFloat.2.randFloat.2
          exact allowedChar_ofNat (by omega)
      · split
        · dsimp only
          split
          · exact allowedChar_ofNat (by omega)
          · have hb := Rng.randNat_le (by omega : (0x30:Nat) ≤ 0x7e)
              g.randFloat.2.randFloat.2
            exact allowedChar_ofNat (by omega)
        · split
          · have hb := Rng.randNat_le (by omega : (0x80:Nat) ≤ 0xd7ff)
              g.randFloat.2.randFloat.2
            exact allowedChar_ofNat (by omega)
          · have hb := Rng.randNat_le (by omega : (0xe000:Nat) ≤ 0x10ffff)
              g.randFloat.2.randFloat.2
            exact allowedChar_ofNat (by omega)

theorem okS_genBasicChars :
    ∀ (n : Nat) (g : Rng), okS ((genBasicChars n g).1.1) := by
  intro n
  induction n with
  | zero => intro g c hc; simp [genBasicChars] at hc
  | succ n ih =>
    intro g
    simp only [genBasicChars]
    exact okS_append (okS_genBasicChar _) (ih _)

theorem okS_dqS : okS dqS := by decide

theorem okS_sqS : okS sqS := by decide

theorem okS_genBasicString (g : Rng) : okS ((genBasicString g).1.1) := by
  unfold genBasicString
  dsimp only
  exact okS_append (okS_append okS_dqS (okS_genBasicChars _ _)) okS_dqS

theorem allowed_genLiteralChar (g : Rng) :
    allowedChar (genLiteralChar g).1 = true := by
  unfold genLiteralChar
  dsimp only
  split
  · split
    · exact allowedChar_ofNat (by omega)
    · rename_i hne
      have hb := Rng.randNat_le (by omega : (0x20:Nat) ≤ 0x2f) g.randFloat.2
      exact allowedChar_ofNat (by omega)
  · split
    · have hb := Rng.randNat_le (by omega : (0x30:Nat) ≤ 0x7e) g.randFloat.2
      exact allowedChar_ofNat (by omega)
    · split
      · have hb := Rng.randNat_le (by omega : (0x80:Nat) ≤ 0xd7ff)
          g.randFloat.2
        exact allowedChar_ofNat (by omega)
      · have hb := Rng.randNat_le (by omega : (0xe000:Nat) ≤ 0x10ffff)
          g.randFloat.2
        exact allowedChar_ofNat (by omega)

theorem allowed_genLiteralChars :
    ∀ (n : Nat) (g : Rng), ∀ c ∈ (genLiteralChars n g).1,
      allowedChar c = true := by
  intro n
  induction n with
  | zero => intro g c hc; simp [genLiteralChars] at hc
  | succ n ih =>
    intro g c hc
    simp only [genLiteralChars, List.mem_cons] at hc
    rcases hc with rfl | hc
    · exact allowed_genLiteralChar _
    · exact ih _ c hc

theorem okS_genLiteralString (g : Rng) : okS ((genLiteralString g).1.1) := by
  unfold genLiteralString
  dsimp only
  exact okS_append (okS_append okS_sqS (allowed_genLiteralChars _ _)) okS_sqS

theorem okS_mlBasicCharRetry :
    ∀ (fuel : Nat) (aw : Bool) (g : Rng),
      okS ((mlBasicCharRetry fuel aw g).1.1) := by
  intro fuel
  induction fuel with
  | zero => intro aw g; exact okS_genBasicChar g
  | succ fuel ih =>
    intro aw g
    unfold mlBasicCharRetry
    dsimp only
    split
    · exact okS_genBasicChar g
    · exact ih _ _

theorem okS_empty : okS "" := by decide

theorem okS_escNlRuns :
    ∀ (k : Nat) (g : Rng), okS (escNlRuns k g).1 := by
  intro k
  induction k with
  | zero => intro g; exact okS_empty
  | succ k ih =>
    intro g
    simp only [escNlRuns]
    exact okS_append (okS_append (okS_genWs _) (okS_genNewline _)) (ih _)

theorem okS_bsS : okS bsS := by decide

theorem okS_mlBasicIter (rfuel : Nat) (vne aq aw : Bool) (g : Rng) :
    okS ((mlBasicIter rfuel vne aq aw g).1.2.1.1) := by
  unfold mlBasicIter
  dsimp only
  split
  · split
    · exact okS_append okS_dqS okS_dqS
    · exact okS_dqS
  · split
    · exact okS_genNewline _
    · split
      · exact okS_append (okS_append (okS_append (okS_append okS_bsS
          (okS_genWs _)) (okS_genNewline _)) (okS_escNlRuns _ _))
          (okS_genWs _)
      · exact okS_mlBasicCharRetry _ _ _

theorem okS_mlBasicLoop (rfuel : Nat) :
    ∀ (n : Nat) (docs vals : String) (aq aw : Bool) (g : Rng), okS docs →
      okS ((mlBasicLoop rfuel n docs vals aq aw g).1.1) := by
  intro n
  induction n with
  | zero => intro docs vals aq aw g h; exact h
  | succ n ih =>
    intro docs vals aq aw g h
    simp only [mlBasicLoop]
    exact ih _ _ _ _ _ (okS_append h (okS_mlBasicIter _ _ _ _ _))

theorem okS_genMlBasicBody (rfuel : Nat) (g : Rng) :
    okS ((genMlBasicBody rfuel g).1.1) := by
  unfold genMlBasicBody
  dsimp only
  split
  · exact okS_mlBasicLoop _ _ _ _ _ _ _ (okS_genNewline _)
  · exact okS_mlBasicLoop _ _ _ _ _ _ _ okS_empty

theorem okS_genMlBasicString (rfuel : Nat) (g : Rng) :
    okS ((genMlBasicString rfuel g).1.1) := by
  unfold genMlBasicString
  dsimp only
  exact okS_append (okS_append (okS_append (okS_append (okS_append
    (okS_append okS_dqS okS_dqS) okS_dqS) (okS_genMlBasicBody _ _))
    okS_dqS) okS_dqS) okS_dqS

theorem okS_mlLiteralIter (vne aq : Bool) (g : Rng) :
    okS ((mlLiteralIter vne aq g).1.2.1.1) := by
  unfold mlLiteralIter
  dsimp only
  split
  · split
    · exact okS_append okS_sqS okS_sqS
    · exact okS_sqS
  · split
    · exact okS_genNewline _
    · intro c hc
      simp only [List.mem_singleton] at hc
      rw [hc]
      exact allowed_genLiteralChar _

theorem okS_mlLiteralLoop :
    ∀ (n : Nat) (docs vals : String) (aq : Bool) (g : Rng), okS docs →
      okS ((mlLiteralLoop n docs vals aq g).1.1) := by
  intro n
  induction n with
  | zero => intro docs vals aq g h; exact h
  | succ n ih =>
    intro docs vals aq g h
    simp only [mlLiteralLoop]
    exact ih _ _ _ _ (okS_append h (okS_mlLiteralIter _ _ _))

theorem okS_genMlLiteralBody (g : Rng) : okS ((genMlLiteralBody g).1.1) := by
  unfold genMlLiteralBody
  dsimp only
  split
  · exact okS_mlLiteralLoop _ _ _ _ _ (okS_genNewline _)
  · exact okS_mlLiteralLoop _ _ _ _ _ okS_empty

theorem okS_genMlLiteralString (g : Rng) :
    okS ((genMlLiteralString g).1.1) := by
  unfold genMlLiteralString
  dsimp only
  exact okS_append (okS_append (okS_append (okS_append (okS_append
    (okS_append okS_sqS okS_sqS) okS_sqS) (okS_genMlLiteralBody _))
    okS_sqS) okS_sqS) okS_sqS

theorem okS_genString (rfuel : Nat) (g : Rng) :
    okS ((genString rfuel g).1.1) := by
  unfold genString
  dsimp only
  split
  · exact okS_genMlBasicString _ _
  · exact okS_genBasicString _
  · exact okS_genMlLiteralString _
  · exact okS_genLiteralString _

theorem allowed_unquotedKeyChar (g : Rng) :
    allowedChar (unquotedKeyChar g).1 = true := by
  unfold unquotedKeyChar
  dsimp only
  split
  · exact (fun hl => hl _ (Rng.choice_mem ("0123456789-_".data) '0'
      g.randFloat.2 (by decide)))
      ((by decide) : ∀ x ∈ ("0123456789-_".data), allowedChar x = true)
  · exact (fun hl => hl _ (Rng.choice_mem letterChars 'a'
      g.randFloat.2 (by decide)))
      ((by decide) : ∀ x ∈ letterChars, allowedChar x = true)

theorem okS_unquotedKeyChars :
    ∀ (n : Nat) (g : Rng), ∀ c ∈ (unquotedKeyChars n g).1,
      allowedChar c = true := by
  intro n
  induction n with
  | zero => intro g c hc; simp [unquotedKeyChars] at hc
  | succ n ih =>
    intro g c hc
    simp only [unquotedKeyChars, List.mem_cons] at hc
    rcases hc with rfl | hc
    · exact allowed_unquotedKeyChar _
    · exact ih _ c hc

theorem okS_genUnquotedKey (g : Rng) : okS ((genUnquotedKey g).1.1) := by
  unfold genUnquotedKey
  dsimp only
  exact okS_unquotedKeyChars _ _

theorem okS_genSimpleKey (g : Rng) : okS ((genSimpleKey g).1.1) := by
  unfold genSimpleKey
  dsimp only
  split
  · split
    · exact okS_genBasicString _
    · exact okS_genLiteralString _
  · exact okS_genUnquotedKey _

theorem okS_fmtKeyChar (c : Char) (g : Rng) : okS ((fmtKeyChar c g).1) := by
  unfold fmtKeyChar
  dsimp only
  split
  · split
    · exact okS_append okS_bsS (okS_escSym _)
    · split
      · exact okS_uniEsc (by decide) _ _ _
      · exact okS_uniEsc (by decide) _ _ _
  · rename_i hcond
    have hbu : basicUnesc c = true := by
      by_contra hbc
      apply hcond
      rw [Bool.not_eq_true] at hbc
      rw [hbc]
      rfl
    intro x hx
    rcases List.mem_singleton.mp hx with rfl
    exact allowed_of_basicUnesc hbu

theorem okS_fmtKeyChars :
    ∀ (cs : List Char) (g : Rng), okS ((fmtKeyChars cs g).1) := by
  intro cs
  induction cs with
  | nil => intro g; exact okS_empty
  | cons c cs ih =>
    intro g
    simp only [fmtKeyChars]
    exact okS_append (okS_fmtKeyChar _ _) (ih _)

theorem okS_formatSimpleKey (key : String) (g : Rng) :
    okS ((formatSimpleKey key g).1) := by
  unfold formatSimpleKey
  dsimp only
  by_cases hq : (key.isEmpty || key.data.any fun c => !bareChar c) = true
  · rw [if_pos hq]
    dsimp only
    rw [if_pos rfl]
    by_cases hb : (key.data.any fun c => !litChar c) = true
    · rw [if_pos hb]
      dsimp only
      rw [if_pos rfl]
      dsimp only
      exact okS_append (okS_append okS_dqS (okS_fmtKeyChars _ _)) okS_dqS
    · rw [if_neg hb]
      dsimp only
      split
      · exact okS_append (okS_append okS_dqS (okS_fmtKeyChars _ _)) okS_dqS
      · refine okS_append (okS_append okS_sqS ?_) okS_sqS
        intro c hc
        simp only [List.any_eq_true, not_exists, not_and,
          Bool.not_eq_true] at hb
        have hl := hb c hc
        simp at hl
        exact allowed_of_litChar hl
  · rw [if_neg hq]
    dsimp only
    split
    · by_cases hb : (key.data.any fun c => !litChar c) = true
      · rw [if_pos hb]
        dsimp only
        rw [if_pos rfl]
        dsimp only
        exact okS_append (okS_append okS_dqS (okS_fmtKeyChars _ _)) okS_dqS
      · rw [if_neg hb]
        dsimp only
        split
        · exact okS_append (okS_append okS_dqS (okS_fmtKeyChars _ _)) okS_dqS
        · refine okS_append (okS_append okS_sqS ?_) okS_sqS
          intro c hc
          simp only [List.any_eq_true, not_exists, not_and,
            Bool.not_eq_true] at hb
          have hl := hb c hc
          simp at hl
          exact allowed_of_litChar hl
    · intro c hc
      simp only [Bool.or_eq_true, not_or, List.any_eq_true, not_exists,
        not_and, Bool.not_eq_true] at hq
      have hbc := hq.2 c hc
      simp at hbc
      exact allowed_of_bareChar hbc

theorem okS_dot : okS ("." : String) := by decide

theorem okS_formatKeyGo :
    ∀ (ks : List String) (first : Bool) (g : Rng),
      okS ((formatKeyGo ks first g).1) := by
  intro ks
  induction ks with
  | nil => intro first g; exact okS_empty
  | cons k ks ih =>
    intro first g
    simp only [formatKeyGo]
    split
    · exact okS_append (okS_append okS_empty (okS_formatSimpleKey _ _))
        (ih _ _)
    · exact okS_append (okS_append (okS_append (okS_append (okS_genWs _)
        okS_dot) (okS_genWs _)) (okS_formatSimpleKey _ _)) (ih _ _)

theorem okS_formatKey (key : Key) (g : Rng) : okS ((formatKey key g).1) :=
  okS_formatKeyGo key true g

theorem okS_genDottedKeySegs :
    ∀ (n : Nat) (first : Bool) (g : Rng),
      okS ((genDottedKeySegs n first g).1.1) := by
  intro n
  induction n with
  | zero => intro first g; exact okS_empty
  | succ n ih =>
    intro first g
    simp only [genDottedKeySegs]
    split
    · exact okS_append (okS_append okS_empty (okS_genSimpleKey _)) (ih _ _)
    · exact okS_append (okS_append (okS_append (okS_append (okS_genWs _)
        okS_dot) (okS_genWs _)) (okS_genSimpleKey _)) (ih _ _)

theorem okS_genDottedKey (pre : Key) (g : Rng) :
    okS ((genDottedKey pre g).1.1) := by
  unfold genDottedKey
  dsimp only
  exact okS_append (okS_formatKeyGo _ _ _) (okS_genDottedKeySegs _ _ _)

theorem okS_genKeyLoop (exPre exKeys : List Key) (pre : Key) :
    ∀ (fuel : Nat) (g : Rng) (r : (String × Key) × Rng),
      genKeyLoop exPre exKeys pre fuel g = .ok r → okS r.1.1 := by
  intro fuel
  induction fuel with
  | zero => intro g r h; exact absurd h (by simp [genKeyLoop])
  | succ fuel ih =>
    intro g r h
    rw [genKeyLoop] at h
    dsimp only at h
    split at h
    · simp only [Except.ok.injEq] at h
      rw [← h]
      exact okS_genDottedKey _ _
    · exact ih _ _ h

theorem okS_genKey (fuel : Nat) (exPre exKeys rePre reKeys : List Key)
    (g : Rng) (r : (String × Key) × Rng)
    (h : genKey fuel exPre exKeys rePre reKeys g = .ok r) : okS r.1.1 := by
  rw [genKey] at h
  dsimp only at h
  split at h
  · exact okS_genKeyLoop _ _ _ _ _ _ h
  · split at h
    · split at h
      · simp only [Except.ok.injEq] at h
        rw [← h]
        exact okS_formatKey _ _
      · exact okS_genKeyLoop _ _ _ _ _ _ h
    · exact okS_genKeyLoop _ _ _ _ _ _ h

theorem spliceGo_mem :
    ∀ (cs : List Char) (g : Rng), ∀ c ∈ (spliceGo cs g).1,
      c ∈ cs ∨ c = '_' := by
  intro cs
  induction cs with
  | nil => intro g c hc; simp [spliceGo] at hc
  | cons c0 rest ih =>
    intro g c hc
    rcases rest with _ | ⟨c1, rest2⟩
    · simp only [spliceGo, List.mem_singleton] at hc
      exact Or.inl (by rw [hc]; exact List.mem_singleton.mpr rfl)
    · rw [spliceGo] at hc
      dsimp only at hc
      split at hc
      · simp only [List.mem_cons] at hc
        rcases hc with rfl | rfl | hc
        · exact Or.inl (List.mem_cons_self _ _)
        · exact Or.inr rfl
        · rcases ih _ c hc with h | h
          · exact Or.inl (List.mem_cons_of_mem _ h)
          · exact Or.inr h
      · simp only [List.mem_cons] at hc
        rcases hc with rfl | hc
        · exact Or.inl (List.mem_cons_self _ _)
        · rcases ih _ c hc with h | h
          · exact Or.inl (List.mem_cons_of_mem _ h)
          · exact Or.inr h

theorem okS_spliceNumber {s : String} (hs : okS s) (g : Rng) :
    okS ((spliceNumber s g).1) := by
  unfold spliceNumber
  dsimp only
  intro c hc
  rcases spliceGo_mem s.data g c hc with h | h
  · exact hs c h
  · rw [h]; decide

theorem okS_natToBase {b : Nat} (hb1 : 0 < b) (hb2 : b ≤ 10) (n : Nat) :
    okS (natToBase b n) := by
  intro c hc
  have := natToBase_digits hb1 hb2 n c hc
  exact allowedChar_tn (by omega)

theorem okS_replicate0 (n : Nat) : okS (String.mk (List.replicate n '0')) := by
  intro c hc
  rcases List.eq_of_mem_replicate hc with rfl
  decide

theorem okS_choiceS {l : List String} {dflt : String}
    (hl : ∀ x ∈ l, okS x) (hd : okS dflt) (g : Rng) :
    okS (Rng.choice l dflt g).1 := by
  rcases l with _ | ⟨x, xs⟩
  · exact hd
  · exact hl _ (Rng.choice_mem _ _ _ (by simp))

theorem allowed_choiceC {l : List Char} {dflt : Char}
    (hl : ∀ x ∈ l, allowedChar x = true) (hd : allowedChar dflt = true)
    (g : Rng) : allowedChar (Rng.choice l dflt g).1 = true := by
  rcases l with _ | ⟨x, xs⟩
  · exact hd
  · exact hl _ (Rng.choice_mem _ _ _ (by simp))

theorem okS_genInteger (g : Rng) : okS ((genInteger g).1.1) := by
  unfold genInteger
  dsimp only
  apply okS_append
  · split
    · decide
    · split
      · decide
      · split
        · decide
        · split
          · decide
          · split
            · decide
            · decide
  · apply okS_spliceNumber
    split
    · apply okS_append (okS_replicate0 _)
      split
      · exact okS_natToBase (by omega) (by omega) _
      · split
        · exact okS_randFormatHex _ _ _
        · split
          · exact okS_natToBase (by omega) (by omega) _
          · exact okS_natToBase (by omega) (by omega) _
    · split
      · exact okS_natToBase (by omega) (by omega) _
      · split
        · exact okS_randFormatHex _ _ _
        · split
          · exact okS_natToBase (by omega) (by omega) _
          · exact okS_natToBase (by omega) (by omega) _

theorem okS_genDecInt (maxVal : Nat) (signed zeroPre : Bool) (g : Rng) :
    okS ((genDecInt maxVal signed zeroPre g).1.1) := by
  unfold genDecInt
  dsimp only
  apply okS_append
  · split
    · exact okS_choiceS (by decide) (by decide) _
    · exact okS_empty
  · apply okS_spliceNumber
    apply okS_append
    · split
      · exact okS_replicate0 _
      · exact okS_empty
    · exact okS_natToBase (by omega) (by omega) _

theorem okS_genFloat (g : Rng) : okS ((genFloat g).1.1) := by
  unfold genFloat
  dsimp only
  split
  · exact okS_append (okS_choiceS (by decide) (by decide) _)
      (okS_choiceS (by decide) (by decide) _)
  · apply okS_append
    · apply okS_append
      · exact okS_genDecInt 999999 true false _
      · split
        · exact okS_append okS_dot (okS_genDecInt 99999 false true _)
        · exact okS_empty
    · split
      · apply okS_append
        · intro c hc
          rcases List.mem_singleton.mp hc with rfl
          exact allowed_choiceC (by decide) (by decide) _
        · exact okS_genDecInt 100 true true _
      · exact okS_empty

theorem okS_genBoolean (g : Rng) : okS ((genBoolean g).1.1) := by
  unfold genBoolean
  have hm := Rng.choice_mem [("true", true), ("false", false)]
    ("true", true) g (by simp)
  simp only [List.mem_cons, List.mem_singleton] at hm
  rcases hm with h | h | h
  · rw [h]; decide
  · rw [h]; decide
  · simp at h

theorem okS_pad (w n : Nat) : okS (pad w n) := by
  unfold pad
  exact okS_append (okS_replicate0 _) (okS_natToBase (by omega) (by omega) _)

theorem okS_dash : okS ("-" : String) := by decide

theorem okS_colon : okS (":" : String) := by decide

theorem okS_genLocalDate (g : Rng) : okS ((genLocalDate g).1.1) := by
  unfold genLocalDate
  dsimp only
  exact okS_append (okS_append (okS_append (okS_append (okS_pad _ _)
    okS_dash) (okS_pad _ _)) okS_dash) (okS_pad _ _)

theorem okS_genLocalTime (g : Rng) : okS ((genLocalTime g).1.1) := by
  unfold genLocalTime
  dsimp only
  have hiso : okS (pad 2 (Rng.randNat 0 23 g).1 ++ ":" ++
      pad 2 (Rng.randNat 0 59 (Rng.randNat 0 23 g).2).1 ++ ":" ++
      pad 2 (Rng.randNat 0 59 (Rng.randNat 0 59 (Rng.randNat 0 23 g).2).2).1) :=
    okS_append (okS_append (okS_append (okS_append (okS_pad _ _)
      okS_colon) (okS_pad _ _)) okS_colon) (okS_pad _ _)
  split
  · dsimp only
    apply okS_append
    · apply okS_append hiso
      split
      · exact okS_append okS_dot (okS_pad _ _)
      · exact okS_empty
    · exact okS_append okS_dot (okS_replicate0 _)
  · dsimp only
    apply okS_append
    · apply okS_append hiso
      split
      · exact okS_append okS_dot (okS_pad _ _)
      · exact okS_empty
    · exact okS_empty

theorem okS_genTimezone (g : Rng) : okS ((genTimezone g).1.1) := by
  unfold genTimezone
  dsimp only
  split
  · exact (by decide : okS ("Z" : String))
  · apply okS_append
    · apply okS_append
      · apply okS_append
        · split
          · exact okS_dash
          · exact (by decide : okS ("+" : String))
        · exact okS_pad _ _
      · exact okS_colon
    · exact okS_pad _ _

theorem okS_delim (g : Rng) :
    okS (String.mk [(Rng.choice ['T', 't', ' '] 'T' g).1]) := by
  intro c hc
  rcases List.mem_singleton.mp hc with rfl
  exact allowed_choiceC (by decide) (by decide) _

theorem okS_genOffsetDateTime (g : Rng) :
    okS ((genOffsetDateTime g).1.1) := by
  unfold genOffsetDateTime
  dsimp only
  exact okS_append (okS_append (okS_append (okS_genLocalDate _)
    (okS_delim _)) (okS_genLocalTime _)) (okS_genTimezone _)

theorem okS_genLocalDateTime (g : Rng) :
    okS ((genLocalDateTime g).1.1) := by
  unfold genLocalDateTime
  dsimp only
  exact okS_append (okS_append (okS_genLocalDate _) (okS_delim _))
    (okS_genLocalTime _)

theorem okS_genDateTime (g : Rng) : okS ((genDateTime g).1.1) := by
  unfold genDateTime
  dsimp only
  split
  · exact okS_genOffsetDateTime _
  · exact okS_genLocalDateTime _
  · exact okS_genLocalDate _
  · exact okS_genLocalTime _

theorem okS_wsCommentNewlineItem (g : Rng) :
    okS ((wsCommentNewlineItem g).1) := by
  unfold wsCommentNewlineItem
  dsimp only
  apply okS_append
  · apply okS_append
    · split
      · exact okS_genWs _
      · exact okS_empty
    · split
      · exact okS_genComment _
      · exact okS_empty
  · split
    · exact okS_genNewline _
    · exact okS_empty

theorem okS_wcnLoop :
    ∀ (n : Nat) (g : Rng), okS ((wcnLoop n g).1) := by
  intro n
  induction n with
  | zero => intro g; exact okS_empty
  | succ n ih =>
    intro g
    simp only [wcnLoop]
    exact okS_append (okS_wsCommentNewlineItem _) (ih _)

theorem okS_genWsCommentNewline (g : Rng) :
    okS ((genWsCommentNewline g).1) := by
  unfold genWsCommentNewline
  dsimp only
  exact okS_wcnLoop _ _

theorem okS_comma : okS ("," : String) := by decide

theorem okS_genArrayElemsF
    (gv : Rng → Except GenErr ((String × Val) × Rng))
    (hgv : ∀ g r, gv g = .ok r → okS r.1.1) :
    ∀ (n : Nat) (first : Bool) (g : Rng) (r),
      genArrayElemsF gv n first g = .ok r → okS r.1.1 := by
  intro n
  induction n with
  | zero =>
    intro first g r h
    simp only [genArrayElemsF, Except.ok.injEq] at h
    rw [← h]
    exact okS_empty
  | succ n ih =>
    intro first g r h
    rw [genArrayElemsF] at h
    dsimp only at h
    split at h
    · exact absurd h (by simp)
    · rename_i res hgveq
      split at h
      · exact absurd h (by simp)
      · rename_i res2 hrec
        simp only [Except.ok.injEq] at h
        rw [← h]
        dsimp only
        refine okS_append (okS_append (okS_append (okS_append ?_ ?_)
          (okS_genWsCommentNewline _)) (hgv _ _ hgveq)) (ih _ _ _ hrec)
        · split
          · exact okS_empty
          · exact okS_genWsCommentNewline _
        · split
          · exact okS_empty
          · exact okS_comma

theorem okS_genArrayF
    (gv : Rng → Except GenErr ((String × Val) × Rng))
    (hgv : ∀ g r, gv g = .ok r → okS r.1.1) (g : Rng) (r)
    (h : genArrayF gv g = .ok r) : okS r.1.1 := by
  rw [genArrayF] at h
  dsimp only at h
  split at h
  · exact absurd h (by simp)
  · rename_i res hel
    simp only [Except.ok.injEq] at h
    rw [← h]
    dsimp only
    refine okS_append (okS_append (okS_append (okS_append
      (by decide : okS ("[" : String))
      (okS_genArrayElemsF gv hgv _ _ _ _ hel)) ?_)
      (okS_genWsCommentNewline _)) (by decide : okS ("]" : String))
    split
    · split
      · exact okS_append (okS_genWsCommentNewline _) okS_comma
      · exact okS_empty
    · exact okS_empty

theorem okS_genInlineItemsF
    (gk : List Key → List Key → List Key → Rng →
      Except GenErr ((String × Key) × Rng))
    (gv : Rng → Except GenErr ((String × Val) × Rng))
    (hgk : ∀ a b c g r, gk a b c g = .ok r → okS r.1.1)
    (hgv : ∀ g r, gv g = .ok r → okS r.1.1) :
    ∀ (n : Nat) (first : Bool) (ik ip : List Key)
      (tbl : List (String × Val)) (g : Rng) (r),
      genInlineItemsF gk gv n first ik ip tbl g = .ok r → okS r.1.1 := by
  intro n
  induction n with
  | zero =>
    intro first ik ip tbl g r h
    simp only [genInlineItemsF, Except.ok.injEq] at h
    rw [← h]
    exact okS_empty
  | succ n ih =>
    intro first ik ip tbl g r h
    rw [genInlineItemsF] at h
    dsimp only at h
    split at h
    · exact absurd h (by simp)
    · rename_i kres hk
      split at h
      · exact absurd h (by simp)
      · rename_i vres hv
        split at h
        · exact absurd h (by simp)
        · rename_i tbl2 hins
          split at h
          · exact absurd h (by simp)
          · rename_i rres hrec
            simp only [Except.ok.injEq] at h
            rw [← h]
            dsimp only
            refine okS_append (okS_append (okS_append (okS_append
              (okS_append (okS_append (okS_append ?_ (okS_genWs _))
                (hgk _ _ _ _ _ hk)) (okS_genWs _))
              (by decide : okS ("=" : String))) (okS_genWs _))
              (hgv _ _ hv)) (ih _ _ _ _ _ _ hrec)
            split
            · exact okS_empty
            · exact okS_append (okS_genWs _) okS_comma

theorem okS_genInlineTableF
    (gk : List Key → List Key → List Key → Rng →
      Except GenErr ((String × Key) × Rng))
    (gv : Rng → Except GenErr ((String × Val) × Rng))
    (hgk : ∀ a b c g r, gk a b c g = .ok r → okS r.1.1)
    (hgv : ∀ g r, gv g = .ok r → okS r.1.1) (g : Rng) (r)
    (h : genInlineTableF gk gv g = .ok r) : okS r.1.1 := by
  rw [genInlineTableF] at h
  dsimp only at h
  split at h
  · exact absurd h (by simp)
  · rename_i res hit
    simp only [Except.ok.injEq] at h
    rw [← h]
    dsimp only
    exact okS_append (okS_append (okS_append
      (by decide : okS ("\x7b" : String))
      (okS_genInlineItemsF gk gv hgk hgv _ _ _ _ _ _ _ hit)) (okS_genWs _))
      (by decide : okS ("\x7d" : String))

theorem okS_genVal :
    ∀ (fuel : Nat) (g : Rng) (r), genVal fuel g = .ok r → okS r.1.1 := by
  intro fuel
  induction fuel with
  | zero => intro g r h; exact absurd h (by simp [genVal])
  | succ fuel ih =>
    intro g r h
    rw [genVal] at h
    dsimp only at h
    split at h
    · simp only [Except.ok.injEq] at h
      rw [← h]
      exact okS_genString _ _
    · simp only [Except.ok.injEq] at h
      rw [← h]
      exact okS_genBoolean _
    · simp only [Except.ok.injEq] at h
      rw [← h]
      exact okS_genInteger _
    · simp only [Except.ok.injEq] at h
      rw [← h]
      exact okS_genFloat _
    · exact okS_genArrayF _ ih _ _ h
    · exact okS_genInlineTableF _ _
        (fun a b c g r hh => okS_genKey fuel a b c [] g r hh) ih _ _ h
    · simp only [Except.ok.injEq] at h
      rw [← h]
      exact okS_genDateTime _

theorem okS_eq : okS ("=" : String) := by decide

theorem okS_genKeyval (fuel : Nat) (ctx : Ctx) (g : Rng) (r)
    (h : genKeyval fuel ctx g = .ok r) : okS r.1.1 := by
  rw [genKeyval] at h
  dsimp only at h
  split at h
  · exact absurd h (by simp)
  · rename_i kres hk
    split at h
    · exact absurd h (by simp)
    · rename_i vres hv
      split at h
      · exact absurd h (by simp)
      · rename_i ctx2 hassign
        simp only [Except.ok.injEq] at h
        rw [← h]
        dsimp only
        exact okS_append (okS_append (okS_append (okS_append
          (okS_genKey _ _ _ _ _ _ _ hk) (okS_genWs _)) okS_eq)
          (okS_genWs _)) (okS_genVal _ _ _ hv)

theorem okS_genTable (fuel : Nat) (ctx : Ctx) (g : Rng) (r)
    (h : genTable fuel ctx g = .ok r) : okS r.1.1 := by
  rw [genTable] at h
  dsimp only at h
  split at h
  · split at h
    · exact absurd h (by simp)
    · rename_i kres hk
      split at h
      · exact absurd h (by simp)
      · rename_i ctx2 hopen
        simp only [Except.ok.injEq] at h
        rw [← h]
        dsimp only
        exact okS_append (okS_append (okS_append (okS_append
          (by decide : okS ("[[" : String)) (okS_genWs _))
          (okS_genKey _ _ _ _ _ _ _ hk)) (okS_genWs _))
          (by decide : okS ("]]" : String))
  · split at h
    · exact absurd h (by simp)
    · rename_i kres hk
      split at h
      · exact absurd h (by simp)
      · rename_i ctx2 hopen
        simp only [Except.ok.injEq] at h
        rw [← h]
        dsimp only
        exact okS_append (okS_append (okS_append (okS_append
          (by decide : okS ("[" : String)) (okS_genWs _))
          (okS_genKey _ _ _ _ _ _ _ hk)) (okS_genWs _))
          (by decide : okS ("]" : String))

theorem okS_finishExpr {doc : String} (hdoc : okS doc) (ctx : Ctx) (g : Rng)
    (r) (h : finishExpr doc ctx g = .ok r) : okS r.1.1 := by
  rw [finishExpr] at h
  dsimp only at h
  split at h
  · simp only [Except.ok.injEq] at h
    rw [← h]
    exact okS_append hdoc (okS_genComment _)
  · simp only [Except.ok.injEq] at h
    rw [← h]
    exact hdoc

theorem okS_genExpression (fuel : Nat) (ctx : Ctx) (g : Rng) (r)
    (h : genExpression fuel ctx g = .ok r) : okS r.1.1 := by
  rw [genExpression] at h
  dsimp only at h
  split at h
  · split at h
    · exact absurd h (by simp)
    · rename_i kres hkv
      exact okS_finishExpr (okS_append (okS_append (okS_genWs _)
        (okS_genKeyval _ _ _ _ hkv)) (okS_genWs _)) _ _ _ h
  · split at h
    · split at h
      · exact absurd h (by simp)
      · rename_i tres ht
        exact okS_finishExpr (okS_append (okS_append (okS_genWs _)
          (okS_genTable _ _ _ _ ht)) (okS_genWs _)) _ _ _ h
    · exact okS_finishExpr (okS_genWs _) _ _ _ h

theorem okS_genTomlLoop (fuel : Nat) :
    ∀ (n : Nat) (first : Bool) (ctx : Ctx) (doc : String) (g : Rng) (r),
      okS doc → genTomlLoop fuel n first ctx doc g = .ok r →
        okS r.1.1 := by
  intro n
  induction n with
  | zero =>
    intro first ctx doc g r hdoc h
    simp only [genTomlLoop, Except.ok.injEq] at h
    rw [← h]
    exact hdoc
  | succ n ih =>
    intro first ctx doc g r hdoc h
    rw [genTomlLoop] at h
    dsimp only at h
    split at h
    · exact absurd h (by simp)
    · rename_i eres hexpr
      refine ih _ _ _ _ _ (okS_append (okS_append hdoc ?_)
        (okS_genExpression _ _ _ _ hexpr)) h
      split
      · exact okS_empty
      · exact okS_genNewline _

theorem okS_genToml (fuel : Nat) (g : Rng) (r)
    (h : genToml fuel g = .ok r) : okS r.1.1 := by
  rw [genToml] at h
  dsimp only at h
  split at h
  · exact absurd h (by simp)
  · rename_i res hloop
    simp only [Except.ok.injEq] at h
    rw [← h]
    exact okS_genTomlLoop _ _ _ _ _ _ _ okS_empty hloop

/-- Oracle stream refuting the original C3 charset claim. -/
def cexStreamC3 : List Nat :=
  [1, 0, 2 ^ 53 - 1, 2 ^ 53 - 1, 0, 0, 2 ^ 53 - 1, 2 ^ 53 - 1]

/-- C3 counterexample: on this oracle stream the generated document is a
bare newline, U+000A, which lies outside the claimed codepoint set. -/
theorem genToml_charset_cex :
    ∃ r, genToml 1 (listRng cexStreamC3) = .ok r ∧
      ∃ c ∈ (r.1.1).data, origChar c = false := by
  refine ⟨_, rfl, '\n', ?_, by decide⟩
  decide

/-- C3 (amended): every codepoint of a successfully generated document
lies in {U+0009, U+000A, U+000D} ∪ [U+0020, U+D7FF] ∪ [U+E000, U+10FFFF].
The newline codepoints U+000A and U+000D, emitted by `_gen_newline` and
the multiline-string branches, must be added to the claimed set. -/
theorem genToml_charset (fuel : Nat) (g : Rng)
    (r : (String × List (String × Val)) × Rng)
    (h : genToml fuel g = .ok r) :
    ∀ c ∈ (r.1.1).data, allowedChar c = true :=
  okS_genToml fuel g r h

/-- Witness: the charset bound applied to a concrete successful run. -/
theorem genToml_charset_witness :
    ∃ r, genToml 1 (listRng cexStreamC3) = .ok r ∧
      ∀ c ∈ (r.1.1).data, allowedChar c = true :=
  ⟨_, rfl, genToml_charset 1 (listRng cexStreamC3) _ rfl⟩


/-! ## Assert-freedom of the generator (C4)

`genToml` never returns `.error .assertFail`: the `assert` statements of
the tree model are unreachable.  Value generation cannot assert at all;
the mutating calls (`assign`, `open_table`, `open_table_array`) are
protected by the exclusion lists computed from the context queries, via
invariants on the tree established below. -/

theorem bindErr {α β : Type} (e : GenErr) (f : α → Except GenErr β) :
    ((Except.error e : Except GenErr α) >>= f) = Except.error e := rfl

theorem bindOk {α β : Type} (a : α) (f : α → Except GenErr β) :
    ((Except.ok a : Except GenErr α) >>= f) = f a := rfl

theorem naf_genKeyLoop (exPre exKeys : List Key) (pre : Key) :
    ∀ (fuel : Nat) (g : Rng),
      genKeyLoop exPre exKeys pre fuel g ≠ .error .assertFail := by
  intro fuel
  induction fuel with
  | zero => intro g h; simp [genKeyLoop] at h
  | succ fuel ih =>
    intro g h
    rw [genKeyLoop] at h
    dsimp only at h
    split at h
    · simp at h
    · exact ih _ h

theorem naf_genKey (fuel : Nat) (exPre exKeys rePre reKeys : List Key)
    (g : Rng) : genKey fuel exPre exKeys rePre reKeys g
      ≠ .error .assertFail := by
  intro h
  rw [genKey] at h
  dsimp only at h
  split at h
  · exact naf_genKeyLoop _ _ _ _ _ h
  · split at h
    · split at h
      · simp at h
      · exact naf_genKeyLoop _ _ _ _ _ h
    · exact naf_genKeyLoop _ _ _ _ _ h

theorem insertNested_cons2 (tbl : List (String × Val)) (p q : String)
    (rest2 : List String) (v : Val) :
    insertNested tbl (p :: q :: rest2) v
      = (match findAssoc tbl p with
         | none => (insertNested [] (q :: rest2) v) >>= fun sub =>
             Except.ok (setAssoc tbl p (.tbl sub))
         | some (.tbl sub) => (insertNested sub (q :: rest2) v) >>= fun s2 =>
             Except.ok (setAssoc tbl p (.tbl s2))
         | some _ => Except.error .typeErr) := rfl

theorem naf_insertNested :
    ∀ (key : Key) (tbl : List (String × Val)) (v : Val),
      insertNested tbl key v ≠ .error .assertFail := by
  intro key
  induction key with
  | nil => intro tbl v h; simp [insertNested] at h
  | cons p rest ih =>
    intro tbl v h
    rcases rest with _ | ⟨q, rest2⟩
    · rw [insertNested] at h
      simp at h
    · rw [insertNested_cons2] at h
      split at h
      · rcases hrec : insertNested [] (q :: rest2) v with e | sub
        · rw [hrec, bindErr] at h
          simp only [Except.error.injEq] at h
          rw [h] at hrec
          exact ih _ _ hrec
        · rw [hrec, bindOk] at h
          simp at h
      · rename_i sub hfeq
        rcases hrec : insertNested sub (q :: rest2) v with e | sub2
        · rw [hrec, bindErr] at h
          simp only [Except.error.injEq] at h
          rw [h] at hrec
          exact ih _ _ hrec
        · rw [hrec, bindOk] at h
          simp at h
      · simp at h

theorem naf_genArrayElemsF
    (gv : Rng → Except GenErr ((String × Val) × Rng))
    (hgv : ∀ g, gv g ≠ .error .assertFail) :
    ∀ (n : Nat) (first : Bool) (g : Rng),
      genArrayElemsF gv n first g ≠ .error .assertFail := by
  intro n
  induction n with
  | zero => intro first g h; simp [genArrayElemsF] at h
  | succ n ih =>
    intro first g h
    rw [genArrayElemsF] at h
    dsimp only at h
    split at h
    · rename_i e hgve
      simp only [Except.error.injEq] at h
      rw [h] at hgve
      exact hgv _ hgve
    · split at h
      · rename_i e hrec
        simp only [Except.error.injEq] at h
        rw [h] at hrec
        exact ih _ _ hrec
      · simp at h

theorem naf_genArrayF
    (gv : Rng → Except GenErr ((String × Val) × Rng))
    (hgv : ∀ g, gv g ≠ .error .assertFail) (g : Rng) :
    genArrayF gv g ≠ .error .assertFail := by
  intro h
  rw [genArrayF] at h
  dsimp only at h
  split at h
  · rename_i e hel
    simp only [Except.error.injEq] at h
    rw [h] at hel
    exact naf_genArrayElemsF gv hgv _ _ _ hel
  · simp at h

theorem naf_genInlineItemsF
    (gk : List Key → List Key → List Key → Rng →
      Except GenErr ((String × Key) × Rng))
    (gv : Rng → Except GenErr ((String × Val) × Rng))
    (hgk : ∀ a b c g, gk a b c g ≠ .error .assertFail)
    (hgv : ∀ g, gv g ≠ .error .assertFail) :
    ∀ (n : Nat) (first : Bool) (ik ip : List Key)
      (tbl : List (String × Val)) (g : Rng),
      genInlineItemsF gk gv n first ik ip tbl g ≠ .error .assertFail := by
  intro n
  induction n with
  | zero => intro first ik ip tbl g h; simp [genInlineItemsF] at h
  | succ n ih =>
    intro first ik ip tbl g h
    rw [genInlineItemsF] at h
    dsimp only at h
    split at h
    · rename_i e hk
      simp only [Except.error.injEq] at h
      rw [h] at hk
      exact hgk _ _ _ _ hk
    · split at h
      · rename_i e hv
        simp only [Except.error.injEq] at h
        rw [h] at hv
        exact hgv _ hv
      · split at h
        · rename_i e hins
          simp only [Except.error.injEq] at h
          rw [h] at hins
          exact naf_insertNested _ _ _ hins
        · split at h
          · rename_i e hrec
            simp only [Except.error.injEq] at h
            rw [h] at hrec
            exact ih _ _ _ _ _ hrec
          · simp at h

theorem naf_genInlineTableF
    (gk : List Key → List Key → List Key → Rng →
      Except GenErr ((String × Key) × Rng))
    (gv : Rng → Except GenErr ((String × Val) × Rng))
    (hgk : ∀ a b c g, gk a b c g ≠ .error .assertFail)
    (hgv : ∀ g, gv g ≠ .error .assertFail) (g : Rng) :
    genInlineTableF gk gv g ≠ .error .assertFail := by
  intro h
  rw [genInlineTableF] at h
  dsimp only at h
  split at h
  · rename_i e hit
    simp only [Except.error.injEq] at h
    rw [h] at hit
    exact naf_genInlineItemsF gk gv hgk hgv _ _ _ _ _ _ hit
  · simp at h

theorem naf_genVal :
    ∀ (fuel : Nat) (g : Rng), genVal fuel g ≠ .error .assertFail := by
  intro fuel
  induction fuel with
  | zero => intro g h; simp [genVal] at h
  | succ fuel ih =>
    intro g h
    rw [genVal] at h
    dsimp only at h
    split at h
    · simp at h
    · simp at h
    · simp at h
    · simp at h
    · exact naf_genArrayF _ ih _ h
    · exact naf_genInlineTableF _ _
        (fun a b c g => naf_genKey fuel a b c [] g) ih _ h
    · simp at h


/-- No direct child is a dotted table. -/
def NoDotTop : ITable → Prop
  | .nil => True
  | .cons _ c rest => (∀ df e, c ≠ .table df true e) ∧ NoDotTop rest

mutual
/-- Subtree built purely by dotted assignments: every child is a value or
a dotted, defined table with the same property. -/
def OnlyVD : ITable → Prop
  | .nil => True
  | .cons _ c rest => OnlyVDc c ∧ OnlyVD rest

def OnlyVDc : Child → Prop
  | .value _ => True
  | .table df dt elems => df = true ∧ dt = true ∧ OnlyVD elems
  | .tarray _ => False
end

mutual
/-- Global well-formedness: keys unique at each level, dotted tables
defined, implicit tables without dotted children, arrays non-empty. -/
def WF : ITable → Prop
  | .nil => True
  | .cons k c rest => WFc c ∧ rest.contains k = false ∧ WF rest

def WFc : Child → Prop
  | .value _ => True
  | .table df dt elems =>
      (dt = true → df = true) ∧ (df = false → NoDotTop elems) ∧ WF elems
  | .tarray l => l ≠ .nil ∧ WFTL l

def WFTL : TList → Prop
  | .nil => True
  | .cons t rest => WF t ∧ WFTL rest
end

/-- Active-table invariant: every direct dotted child is an
assignment-built subtree. -/
def AInv : ITable → Prop
  | .nil => True
  | .cons _ c rest => (∀ df e, c = .table df true e → OnlyVD e) ∧ AInv rest

theorem contains_iff_find :
    ∀ (t : ITable) (p : String),
      t.contains p = true ↔ ∃ c, t.find? p = some c
  | .nil, p => by simp [ITable.contains, ITable.find?]
  | .cons k c rest, p => by
    by_cases hk : k = p
    · simp [ITable.contains, ITable.find?, hk]
    · simp only [ITable.contains, ITable.find?, if_neg hk]
      exact contains_iff_find rest p

theorem contains_set_ne :
    ∀ (t : ITable) (p q : String), q ≠ p → ∀ (c : Child),
      (t.set p c).contains q = t.contains q
  | .nil, p, q, h, c => by
    simp only [ITable.set, ITable.contains]
    rw [if_neg (fun hh => h hh.symm)]
  | .cons k c0 rest, p, q, h, c => by
    by_cases hk : k = p
    · simp only [ITable.set, if_pos hk, ITable.contains]
    · simp only [ITable.set, if_neg hk, ITable.contains]
      split
      · rfl
      · exact contains_set_ne rest p q h c

theorem find?_set_ne :
    ∀ (t : ITable) (p q : String), q ≠ p → ∀ (c : Child),
      (t.set p c).find? q = t.find? q
  | .nil, p, q, h, c => by
    simp only [ITable.set, ITable.find?]
    rw [if_neg (fun hh => h hh.symm)]
  | .cons k c0 rest, p, q, h, c => by
    by_cases hk : k = p
    · simp only [ITable.set, if_pos hk, ITable.find?]
      rw [hk, if_neg (fun hh => h hh.symm), if_neg (fun hh => h hh.symm)]
    · simp only [ITable.set, if_neg hk, ITable.find?]
      split
      · rfl
      · exact find?_set_ne rest p q h c

theorem WF_set :
    ∀ (t : ITable), WF t → ∀ (c : Child), WFc c → ∀ (p : String),
      WF (t.set p c)
  | .nil, hw, c, hc, p => ⟨hc, rfl, trivial⟩
  | .cons k c0 rest, hw, c, hc, p => by
    rw [WF] at hw
    by_cases hk : k = p
    · rw [ITable.set, if_pos hk]
      exact ⟨hc, hw.2.1, hw.2.2⟩
    · rw [ITable.set, if_neg hk]
      refine ⟨hw.1, ?_, WF_set rest hw.2.2 c hc p⟩
      rw [contains_set_ne rest p k hk c]
      exact hw.2.1

theorem AInv_set :
    ∀ (t : ITable), AInv t → ∀ (c : Child),
      (∀ df e, c = .table df true e → OnlyVD e) → ∀ (p : String),
      AInv (t.set p c)
  | .nil, ha, c, hc, p => ⟨hc, trivial⟩
  | .cons k c0 rest, ha, c, hc, p => by
    rw [AInv] at ha
    by_cases hk : k = p
    · rw [ITable.set, if_pos hk]
      exact ⟨hc, ha.2⟩
    · rw [ITable.set, if_neg hk]
      exact ⟨ha.1, AInv_set rest ha.2 c hc p⟩

theorem OnlyVD_set :
    ∀ (t : ITable), OnlyVD t → ∀ (c : Child), OnlyVDc c → ∀ (p : String),
      OnlyVD (t.set p c)
  | .nil, ho, c, hc, p => ⟨hc, trivial⟩
  | .cons k c0 rest, ho, c, hc, p => by
    rw [OnlyVD] at ho
    by_cases hk : k = p
    · rw [ITable.set, if_pos hk]
      exact ⟨hc, ho.2⟩
    · rw [ITable.set, if_neg hk]
      exact ⟨ho.1, OnlyVD_set rest ho.2 c hc p⟩

theorem mem_insertKey {x y : Key} {l : List Key} :
    x ∈ insertKey y l ↔ x = y ∨ x ∈ l := by
  induction l with
  | nil => simp [insertKey]
  | cons z zs ih =>
    rw [insertKey]
    split
    · simp
    · simp only [List.mem_cons, ih]
      tauto

theorem mem_sortKeys {x : Key} : ∀ {l : List Key}, x ∈ sortKeys l ↔ x ∈ l := by
  intro l
  induction l with
  | nil => simp [sortKeys]
  | cons y ys ih =>
    rw [sortKeys, mem_insertKey]
    simp only [List.mem_cons, ih]

theorem keyContains_iff {l : List Key} {k : Key} :
    l.contains k = true ↔ k ∈ l :=
  List.elem_iff

/-- Semantics of the `_gen_key` rejection test. -/
theorem checkKeyOK_sem {exPre exKeys : List Key} {key : Key}
    (h : checkKeyOK exPre exKeys key = true) :
    key ∉ exKeys ∧ ∀ i, 1 ≤ i → i < key.length → key.take i ∉ exPre := by
  unfold checkKeyOK at h
  simp only [Bool.and_eq_true, Bool.not_eq_true'] at h
  constructor
  · intro hmem
    rw [keyContains_iff.mpr hmem] at h
    exact absurd h.1 (by simp)
  · intro i h1 h2 hmem
    have hany := h.2
    rw [List.any_eq_false] at hany
    have := hany i (List.mem_range.mpr h2)
    rw [keyContains_iff.mpr hmem] at this
    simp [h1] at this


theorem itemKeysC_sub :
    ∀ (t : ITable) (p : String) (c : Child), t.find? p = some c →
      ∀ y ∈ itemKeysC p c, y ∈ itemKeysIT t
  | .nil, p, c, h => by simp [ITable.find?] at h
  | .cons k c0 rest, p, c, h => by
    intro y hy
    rw [ITable.find?] at h
    rw [itemKeysIT, List.mem_append]
    split at h
    · rename_i hk
      simp only [Option.some.injEq] at h
      rw [hk, h]
      exact Or.inl hy
    · exact Or.inr (itemKeysC_sub rest p c h y hy)

theorem itemPres_sub :
    ∀ (t : ITable) (p : String) (df : Bool) (e : ITable),
      t.find? p = some (.table df true e) →
      [p] ∈ itemPresIT t ∧ ∀ x ∈ itemPresIT e, p :: x ∈ itemPresIT t
  | .nil, p, df, e, h => by simp [ITable.find?] at h
  | .cons k c0 rest, p, df, e, h => by
    rw [ITable.find?] at h
    split at h
    · rename_i hk
      simp only [Option.some.injEq] at h
      subst hk
      subst h
      refine ⟨?_, ?_⟩
      · show [k] ∈ ([k] :: (itemPresIT e).map (k :: ·)) ++ itemPresIT rest
        exact List.mem_append_left _ (List.mem_cons_self _ _)
      · intro x hx
        show k :: x ∈ ([k] :: (itemPresIT e).map (k :: ·)) ++ itemPresIT rest
        exact List.mem_append_left _
          (List.mem_cons_of_mem _ (List.mem_map_of_mem _ hx))
    · have hrec := itemPres_sub rest p df e h
      have hmono : ∀ y, y ∈ itemPresIT rest →
          y ∈ itemPresIT (.cons k c0 rest) := by
        intro y hy
        cases c0 with
        | value v => exact hy
        | table df2 dt2 e2 =>
          cases dt2 with
          | false => exact hy
          | true => exact List.mem_append_right _ hy
        | tarray l => exact hy
      exact ⟨hmono _ hrec.1, fun x hx => hmono _ (hrec.2 x hx)⟩

theorem subtable_sub_table :
    ∀ (t : ITable) (p : String) (df : Bool) (e : ITable),
      t.find? p = some (.table df false e) → [p] ∈ subtableKeysIT t
  | .nil, p, df, e, h => by simp [ITable.find?] at h
  | .cons k c0 rest, p, df, e, h => by
    rw [ITable.find?] at h
    split at h
    · rename_i hk
      simp only [Option.some.injEq] at h
      subst hk
      subst h
      show [k] ∈ [[k]] ++ subtableKeysIT rest
      exact List.mem_append_left _ (List.mem_singleton.mpr rfl)
    · have hrec := subtable_sub_table rest p df e h
      cases c0 with
      | value v => exact hrec
      | table df2 dt2 e2 =>
        cases dt2 with
        | false => exact List.mem_append_right _ hrec
        | true => exact hrec
      | tarray l => exact List.mem_append_right _ hrec

theorem subtable_sub_arr :
    ∀ (t : ITable) (p : String) (l : TList),
      t.find? p = some (.tarray l) → [p] ∈ subtableKeysIT t
  | .nil, p, l, h => by simp [ITable.find?] at h
  | .cons k c0 rest, p, l, h => by
    rw [ITable.find?] at h
    split at h
    · rename_i hk
      simp only [Option.some.injEq] at h
      subst hk
      subst h
      show [k] ∈ [[k]] ++ subtableKeysIT rest
      exact List.mem_append_left _ (List.mem_singleton.mpr rfl)
    · have hrec := subtable_sub_arr rest p l h
      cases c0 with
      | value v => exact hrec
      | table df2 dt2 e2 =>
        cases dt2 with
        | false => exact List.mem_append_right _ hrec
        | true => exact hrec
      | tarray l2 => exact List.mem_append_right _ hrec

theorem tableKeysC_sub (df ar : Option Bool) :
    ∀ (t : ITable) (p : String) (c : Child), t.find? p = some c →
      ∀ y ∈ tableKeysC df ar p c, y ∈ tableKeysIT df ar t
  | .nil, p, c, h => by simp [ITable.find?] at h
  | .cons k c0 rest, p, c, h => by
    intro y hy
    rw [ITable.find?] at h
    rw [tableKeysIT, List.mem_append]
    split at h
    · rename_i hk
      simp only [Option.some.injEq] at h
      rw [hk, h]
      exact Or.inl hy
    · exact Or.inr (tableKeysC_sub df ar rest p c h y hy)

theorem itemKeysLast_eq :
    ∀ (l : TList) (e : ITable), l.last? = some e →
      itemKeysLast l = itemKeysIT e
  | .nil, e, h => by simp [TList.last?] at h
  | .cons t rest, e, h => by
    cases rest with
    | nil =>
      simp only [TList.last?, Option.some.injEq] at h
      rw [itemKeysLast, h]
    | cons t2 rest2 =>
      have h2 : (TList.cons t2 rest2).last? = some e := h
      rw [show itemKeysLast (TList.cons t (TList.cons t2 rest2))
        = itemKeysLast (TList.cons t2 rest2) from rfl]
      exact itemKeysLast_eq (TList.cons t2 rest2) e h2

theorem tableKeysLast_eq (df ar : Option Bool) :
    ∀ (l : TList) (e : ITable), l.last? = some e →
      tableKeysLast df ar l = tableKeysIT df ar e
  | .nil, e, h => by simp [TList.last?] at h
  | .cons t rest, e, h => by
    cases rest with
    | nil =>
      simp only [TList.last?, Option.some.injEq] at h
      rw [tableKeysLast, h]
    | cons t2 rest2 =>
      have h2 : (TList.cons t2 rest2).last? = some e := h
      rw [show tableKeysLast df ar (TList.cons t (TList.cons t2 rest2))
        = tableKeysLast df ar (TList.cons t2 rest2) from rfl]
      exact tableKeysLast_eq df ar (TList.cons t2 rest2) e h2

theorem WFTL_last :
    ∀ (l : TList) (e : ITable), WFTL l → l.last? = some e → WF e
  | .nil, e, hw, h => by simp [TList.last?] at h
  | .cons t rest, e, hw, h => by
    cases rest with
    | nil =>
      simp only [TList.last?, Option.some.injEq] at h
      rw [← h]
      exact hw.1
    | cons t2 rest2 =>
      exact WFTL_last (TList.cons t2 rest2) e hw.2 h

theorem WFTL_setLast :
    ∀ (l : TList), WFTL l → ∀ (e : ITable), WF e → WFTL (l.setLast e)
  | .nil, hw, e, he => trivial
  | .cons t rest, hw, e, he => by
    cases rest with
    | nil => exact ⟨he, trivial⟩
    | cons t2 rest2 =>
      exact ⟨hw.1, WFTL_setLast (TList.cons t2 rest2) hw.2 e he⟩

theorem WFTL_push :
    ∀ (l : TList), WFTL l → ∀ (e : ITable), WF e → WFTL (l.push e)
  | .nil, hw, e, he => ⟨he, trivial⟩
  | .cons t rest, hw, e, he =>
    ⟨hw.1, WFTL_push rest hw.2 e he⟩

theorem setLast_ne_nil :
    ∀ (l : TList), l ≠ .nil → ∀ (e : ITable), l.setLast e ≠ .nil
  | .nil, h, e => absurd rfl h
  | .cons t rest, h, e => by
    cases rest with
    | nil => simp [TList.setLast]
    | cons t2 rest2 => simp [TList.setLast]

theorem push_ne_nil : ∀ (l : TList) (e : ITable), l.push e ≠ .nil
  | .nil, e => by simp [TList.push]
  | .cons t rest, e => by simp [TList.push]

/-! ## C4 stage D: structural lemmas about children and resolution -/

theorem WF_find : ∀ (t : ITable) (p : String) (c : Child),
    WF t → t.find? p = some c → WFc c
  | .nil, p, c, hw, h => by simp [ITable.find?] at h
  | .cons k c0 rest, p, c, hw, h => by
    rw [WF] at hw
    rw [ITable.find?] at h
    split at h
    · simp only [Option.some.injEq] at h
      rw [← h]
      exact hw.1
    · exact WF_find rest p c hw.2.2 h

theorem OnlyVD_find : ∀ (t : ITable) (p : String) (c : Child),
    OnlyVD t → t.find? p = some c → OnlyVDc c
  | .nil, p, c, ho, h => by simp [ITable.find?] at h
  | .cons k c0 rest, p, c, ho, h => by
    rw [OnlyVD] at ho
    rw [ITable.find?] at h
    split at h
    · simp only [Option.some.injEq] at h
      rw [← h]
      exact ho.1
    · exact OnlyVD_find rest p c ho.2 h

theorem AInv_find : ∀ (t : ITable) (p : String) (df : Bool) (e : ITable),
    AInv t → t.find? p = some (.table df true e) → OnlyVD e
  | .nil, p, df, e, ha, h => by simp [ITable.find?] at h
  | .cons k c0 rest, p, df, e, ha, h => by
    rw [AInv] at ha
    rw [ITable.find?] at h
    split at h
    · simp only [Option.some.injEq] at h
      exact ha.1 df e h
    · exact AInv_find rest p df e ha.2 h

theorem NoDotTop_find : ∀ (t : ITable) (p : String) (c : Child),
    NoDotTop t → t.find? p = some c → ∀ df e, c ≠ .table df true e
  | .nil, p, c, hn, h => by simp [ITable.find?] at h
  | .cons k c0 rest, p, c, hn, h => by
    rw [NoDotTop] at hn
    rw [ITable.find?] at h
    split at h
    · simp only [Option.some.injEq] at h
      rw [← h]
      exact hn.1
    · exact NoDotTop_find rest p c hn.2 h

theorem NoDotTop_set :
    ∀ (t : ITable), NoDotTop t → ∀ (c : Child),
      (∀ df e, c ≠ .table df true e) → ∀ (p : String),
      NoDotTop (t.set p c)
  | .nil, hn, c, hc, p => ⟨hc, trivial⟩
  | .cons k c0 rest, hn, c, hc, p => by
    rw [NoDotTop] at hn
    by_cases hk : k = p
    · rw [ITable.set, if_pos hk]
      exact ⟨hc, hn.2⟩
    · rw [ITable.set, if_neg hk]
      exact ⟨hn.1, NoDotTop_set rest hn.2 c hc p⟩

theorem NoDotTop_AInv : ∀ (t : ITable), NoDotTop t → AInv t
  | .nil, _ => trivial
  | .cons k c rest, hn => by
    rw [NoDotTop] at hn
    exact ⟨fun df e he => absurd he (hn.1 df e), NoDotTop_AInv rest hn.2⟩

theorem last?_of_ne_nil : ∀ (l : TList), l ≠ .nil → ∃ e, l.last? = some e
  | .nil, h => absurd rfl h
  | .cons t rest, _ => by
    cases rest with
    | nil => exact ⟨t, rfl⟩
    | cons t2 rest2 =>
      obtain ⟨e, he⟩ :=
        last?_of_ne_nil (.cons t2 rest2) (fun hc => TList.noConfusion hc)
      exact ⟨e, he⟩

theorem resolve_WFc :
    ∀ (key : Key) (t : ITable) (c : Child), WF t →
      resolveC t key = some c → WFc c
  | [], t, c, hw, h => by
    rw [show resolveC t [] = none from rfl] at h
    exact absurd h (by simp)
  | [p], t, c, hw, h => WF_find t p c hw h
  | p :: q :: rest, t, c, hw, h => by
    rw [resolveC_cons2] at h
    rcases hfind : t.find? p with _ | c0
    · simp only [hfind] at h
      exact Option.noConfusion h
    · rcases c0 with v | ⟨df, dt, elems⟩ | l
      · simp only [hfind] at h
        exact Option.noConfusion h
      · simp only [hfind] at h
        have hwe : WF elems := (WF_find t p _ hw hfind).2.2
        exact resolve_WFc (q :: rest) elems c hwe h
      · simp only [hfind] at h
        rcases hlst : l.last? with _ | last
        · simp only [hlst] at h
          exact Option.noConfusion h
        · simp only [hlst] at h
          have hwl : WF last :=
            WFTL_last l last (WF_find t p _ hw hfind).2 hlst
          exact resolve_WFc (q :: rest) last c hwl h

theorem resolve_value_item :
    ∀ (key : Key) (t : ITable) (v : Val),
      resolveC t key = some (.value v) → key ∈ itemKeysIT t
  | [], t, v, h => by
    rw [show resolveC t [] = none from rfl] at h
    exact absurd h (by simp)
  | [p], t, v, h =>
    itemKeysC_sub t p _ h [p] (List.mem_singleton.mpr rfl)
  | p :: q :: rest, t, v, h => by
    rw [resolveC_cons2] at h
    rcases hfind : t.find? p with _ | c0
    · simp only [hfind] at h
      exact Option.noConfusion h
    · rcases c0 with v0 | ⟨df, dt, elems⟩ | l
      · simp only [hfind] at h
        exact Option.noConfusion h
      · simp only [hfind] at h
        have hm := resolve_value_item (q :: rest) elems v h
        exact itemKeysC_sub t p _ hfind _ (List.mem_map_of_mem _ hm)
      · simp only [hfind] at h
        rcases hlst : l.last? with _ | last
        · simp only [hlst] at h
          exact Option.noConfusion h
        · simp only [hlst] at h
          have hm := resolve_value_item (q :: rest) last v h
          rw [← itemKeysLast_eq l last hlst] at hm
          exact itemKeysC_sub t p _ hfind _ (List.mem_map_of_mem _ hm)

theorem resolve_table_mem :
    ∀ (key : Key) (t : ITable) (df dt : Bool) (e : ITable)
      (df0 : Option Bool), (df0 = none ∨ df0 = some df) →
      resolveC t key = some (.table df dt e) →
      key ∈ tableKeysIT df0 (some false) t
  | [], t, df, dt, e, df0, hdf0, h => by
    rw [show resolveC t [] = none from rfl] at h
    exact absurd h (by simp)
  | [p], t, df, dt, e, df0, hdf0, h => by
    refine tableKeysC_sub df0 (some false) t p _ h [p] ?_
    show [p] ∈ (if (some false : Option Bool) ≠ some true ∧
        (df0 = none ∨ df0 = some df) then [[p]] else []) ++
      (tableKeysIT df0 (some false) e).map (p :: ·)
    rw [if_pos ⟨by simp, hdf0⟩]
    exact List.mem_append_left _ (List.mem_singleton.mpr rfl)
  | p :: q :: rest, t, df, dt, e, df0, hdf0, h => by
    rw [resolveC_cons2] at h
    rcases hfind : t.find? p with _ | c0
    · simp only [hfind] at h
      exact Option.noConfusion h
    · rcases c0 with v0 | ⟨df1, dt1, elems1⟩ | l
      · simp only [hfind] at h
        exact Option.noConfusion h
      · simp only [hfind] at h
        have hm := resolve_table_mem (q :: rest) elems1 df dt e df0 hdf0 h
        refine tableKeysC_sub df0 (some false) t p _ hfind _ ?_
        show p :: q :: rest ∈ (if (some false : Option Bool) ≠ some true ∧
            (df0 = none ∨ df0 = some df1) then [[p]] else []) ++
          (tableKeysIT df0 (some false) elems1).map (p :: ·)
        exact List.mem_append_right _ (List.mem_map_of_mem _ hm)
      · simp only [hfind] at h
        rcases hlst : l.last? with _ | last
        · simp only [hlst] at h
          exact Option.noConfusion h
        · simp only [hlst] at h
          have hm := resolve_table_mem (q :: rest) last df dt e df0 hdf0 h
          rw [← tableKeysLast_eq df0 (some false) l last hlst] at hm
          refine tableKeysC_sub df0 (some false) t p _ hfind _ ?_
          show p :: q :: rest ∈
            (if (some false : Option Bool) ≠ some false then [[p]] else []) ++
              (tableKeysLast df0 (some false) l).map (p :: ·)
          exact List.mem_append_right _ (List.mem_map_of_mem _ hm)

theorem resolve_tarr_mem :
    ∀ (key : Key) (t : ITable) (l : TList) (df0 : Option Bool),
      resolveC t key = some (.tarray l) →
      key ∈ tableKeysIT df0 (some true) t
  | [], t, l, df0, h => by
    rw [show resolveC t [] = none from rfl] at h
    exact absurd h (by simp)
  | [p], t, l, df0, h => by
    refine tableKeysC_sub df0 (some true) t p _ h [p] ?_
    show [p] ∈ (if (some true : Option Bool) ≠ some false then [[p]] else [])
      ++ (tableKeysLast df0 (some true) l).map (p :: ·)
    rw [if_pos (by simp)]
    exact List.mem_append_left _ (List.mem_singleton.mpr rfl)
  | p :: q :: rest, t, l, df0, h => by
    rw [resolveC_cons2] at h
    rcases hfind : t.find? p with _ | c0
    · simp only [hfind] at h
      exact Option.noConfusion h
    · rcases c0 with v0 | ⟨df1, dt1, elems1⟩ | l1
      · simp only [hfind] at h
        exact Option.noConfusion h
      · simp only [hfind] at h
        have hm := resolve_tarr_mem (q :: rest) elems1 l df0 h
        refine tableKeysC_sub df0 (some true) t p _ hfind _ ?_
        show p :: q :: rest ∈ (if (some true : Option Bool) ≠ some true ∧
            (df0 = none ∨ df0 = some df1) then [[p]] else []) ++
          (tableKeysIT df0 (some true) elems1).map (p :: ·)
        exact List.mem_append_right _ (List.mem_map_of_mem _ hm)
      · simp only [hfind] at h
        rcases hlst : l1.last? with _ | last
        · simp only [hlst] at h
          exact Option.noConfusion h
        · simp only [hlst] at h
          have hm := resolve_tarr_mem (q :: rest) last l df0 h
          rw [← tableKeysLast_eq df0 (some true) l1 last hlst] at hm
          refine tableKeysC_sub df0 (some true) t p _ hfind _ ?_
          show p :: q :: rest ∈
            (if (some true : Option Bool) ≠ some false then [[p]] else []) ++
              (tableKeysLast df0 (some true) l1).map (p :: ·)
          exact List.mem_append_right _ (List.mem_map_of_mem _ hm)

theorem tableKeysC_head (df ar : Option Bool) (k : String) (c : Child)
    (key : Key) (h : key ∈ tableKeysC df ar k c) : ∃ y, key = k :: y := by
  rcases c with v | ⟨dfn, dt, elems⟩ | l
  · rw [show tableKeysC df ar k (.value v) = [] from rfl] at h
    exact absurd h (List.not_mem_nil key)
  · have h2 : key ∈ (if ar ≠ some true ∧ (df = none ∨ df = some dfn)
        then [[k]] else []) ++ (tableKeysIT df ar elems).map (k :: ·) := h
    rcases List.mem_append.mp h2 with h1 | h1
    · split at h1
      · rw [List.mem_singleton.mp h1]
        exact ⟨[], rfl⟩
      · exact absurd h1 (List.not_mem_nil key)
    · obtain ⟨y, _, hy⟩ := List.mem_map.mp h1
      exact ⟨y, hy.symm⟩
  · have h2 : key ∈ (if ar ≠ some false then [[k]] else []) ++
        (tableKeysLast df ar l).map (k :: ·) := h
    rcases List.mem_append.mp h2 with h1 | h1
    · split at h1
      · rw [List.mem_singleton.mp h1]
        exact ⟨[], rfl⟩
      · exact absurd h1 (List.not_mem_nil key)
    · obtain ⟨y, _, hy⟩ := List.mem_map.mp h1
      exact ⟨y, hy.symm⟩

theorem tableKeys_ne_nil (df ar : Option Bool) :
    ∀ (t : ITable) (key : Key), key ∈ tableKeysIT df ar t → key ≠ []
  | .nil, key, h => by
    rw [show tableKeysIT df ar .nil = [] from rfl] at h
    exact absurd h (List.not_mem_nil key)
  | .cons k c0 rest, key, h => by
    have h2 : key ∈ tableKeysC df ar k c0 ++ tableKeysIT df ar rest := h
    rcases List.mem_append.mp h2 with h1 | h1
    · obtain ⟨y, hy⟩ := tableKeysC_head df ar k c0 key h1
      rw [hy]
      simp
    · exact tableKeys_ne_nil df ar rest key h1

theorem tableKeys_mem_elim (df ar : Option Bool) :
    ∀ (t : ITable) (key : Key), WF t → key ∈ tableKeysIT df ar t →
      ∃ p c, t.find? p = some c ∧ key ∈ tableKeysC df ar p c
  | .nil, key, hw, h => by
    rw [show tableKeysIT df ar .nil = [] from rfl] at h
    exact absurd h (List.not_mem_nil key)
  | .cons k c0 rest, key, hw, h => by
    rw [WF] at hw
    have h2 : key ∈ tableKeysC df ar k c0 ++ tableKeysIT df ar rest := h
    rcases List.mem_append.mp h2 with h1 | h1
    · exact ⟨k, c0, by rw [ITable.find?, if_pos rfl], h1⟩
    · obtain ⟨p, c, hf, hm⟩ := tableKeys_mem_elim df ar rest key hw.2.2 h1
      refine ⟨p, c, ?_, hm⟩
      have hkp : k ≠ p := by
        intro hkp
        have hc := (contains_iff_find rest p).mpr ⟨c, hf⟩
        rw [← hkp] at hc
        rw [hw.2.1] at hc
        exact Bool.noConfusion hc
      rw [ITable.find?, if_neg hkp]
      exact hf


/-! ## C4 stage D: the `open_table` traversal and well-formedness
preservation of both header operations -/

/-- The assert-free traversal condition of `open_table`, read off the
source: no value is met, arrays stay non-empty, and the terminal child is
absent or a table with both flags clear. -/
def OTPre : ITable → Key → Bool
  | _, [] => false
  | t, [p] =>
    match t.find? p with
    | none => true
    | some (.table df dt _) => !(df || dt)
    | some _ => false
  | t, p :: rest =>
    match t.find? p with
    | none => OTPre .nil rest
    | some (.table _ _ elems) => OTPre elems rest
    | some (.tarray l) =>
      match l.last? with
      | some e => OTPre e rest
      | none => false
    | some (.value _) => false

theorem OTPre_cons2 (t : ITable) (p q : String) (rest2 : List String) :
    OTPre t (p :: q :: rest2)
      = (match t.find? p with
         | none => OTPre .nil (q :: rest2)
         | some (.table _ _ elems) => OTPre elems (q :: rest2)
         | some (.tarray l) =>
           match l.last? with
           | some e => OTPre e (q :: rest2)
           | none => false
         | some (.value _) => false) := rfl

theorem openTableGo_cons (t : ITable) (p q : String)
    (rest2 : List String) :
    openTableGo t (p :: q :: rest2)
      = (match t.find? p with
         | none => do
           let sub ← openTableGo .nil (q :: rest2)
           Except.ok (t.set p (.table false false sub))
         | some (.table df dt elems) => do
           let e ← openTableGo elems (q :: rest2)
           Except.ok (t.set p (.table df dt e))
         | some (.tarray l) =>
           match l.last? with
           | some last => do
             let e ← openTableGo last (q :: rest2)
             Except.ok (t.set p (.tarray (l.setLast e)))
           | none => Except.error .typeErr
         | some (.value _) => Except.error .assertFail) := rfl

theorem openTableGo_one (t : ITable) (p : String) :
    openTableGo t [p]
      = (match t.find? p with
         | none => Except.ok (t.set p (.table true false .nil))
         | some (.table df dt elems) =>
           if df || dt then Except.error .assertFail
           else Except.ok (t.set p (.table true false elems))
         | some _ => Except.error .assertFail) := rfl

theorem OTPre_one (t : ITable) (p : String) :
    OTPre t [p]
      = (match t.find? p with
         | none => true
         | some (.table df dt _) => !(df || dt)
         | some _ => false) := rfl

/-- Success and postconditions of the `open_table` traversal under its
assert-free condition: missing ancestors are created, the key ends up
naming a defined, non-dotted table whose elements are the old ones (or
empty if the key was absent), and the key position resolves to them. -/
theorem openTableGo_spec :
    ∀ (key : Key) (t : ITable), OTPre t key = true →
      ∃ t' e', openTableGo t key = .ok t' ∧
        resolveC t' key = some (.table true false e') ∧
        resolveT t' key = some e' ∧
        (resolveC t key = none → e' = .nil) ∧
        (∀ df dt e0, resolveC t key = some (.table df dt e0) →
          e' = e0 ∧ df = false ∧ dt = false) ∧
        (resolveC t key = none ∨
          ∃ df dt e0, resolveC t key = some (.table df dt e0)) := by
  intro key
  induction key with
  | nil => intro t h; exact absurd h (by simp [OTPre])
  | cons p rest ih =>
    intro t h
    rcases rest with _ | ⟨q, rest2⟩
    · rcases hfind : t.find? p with _ | c
      · refine ⟨t.set p (.table true false .nil), .nil, ?_, ?_, ?_,
          fun _ => rfl, ?_, Or.inl ?_⟩
        · rw [openTableGo_one, hfind]
        · show (t.set p (.table true false .nil)).find? p = _
          rw [find?_set_self]
        · rw [resolveT_cons, find?_set_self]
          rfl
        · intro df dt e0 h0
          rw [show resolveC t [p] = t.find? p from rfl, hfind] at h0
          exact absurd h0 (by simp)
        · rw [show resolveC t [p] = t.find? p from rfl, hfind]
      · rcases c with v | ⟨df, dt, elems⟩ | l
        · rw [OTPre_one, hfind] at h
          exact absurd h (by simp)
        · rw [OTPre_one, hfind] at h
          simp only [Bool.not_eq_true', Bool.or_eq_false_iff] at h
          obtain ⟨hdf, hdt⟩ := h
          subst hdf
          subst hdt
          refine ⟨t.set p (.table true false elems), elems, ?_, ?_, ?_,
            ?_, ?_, Or.inr ⟨false, false, elems, ?_⟩⟩
          · rw [openTableGo_one, hfind]
            rfl
          · show (t.set p (.table true false elems)).find? p = _
            rw [find?_set_self]
          · rw [resolveT_cons, find?_set_self]
            rfl
          · intro h0
            rw [show resolveC t [p] = t.find? p from rfl, hfind] at h0
            exact absurd h0 (by simp)
          · intro df2 dt2 e0 h0
            rw [show resolveC t [p] = t.find? p from rfl, hfind] at h0
            simp only [Option.some.injEq, Child.table.injEq] at h0
            exact ⟨h0.2.2, h0.1.symm, h0.2.1.symm⟩
          · rw [show resolveC t [p] = t.find? p from rfl, hfind]
        · rw [OTPre_one, hfind] at h
          exact absurd h (by simp)
    · rcases hfind : t.find? p with _ | c
      · rw [OTPre_cons2, hfind] at h
        obtain ⟨sub, e2, hgo, hres, hresT, hc1, hc2, hc3⟩ := ih .nil h
        refine ⟨t.set p (.table false false sub), e2, ?_, ?_, ?_,
          fun _ => ?_, ?_, Or.inl ?_⟩
        · rw [openTableGo_cons, hfind, hgo, bindOk]
        · rw [resolveC_cons2, find?_set_self]
          exact hres
        · rw [resolveT_cons, find?_set_self]
          exact hresT
        · exact hc1 (resolveC_nil _)
        · intro df dt e0 h0
          rw [resolveC_cons2, hfind] at h0
          exact absurd h0 (by simp)
        · rw [resolveC_cons2, hfind]
      · rcases c with v | ⟨df, dt, elems⟩ | l
        · rw [OTPre_cons2, hfind] at h
          exact absurd h (by simp)
        · rw [OTPre_cons2] at h
          simp only [hfind] at h
          obtain ⟨e2, e3, hgo, hres, hresT, hc1, hc2, hc3⟩ := ih elems h
          refine ⟨t.set p (.table df dt e2), e3, ?_, ?_, ?_, ?_, ?_, ?_⟩
          · rw [openTableGo_cons]
            simp only [hfind]
            rw [hgo, bindOk]
          · rw [resolveC_cons2, find?_set_self]
            exact hres
          · rw [resolveT_cons, find?_set_self]
            exact hresT
          · intro h0
            rw [resolveC_cons2] at h0
            simp only [hfind] at h0
            exact hc1 h0
          · intro df2 dt2 e0 h0
            rw [resolveC_cons2] at h0
            simp only [hfind] at h0
            exact hc2 df2 dt2 e0 h0
          · rw [resolveC_cons2]
            simp only [hfind]
            exact hc3
        · rw [OTPre_cons2] at h
          simp only [hfind] at h
          rcases hlst : l.last? with _ | last
          · rw [hlst] at h
            exact absurd h (by simp)
          · rw [hlst] at h
            obtain ⟨e2, e3, hgo, hres, hresT, hc1, hc2, hc3⟩ := ih last h
            refine ⟨t.set p (.tarray (l.setLast e2)), e3, ?_, ?_, ?_,
              ?_, ?_, ?_⟩
            · rw [openTableGo_cons]
              simp only [hfind, hlst]
              rw [hgo, bindOk]
            · rw [resolveC_cons2, find?_set_self]
              show (match (l.setLast e2).last? with
                    | some x => resolveC x (q :: rest2)
                    | none => none) = some (.table true false e3)
              rw [TList.last?_setLast _ hlst e2]
              exact hres
            · rw [resolveT_cons, find?_set_self]
              show (match (l.setLast e2).last? with
                    | some x => resolveT x (q :: rest2)
                    | none => none) = some e3
              rw [TList.last?_setLast _ hlst e2]
              exact hresT
            · intro h0
              rw [resolveC_cons2] at h0
              simp only [hfind, hlst] at h0
              exact hc1 h0
            · intro df2 dt2 e0 h0
              rw [resolveC_cons2] at h0
              simp only [hfind, hlst] at h0
              exact hc2 df2 dt2 e0 h0
            · rw [resolveC_cons2]
              simp only [hfind, hlst]
              exact hc3

theorem ot_NoDotTop :
    ∀ (key : Key) (t t' : ITable), NoDotTop t →
      openTableGo t key = .ok t' → NoDotTop t' := by
  intro key t t2 hn h
  rcases key with _ | ⟨p, _ | ⟨q, rest2⟩⟩
  · exact Except.noConfusion h
  · rw [openTableGo_one] at h
    rcases hfind : t.find? p with _ | c
    · simp only [hfind, Except.ok.injEq] at h
      rw [← h]
      exact NoDotTop_set t hn _ (fun df e he => by simp at he) p
    · rcases c with v | ⟨df, dt, elems⟩ | l
      · simp only [hfind] at h
        exact Except.noConfusion h
      · simp only [hfind] at h
        split at h
        · exact Except.noConfusion h
        · simp only [Except.ok.injEq] at h
          rw [← h]
          exact NoDotTop_set t hn _ (fun df2 e he => by simp at he) p
      · simp only [hfind] at h
        exact Except.noConfusion h
  · rw [openTableGo_cons] at h
    rcases hfind : t.find? p with _ | c
    · simp only [hfind] at h
      rcases hgo : openTableGo .nil (q :: rest2) with e | sub
      · rw [hgo, bindErr] at h
        exact Except.noConfusion h
      · rw [hgo, bindOk] at h
        simp only [Except.ok.injEq] at h
        rw [← h]
        exact NoDotTop_set t hn _ (fun df e he => by simp at he) p
    · rcases c with v | ⟨df, dt, elems⟩ | l
      · simp only [hfind] at h
        exact Except.noConfusion h
      · simp only [hfind] at h
        rcases hgo : openTableGo elems (q :: rest2) with e | e2
        · rw [hgo, bindErr] at h
          exact Except.noConfusion h
        · rw [hgo, bindOk] at h
          simp only [Except.ok.injEq] at h
          rw [← h]
          have hdt : dt = false := by
            rcases Bool.eq_false_or_eq_true dt with hb | hb
            · exfalso
              have hne := NoDotTop_find t p _ hn hfind df elems
              rw [hb] at hne
              exact hne rfl
            · exact hb
          refine NoDotTop_set t hn _ ?_ p
          rw [hdt]
          intro df2 e he
          simp at he
      · simp only [hfind] at h
        rcases hlst : l.last? with _ | last
        · simp only [hlst] at h
          exact Except.noConfusion h
        · simp only [hlst] at h
          rcases hgo : openTableGo last (q :: rest2) with e | e2
          · rw [hgo, bindErr] at h
            exact Except.noConfusion h
          · rw [hgo, bindOk] at h
            simp only [Except.ok.injEq] at h
            rw [← h]
            exact NoDotTop_set t hn _ (fun df e he => by simp at he) p

theorem ota_NoDotTop :
    ∀ (key : Key) (t t' : ITable), NoDotTop t →
      openTableArrayGo t key = .ok t' → NoDotTop t' := by
  intro key t t2 hn h
  rcases key with _ | ⟨p, _ | ⟨q, rest2⟩⟩
  · exact Except.noConfusion h
  · rw [show openTableArrayGo t [p]
      = (match t.find? p with
         | none => Except.ok (t.set p (.tarray (.cons .nil .nil)))
         | some (.tarray l) =>
           Except.ok (t.set p (.tarray (l.push .nil)))
         | some _ => Except.error .assertFail) from rfl] at h
    rcases hfind : t.find? p with _ | c
    · simp only [hfind, Except.ok.injEq] at h
      rw [← h]
      exact NoDotTop_set t hn _ (fun df e he => by simp at he) p
    · rcases c with v | ⟨df, dt, elems⟩ | l
      · simp only [hfind] at h
        exact Except.noConfusion h
      · simp only [hfind] at h
        exact Except.noConfusion h
      · simp only [hfind, Except.ok.injEq] at h
        rw [← h]
        exact NoDotTop_set t hn _ (fun df e he => by simp at he) p
  · rw [openTableArrayGo_cons] at h
    rcases hfind : t.find? p with _ | c
    · simp only [hfind] at h
      rcases hgo : openTableArrayGo .nil (q :: rest2) with e | sub
      · rw [hgo, bindErr] at h
        exact Except.noConfusion h
      · rw [hgo, bindOk] at h
        simp only [Except.ok.injEq] at h
        rw [← h]
        exact NoDotTop_set t hn _ (fun df e he => by simp at he) p
    · rcases c with v | ⟨df, dt, elems⟩ | l
      · simp only [hfind] at h
        exact Except.noConfusion h
      · simp only [hfind] at h
        rcases hgo : openTableArrayGo elems (q :: rest2) with e | e2
        · rw [hgo, bindErr] at h
          exact Except.noConfusion h
        · rw [hgo, bindOk] at h
          simp only [Except.ok.injEq] at h
          rw [← h]
          have hdt : dt = false := by
            rcases Bool.eq_false_or_eq_true dt with hb | hb
            · exfalso
              have hne := NoDotTop_find t p _ hn hfind df elems
              rw [hb] at hne
              exact hne rfl
            · exact hb
          refine NoDotTop_set t hn _ ?_ p
          rw [hdt]
          intro df2 e he
          simp at he
      · simp only [hfind] at h
        rcases hlst : l.last? with _ | last
        · simp only [hlst] at h
          exact Except.noConfusion h
        · simp only [hlst] at h
          rcases hgo : openTableArrayGo last (q :: rest2) with e | e2
          · rw [hgo, bindErr] at h
            exact Except.noConfusion h
          · rw [hgo, bindOk] at h
            simp only [Except.ok.injEq] at h
            rw [← h]
            exact NoDotTop_set t hn _ (fun df e he => by simp at he) p


theorem ot_WF :
    ∀ (key : Key) (t tQ : ITable), WF t →
      openTableGo t key = .ok tQ → WF tQ
  | [], t, tQ, hw, h => Except.noConfusion h
  | [p], t, tQ, hw, h => by
    rw [openTableGo_one] at h
    rcases hfind : t.find? p with _ | c
    · simp only [hfind, Except.ok.injEq] at h
      rw [← h]
      exact WF_set t hw (.table true false .nil)
        ⟨fun _ => rfl, fun _ => trivial, trivial⟩ p
    · rcases c with v | ⟨df, dt, elems⟩ | l
      · simp only [hfind] at h
        exact Except.noConfusion h
      · simp only [hfind] at h
        split at h
        · exact Except.noConfusion h
        · simp only [Except.ok.injEq] at h
          rw [← h]
          exact WF_set t hw (.table true false elems)
            ⟨fun _ => rfl, fun hc => Bool.noConfusion hc,
              (WF_find t p _ hw hfind).2.2⟩ p
      · simp only [hfind] at h
        exact Except.noConfusion h
  | p :: qq :: rest2, t, tQ, hw, h => by
    rw [openTableGo_cons] at h
    rcases hfind : t.find? p with _ | c
    · simp only [hfind] at h
      rcases hgo : openTableGo .nil (qq :: rest2) with e | sub
      · rw [hgo, bindErr] at h
        exact Except.noConfusion h
      · rw [hgo, bindOk] at h
        simp only [Except.ok.injEq] at h
        rw [← h]
        refine WF_set t hw (.table false false sub)
          ⟨fun hc => Bool.noConfusion hc, fun _ => ?_,
            ot_WF (qq :: rest2) .nil sub trivial hgo⟩ p
        exact ot_NoDotTop (qq :: rest2) .nil sub trivial hgo
    · rcases c with v | ⟨df, dt, elems⟩ | l
      · simp only [hfind] at h
        exact Except.noConfusion h
      · simp only [hfind] at h
        rcases hgo : openTableGo elems (qq :: rest2) with e | e2
        · rw [hgo, bindErr] at h
          exact Except.noConfusion h
        · rw [hgo, bindOk] at h
          simp only [Except.ok.injEq] at h
          rw [← h]
          have hwc := WF_find t p _ hw hfind
          refine WF_set t hw (.table df dt e2)
            ⟨hwc.1, fun hdf => ?_,
              ot_WF (qq :: rest2) elems e2 hwc.2.2 hgo⟩ p
          exact ot_NoDotTop (qq :: rest2) elems e2 (hwc.2.1 hdf) hgo
      · simp only [hfind] at h
        rcases hlst : l.last? with _ | last
        · simp only [hlst] at h
          exact Except.noConfusion h
        · simp only [hlst] at h
          rcases hgo : openTableGo last (qq :: rest2) with e | e2
          · rw [hgo, bindErr] at h
            exact Except.noConfusion h
          · rw [hgo, bindOk] at h
            simp only [Except.ok.injEq] at h
            rw [← h]
            have hwc := WF_find t p _ hw hfind
            have hwe2 := ot_WF (qq :: rest2) last e2
              (WFTL_last l last hwc.2 hlst) hgo
            exact WF_set t hw (.tarray (l.setLast e2))
              ⟨setLast_ne_nil l hwc.1 e2, WFTL_setLast l hwc.2 e2 hwe2⟩ p

theorem ota_WF :
    ∀ (key : Key) (t tQ : ITable), WF t →
      openTableArrayGo t key = .ok tQ → WF tQ
  | [], t, tQ, hw, h => Except.noConfusion h
  | [p], t, tQ, hw, h => by
    rw [show openTableArrayGo t [p]
      = (match t.find? p with
         | none => Except.ok (t.set p (.tarray (.cons .nil .nil)))
         | some (.tarray l) =>
           Except.ok (t.set p (.tarray (l.push .nil)))
         | some _ => Except.error .assertFail) from rfl] at h
    rcases hfind : t.find? p with _ | c
    · simp only [hfind, Except.ok.injEq] at h
      rw [← h]
      exact WF_set t hw (.tarray (.cons .nil .nil))
        ⟨fun hc => TList.noConfusion hc, trivial, trivial⟩ p
    · rcases c with v | ⟨df, dt, elems⟩ | l
      · simp only [hfind] at h
        exact Except.noConfusion h
      · simp only [hfind] at h
        exact Except.noConfusion h
      · simp only [hfind, Except.ok.injEq] at h
        rw [← h]
        have hwc := WF_find t p _ hw hfind
        exact WF_set t hw (.tarray (l.push .nil))
          ⟨push_ne_nil l .nil, WFTL_push l hwc.2 .nil trivial⟩ p
  | p :: qq :: rest2, t, tQ, hw, h => by
    rw [openTableArrayGo_cons] at h
    rcases hfind : t.find? p with _ | c
    · simp only [hfind] at h
      rcases hgo : openTableArrayGo .nil (qq :: rest2) with e | sub
      · rw [hgo, bindErr] at h
        exact Except.noConfusion h
      · rw [hgo, bindOk] at h
        simp only [Except.ok.injEq] at h
        rw [← h]
        refine WF_set t hw (.table false false sub)
          ⟨fun hc => Bool.noConfusion hc, fun _ => ?_,
            ota_WF (qq :: rest2) .nil sub trivial hgo⟩ p
        exact ota_NoDotTop (qq :: rest2) .nil sub trivial hgo
    · rcases c with v | ⟨df, dt, elems⟩ | l
      · simp only [hfind] at h
        exact Except.noConfusion h
      · simp only [hfind] at h
        rcases hgo : openTableArrayGo elems (qq :: rest2) with e | e2
        · rw [hgo, bindErr] at h
          exact Except.noConfusion h
        · rw [hgo, bindOk] at h
          simp only [Except.ok.injEq] at h
          rw [← h]
          have hwc := WF_find t p _ hw hfind
          refine WF_set t hw (.table df dt e2)
            ⟨hwc.1, fun hdf => ?_,
              ota_WF (qq :: rest2) elems e2 hwc.2.2 hgo⟩ p
          exact ota_NoDotTop (qq :: rest2) elems e2 (hwc.2.1 hdf) hgo
      · simp only [hfind] at h
        rcases hlst : l.last? with _ | last
        · simp only [hlst] at h
          exact Except.noConfusion h
        · simp only [hlst] at h
          rcases hgo : openTableArrayGo last (qq :: rest2) with e | e2
          · rw [hgo, bindErr] at h
            exact Except.noConfusion h
          · rw [hgo, bindOk] at h
            simp only [Except.ok.injEq] at h
            rw [← h]
            have hwc := WF_find t p _ hw hfind
            have hwe2 := ota_WF (qq :: rest2) last e2
              (WFTL_last l last hwc.2 hlst) hgo
            exact WF_set t hw (.tarray (l.setLast e2))
              ⟨setLast_ne_nil l hwc.1 e2, WFTL_setLast l hwc.2 e2 hwe2⟩ p


/-! ## C4 stage E: from the sampler exclusions (fresh keys) or reuse-set
membership to the header preconditions -/

theorem mem_item_table (t : ITable) (p : String) (df dt : Bool)
    (elems : ITable) (hf : t.find? p = some (.table df dt elems)) (y : Key)
    (hy : y ∈ itemKeysIT elems) : p :: y ∈ itemKeysIT t :=
  itemKeysC_sub t p _ hf _ (List.mem_map_of_mem _ hy)

theorem mem_item_tarr (t : ITable) (p : String) (l : TList) (last : ITable)
    (hf : t.find? p = some (.tarray l)) (hl : l.last? = some last) (y : Key)
    (hy : y ∈ itemKeysIT last) : p :: y ∈ itemKeysIT t := by
  rw [← itemKeysLast_eq l last hl] at hy
  exact itemKeysC_sub t p _ hf _ (List.mem_map_of_mem _ hy)

theorem mem_tk_table (df0 ar : Option Bool) (t : ITable) (p : String)
    (df dt : Bool) (elems : ITable)
    (hf : t.find? p = some (.table df dt elems)) (y : Key)
    (hy : y ∈ tableKeysIT df0 ar elems) : p :: y ∈ tableKeysIT df0 ar t := by
  refine tableKeysC_sub df0 ar t p _ hf _ ?_
  show p :: y ∈ (if ar ≠ some true ∧ (df0 = none ∨ df0 = some df)
      then [[p]] else []) ++ (tableKeysIT df0 ar elems).map (p :: ·)
  exact List.mem_append_right _ (List.mem_map_of_mem _ hy)

theorem mem_tk_tarr (df0 ar : Option Bool) (t : ITable) (p : String)
    (l : TList) (last : ITable)
    (hf : t.find? p = some (.tarray l)) (hl : l.last? = some last) (y : Key)
    (hy : y ∈ tableKeysIT df0 ar last) : p :: y ∈ tableKeysIT df0 ar t := by
  rw [← tableKeysLast_eq df0 ar l last hl] at hy
  refine tableKeysC_sub df0 ar t p _ hf _ ?_
  show p :: y ∈ (if ar ≠ some false then [[p]] else []) ++
    (tableKeysLast df0 ar l).map (p :: ·)
  exact List.mem_append_right _ (List.mem_map_of_mem _ hy)

theorem OTAPre_one (t : ITable) (p : String) :
    OTAPre t [p]
      = (match t.find? p with
         | none => true
         | some (.tarray _) => true
         | some _ => false) := rfl

theorem OTAPre_step (t : ITable) (p : String) (rest : Key)
    (hne : rest ≠ []) :
    OTAPre t (p :: rest)
      = (match t.find? p with
         | none => OTAPre .nil rest
         | some (.table _ _ elems) => OTAPre elems rest
         | some (.tarray l) =>
           match l.last? with
           | some e => OTAPre e rest
           | none => false
         | some (.value _) => false) := by
  rcases rest with _ | ⟨q, rest2⟩
  · exact absurd rfl hne
  · exact OTAPre_cons2 t p q rest2

theorem OTPre_step (t : ITable) (p : String) (rest : Key)
    (hne : rest ≠ []) :
    OTPre t (p :: rest)
      = (match t.find? p with
         | none => OTPre .nil rest
         | some (.table _ _ elems) => OTPre elems rest
         | some (.tarray l) =>
           match l.last? with
           | some e => OTPre e rest
           | none => false
         | some (.value _) => false) := by
  rcases rest with _ | ⟨q, rest2⟩
  · exact absurd rfl hne
  · exact OTPre_cons2 t p q rest2

/-- A fresh key passing `_gen_table`\u0027s array-branch exclusion check
satisfies the `open_table_array` precondition. -/
theorem OTAPre_of_fresh :
    ∀ (key : Key) (t : ITable), WF t → key ≠ [] →
      (∀ i, 1 ≤ i → i < key.length → key.take i ∉ itemKeysIT t) →
      key ∉ itemKeysIT t →
      key ∉ tableKeysIT none (some false) t →
      OTAPre t key = true
  | [], _, _, hne, _, _, _ => absurd rfl hne
  | [p], t, hw, _, _, hitem, htab => by
    rw [OTAPre_one]
    rcases hfind : t.find? p with _ | c
    · simp only [hfind]
    · rcases c with v | ⟨df, dt, elems⟩ | l
      · exact absurd
          (itemKeysC_sub t p _ hfind [p] (List.mem_singleton.mpr rfl)) hitem
      · exact absurd
          (resolve_table_mem [p] t df dt elems none (Or.inl rfl) hfind) htab
      · simp only [hfind]
  | p :: q :: rest2, t, hw, _, hpre, hitem, htab => by
    rcases hfind : t.find? p with _ | c
    · rw [OTAPre_cons2]
      simp only [hfind]
      exact OTAPre_of_fresh (q :: rest2) .nil trivial (by simp)
        (fun i _ _ => by simp [itemKeysIT]) (by simp [itemKeysIT])
        (by simp [tableKeysIT])
    · rcases c with v | ⟨df, dt, elems⟩ | l
      · exact absurd
          (itemKeysC_sub t p _ hfind [p] (List.mem_singleton.mpr rfl))
          (hpre 1 (by omega) (by simp only [List.length_cons]; omega))
      · rw [OTAPre_cons2]
        simp only [hfind]
        refine OTAPre_of_fresh (q :: rest2) elems
          (WF_find t p _ hw hfind).2.2 (by simp) ?_ ?_ ?_
        · intro i h1 h2
          intro hmem
          refine hpre (i + 1) (by omega)
            (by simp only [List.length_cons] at h2 ⊢; omega) ?_
          rw [List.take_succ_cons]
          exact mem_item_table t p df dt elems hfind _ hmem
        · intro hmem
          exact hitem (mem_item_table t p df dt elems hfind _ hmem)
        · intro hmem
          exact htab
            (mem_tk_table none (some false) t p df dt elems hfind _ hmem)
      · have hwc := WF_find t p _ hw hfind
        obtain ⟨last, hlst⟩ := last?_of_ne_nil l hwc.1
        rw [OTAPre_cons2]
        simp only [hfind, hlst]
        refine OTAPre_of_fresh (q :: rest2) last
          (WFTL_last l last hwc.2 hlst) (by simp) ?_ ?_ ?_
        · intro i h1 h2
          intro hmem
          refine hpre (i + 1) (by omega)
            (by simp only [List.length_cons] at h2 ⊢; omega) ?_
          rw [List.take_succ_cons]
          exact mem_item_tarr t p l last hfind hlst _ hmem
        · intro hmem
          exact hitem (mem_item_tarr t p l last hfind hlst _ hmem)
        · intro hmem
          exact htab
            (mem_tk_tarr none (some false) t p l last hfind hlst _ hmem)

/-- A fresh key passing `_gen_table`\u0027s table-branch exclusion check
satisfies the `open_table` precondition. -/
theorem OTPre_of_fresh :
    ∀ (key : Key) (t : ITable), WF t → key ≠ [] →
      (∀ i, 1 ≤ i → i < key.length → key.take i ∉ itemKeysIT t) →
      key ∉ itemKeysIT t →
      key ∉ tableKeysIT (some true) (some false) t →
      key ∉ tableKeysIT none (some true) t →
      OTPre t key = true
  | [], _, _, hne, _, _, _, _ => absurd rfl hne
  | [p], t, hw, _, _, hitem, hdef, harr => by
    rcases hfind : t.find? p with _ | c
    · rw [OTPre_one]
      simp only [hfind]
    · rcases c with v | ⟨df, dt, elems⟩ | l
      · exact absurd
          (itemKeysC_sub t p _ hfind [p] (List.mem_singleton.mpr rfl)) hitem
      · have hwc := WF_find t p _ hw hfind
        rcases Bool.eq_false_or_eq_true df with hdf | hdf
        · exfalso
          rw [hdf] at hfind
          exact hdef (resolve_table_mem [p] t true dt elems (some true)
            (Or.inr rfl) hfind)
        · rcases Bool.eq_false_or_eq_true dt with hdt | hdt
          · exfalso
            rw [hwc.1 hdt] at hdf
            exact Bool.noConfusion hdf
          · subst hdf
            subst hdt
            rw [OTPre_one]
            simp only [hfind]
            rfl
      · exact absurd (resolve_tarr_mem [p] t l none hfind) harr
  | p :: q :: rest2, t, hw, _, hpre, hitem, hdef, harr => by
    rcases hfind : t.find? p with _ | c
    · rw [OTPre_cons2]
      simp only [hfind]
      exact OTPre_of_fresh (q :: rest2) .nil trivial (by simp)
        (fun i _ _ => by simp [itemKeysIT]) (by simp [itemKeysIT])
        (by simp [tableKeysIT]) (by simp [tableKeysIT])
    · rcases c with v | ⟨df, dt, elems⟩ | l
      · exact absurd
          (itemKeysC_sub t p _ hfind [p] (List.mem_singleton.mpr rfl))
          (hpre 1 (by omega) (by simp only [List.length_cons]; omega))
      · rw [OTPre_cons2]
        simp only [hfind]
        refine OTPre_of_fresh (q :: rest2) elems
          (WF_find t p _ hw hfind).2.2 (by simp) ?_ ?_ ?_ ?_
        · intro i h1 h2
          intro hmem
          refine hpre (i + 1) (by omega)
            (by simp only [List.length_cons] at h2 ⊢; omega) ?_
          rw [List.take_succ_cons]
          exact mem_item_table t p df dt elems hfind _ hmem
        · intro hmem
          exact hitem (mem_item_table t p df dt elems hfind _ hmem)
        · intro hmem
          exact hdef
            (mem_tk_table (some true) (some false) t p df dt elems hfind
              _ hmem)
        · intro hmem
          exact harr
            (mem_tk_table none (some true) t p df dt elems hfind _ hmem)
      · have hwc := WF_find t p _ hw hfind
        obtain ⟨last, hlst⟩ := last?_of_ne_nil l hwc.1
        rw [OTPre_cons2]
        simp only [hfind, hlst]
        refine OTPre_of_fresh (q :: rest2) last
          (WFTL_last l last hwc.2 hlst) (by simp) ?_ ?_ ?_ ?_
        · intro i h1 h2
          intro hmem
          refine hpre (i + 1) (by omega)
            (by simp only [List.length_cons] at h2 ⊢; omega) ?_
          rw [List.take_succ_cons]
          exact mem_item_tarr t p l last hfind hlst _ hmem
        · intro hmem
          exact hitem (mem_item_tarr t p l last hfind hlst _ hmem)
        · intro hmem
          exact hdef
            (mem_tk_tarr (some true) (some false) t p l last hfind hlst
              _ hmem)
        · intro hmem
          exact harr
            (mem_tk_tarr none (some true) t p l last hfind hlst _ hmem)

/-- A reused key drawn from `get_table_keys(array=True)` names an existing
array path, which satisfies the `open_table_array` precondition. -/
theorem OTAPre_of_reuse (df0 : Option Bool) :
    ∀ (key : Key) (t : ITable), WF t →
      key ∈ tableKeysIT df0 (some true) t → OTAPre t key = true := by
  intro key
  induction key with
  | nil =>
    intro t hw h
    exact absurd rfl (tableKeys_ne_nil df0 (some true) t [] h)
  | cons p1 rest ih =>
    intro t hw h
    obtain ⟨p, c, hf, hm⟩ := tableKeys_mem_elim df0 (some true) t _ hw h
    obtain ⟨y, hy⟩ := tableKeysC_head df0 (some true) p c _ hm
    injection hy with hy1 hy2
    subst hy1
    subst hy2
    rcases c with v | ⟨dfn, dt, elems⟩ | l
    · exfalso
      rw [show tableKeysC df0 (some true) p1 (.value v) = [] from rfl] at hm
      exact List.not_mem_nil _ hm
    · have hm2 : p1 :: rest ∈ (if (some true : Option Bool) ≠ some true ∧
          (df0 = none ∨ df0 = some dfn) then [[p1]] else []) ++
          (tableKeysIT df0 (some true) elems).map (p1 :: ·) := hm
      rw [if_neg (by simp), List.nil_append] at hm2
      obtain ⟨y2, hy2mem, hy2eq⟩ := List.mem_map.mp hm2
      have hrest : y2 = rest := by
        injection hy2eq with _ h2
      subst hrest
      have hne2 := tableKeys_ne_nil df0 (some true) elems _ hy2mem
      rw [OTAPre_step t p1 y2 hne2]
      simp only [hf]
      exact ih elems (WF_find t p1 _ hw hf).2.2 hy2mem
    · have hwc := WF_find t p1 _ hw hf
      have hm2 : p1 :: rest ∈ (if (some true : Option Bool) ≠ some false
          then [[p1]] else []) ++
          (tableKeysLast df0 (some true) l).map (p1 :: ·) := hm
      rw [if_pos (by simp)] at hm2
      rcases List.mem_append.mp hm2 with h1 | h1
      · have hrnil : rest = [] := by
          have he := List.mem_singleton.mp h1
          injection he with _ h2
        subst hrnil
        rw [OTAPre_one]
        simp only [hf]
      · obtain ⟨last, hlst⟩ := last?_of_ne_nil l hwc.1
        obtain ⟨y2, hy2mem, hy2eq⟩ := List.mem_map.mp h1
        have hrest : y2 = rest := by
          injection hy2eq with _ h2
        subst hrest
        rw [tableKeysLast_eq df0 (some true) l last hlst] at hy2mem
        have hne2 := tableKeys_ne_nil df0 (some true) last _ hy2mem
        rw [OTAPre_step t p1 y2 hne2]
        simp only [hf, hlst]
        exact ih last (WFTL_last l last hwc.2 hlst) hy2mem

/-- A reused key drawn from `get_table_keys(defined=False, array=False)`
names an existing implicit table, which satisfies the `open_table`
precondition. -/
theorem OTPre_of_reuse :
    ∀ (key : Key) (t : ITable), WF t →
      key ∈ tableKeysIT (some false) (some false) t →
      OTPre t key = true := by
  intro key
  induction key with
  | nil =>
    intro t hw h
    exact absurd rfl (tableKeys_ne_nil (some false) (some false) t [] h)
  | cons p1 rest ih =>
    intro t hw h
    obtain ⟨p, c, hf, hm⟩ :=
      tableKeys_mem_elim (some false) (some false) t _ hw h
    obtain ⟨y, hy⟩ := tableKeysC_head (some false) (some false) p c _ hm
    injection hy with hy1 hy2
    subst hy1
    subst hy2
    rcases c with v | ⟨dfn, dt, elems⟩ | l
    · exfalso
      rw [show tableKeysC (some false) (some false) p1 (.value v)
        = [] from rfl] at hm
      exact List.not_mem_nil _ hm
    · have hwc := WF_find t p1 _ hw hf
      rcases Bool.eq_false_or_eq_true dfn with hdfn | hdfn
      · subst hdfn
        have hm2 : p1 :: rest ∈
            (if (some false : Option Bool) ≠ some true ∧
              ((some false : Option Bool) = none ∨
                (some false : Option Bool) = some true)
              then [[p1]] else []) ++
            (tableKeysIT (some false) (some false) elems).map (p1 :: ·) :=
          hm
        rw [if_neg (by simp), List.nil_append] at hm2
        obtain ⟨y2, hy2mem, hy2eq⟩ := List.mem_map.mp hm2
        have hrest : y2 = rest := by
          injection hy2eq with _ h2
        subst hrest
        have hne2 :=
          tableKeys_ne_nil (some false) (some false) elems _ hy2mem
        rw [OTPre_step t p1 y2 hne2]
        simp only [hf]
        exact ih elems hwc.2.2 hy2mem
      · subst hdfn
        have hm2 : p1 :: rest ∈
            (if (some false : Option Bool) ≠ some true ∧
              ((some false : Option Bool) = none ∨
                (some false : Option Bool) = some false)
              then [[p1]] else []) ++
            (tableKeysIT (some false) (some false) elems).map (p1 :: ·) :=
          hm
        rw [if_pos ⟨by simp, Or.inr rfl⟩] at hm2
        rcases List.mem_append.mp hm2 with h1 | h1
        · have hrnil : rest = [] := by
            have he := List.mem_singleton.mp h1
            injection he with _ h2
          subst hrnil
          rcases Bool.eq_false_or_eq_true dt with hdt | hdt
          · exact absurd (hwc.1 hdt) (by simp)
          · subst hdt
            rw [OTPre_one]
            simp only [hf]
            rfl
        · obtain ⟨y2, hy2mem, hy2eq⟩ := List.mem_map.mp h1
          have hrest : y2 = rest := by
            injection hy2eq with _ h2
          subst hrest
          have hne2 :=
            tableKeys_ne_nil (some false) (some false) elems _ hy2mem
          rw [OTPre_step t p1 y2 hne2]
          simp only [hf]
          exact ih elems hwc.2.2 hy2mem
    · have hwc := WF_find t p1 _ hw hf
      have hm2 : p1 :: rest ∈ (if (some false : Option Bool) ≠ some false
          then [[p1]] else []) ++
          (tableKeysLast (some false) (some false) l).map (p1 :: ·) := hm
      rw [if_neg (by simp), List.nil_append] at hm2
      obtain ⟨last, hlst⟩ := last?_of_ne_nil l hwc.1
      obtain ⟨y2, hy2mem, hy2eq⟩ := List.mem_map.mp hm2
      have hrest : y2 = rest := by
        injection hy2eq with _ h2
      subst hrest
      rw [tableKeysLast_eq (some false) (some false) l last hlst] at hy2mem
      have hne2 := tableKeys_ne_nil (some false) (some false) last _ hy2mem
      rw [OTPre_step t p1 y2 hne2]
      simp only [hf, hlst]
      exact ih last (WFTL_last l last hwc.2 hlst) hy2mem


/-! ## C4 stage F: the assignment never asserts and preserves the
invariants -/

theorem assignGo_one (t : ITable) (p : String) (v : Val) :
    assignGo t [p] v
      = (if t.contains p then Except.error .assertFail
         else Except.ok (t.set p (.value v))) := rfl

theorem assignGo_cons2 (t : ITable) (p q : String) (rest2 : List String)
    (v : Val) :
    assignGo t (p :: q :: rest2) v
      = (match t.find? p with
         | none => do
           let sub ← assignGo .nil (q :: rest2) v
           Except.ok (t.set p (.table true true sub))
         | some (.table df dt elems) => do
           let e ← assignGo elems (q :: rest2) v
           Except.ok (t.set p (.table df dt e))
         | some (.tarray l) =>
           match l.last? with
           | some last => do
             let e ← assignGo last (q :: rest2) v
             Except.ok (t.set p (.tarray (l.setLast e)))
           | none => Except.error .typeErr
         | some (.value _) => Except.error .assertFail) := rfl

/-- Inside a subtree built purely by dotted assignments, a key passing
the keyval exclusion check is assigned without touching any assert, and
the subtree stays assignment-built and well-formed. -/
theorem assignGo_vd :
    ∀ (key : Key) (e : ITable) (v : Val), OnlyVD e → WF e → key ≠ [] →
      (∀ i, 1 ≤ i → i < key.length → key.take i ∉ itemKeysIT e) →
      key ∉ itemKeysIT e → key ∉ itemPresIT e →
      ∃ e2, assignGo e key v = .ok e2 ∧ OnlyVD e2 ∧ WF e2
  | [], _, _, _, _, hne, _, _, _ => absurd rfl hne
  | [p], e, v, hvd, hw, _, _, hitem, hprs => by
    rcases hcont : e.contains p with _ | _
    · refine ⟨e.set p (.value v), ?_, ?_, ?_⟩
      · rw [assignGo_one, hcont]
        rfl
      · exact OnlyVD_set e hvd (.value v) trivial p
      · exact WF_set e hw (.value v) trivial p
    · exfalso
      obtain ⟨c, hfind⟩ := (contains_iff_find e p).mp hcont
      rcases c with v0 | ⟨df, dt, elems⟩ | l
      · exact hitem
          (itemKeysC_sub e p _ hfind [p] (List.mem_singleton.mpr rfl))
      · have hc := OnlyVD_find e p _ hvd hfind
        rw [hc.2.1] at hfind
        exact hprs (itemPres_sub e p df elems hfind).1
      · exact OnlyVD_find e p _ hvd hfind
  | p :: q :: rest2, e, v, hvd, hw, _, hpre, hitem, hprs => by
    rcases hfind : e.find? p with _ | c
    · obtain ⟨sub, hgo, hvd2, hwf2⟩ :=
        assignGo_vd (q :: rest2) .nil v trivial trivial (by simp)
          (fun i _ _ => by simp [itemKeysIT]) (by simp [itemKeysIT])
          (by simp [itemPresIT])
      refine ⟨e.set p (.table true true sub), ?_, ?_, ?_⟩
      · rw [assignGo_cons2]
        simp only [hfind]
        rw [hgo, bindOk]
      · exact OnlyVD_set e hvd (.table true true sub) ⟨rfl, rfl, hvd2⟩ p
      · exact WF_set e hw (.table true true sub)
          ⟨fun _ => rfl, fun hc => Bool.noConfusion hc, hwf2⟩ p
    · rcases c with v0 | ⟨df, dt, elems⟩ | l
      · exact absurd
          (itemKeysC_sub e p _ hfind [p] (List.mem_singleton.mpr rfl))
          (hpre 1 (by omega) (by simp only [List.length_cons]; omega))
      · obtain ⟨hdf, hdt, hvde⟩ := OnlyVD_find e p _ hvd hfind
        subst hdf
        subst hdt
        have hwe : WF elems := (WF_find e p _ hw hfind).2.2
        have hx1 : ∀ i, 1 ≤ i → i < (q :: rest2).length →
            (q :: rest2).take i ∉ itemKeysIT elems := by
          intro i h1 h2
          intro hmem
          refine hpre (i + 1) (by omega)
            (by simp only [List.length_cons] at h2 ⊢; omega) ?_
          rw [List.take_succ_cons]
          exact mem_item_table e p true true elems hfind _ hmem
        have hx2 : (q :: rest2) ∉ itemKeysIT elems := by
          intro hmem
          exact hitem (mem_item_table e p true true elems hfind _ hmem)
        have hx3 : (q :: rest2) ∉ itemPresIT elems := by
          intro hmem
          exact hprs ((itemPres_sub e p true elems hfind).2 _ hmem)
        obtain ⟨e2, hgo, hvd2, hwf2⟩ :=
          assignGo_vd (q :: rest2) elems v hvde hwe (by simp) hx1 hx2 hx3
        refine ⟨e.set p (.table true true e2), ?_, ?_, ?_⟩
        · rw [assignGo_cons2]
          simp only [hfind]
          rw [hgo, bindOk]
        · exact OnlyVD_set e hvd (.table true true e2) ⟨rfl, rfl, hvd2⟩ p
        · exact WF_set e hw (.table true true e2)
            ⟨fun _ => rfl, fun hc => Bool.noConfusion hc, hwf2⟩ p
      · exact absurd (OnlyVD_find e p _ hvd hfind) (fun hF => hF)

/-- Top-level `Context.assign` on the active table: under `WF`, the
active-table invariant and the keyval exclusion check, the assignment
succeeds and both invariants are preserved. -/
theorem assignGo_top :
    ∀ (key : Key) (T : ITable) (v : Val), WF T → AInv T → key ≠ [] →
      key ∉ itemKeysIT T → key ∉ itemPresIT T → key ∉ subtableKeysIT T →
      (∀ i, 1 ≤ i → i < key.length →
        key.take i ∉ itemKeysIT T ∧ key.take i ∉ subtableKeysIT T) →
      ∃ T2, assignGo T key v = .ok T2 ∧ WF T2 ∧ AInv T2
  | [], _, _, _, _, hne, _, _, _, _ => absurd rfl hne
  | [p], T, v, hw, hai, _, hitem, hprs, hsub, _ => by
    rcases hcont : T.contains p with _ | _
    · refine ⟨T.set p (.value v), ?_, ?_, ?_⟩
      · rw [assignGo_one, hcont]
        rfl
      · exact WF_set T hw (.value v) trivial p
      · exact AInv_set T hai (.value v)
          (fun df e2 he => Child.noConfusion he) p
    · exfalso
      obtain ⟨c, hfind⟩ := (contains_iff_find T p).mp hcont
      rcases c with v0 | ⟨df, dt, elems⟩ | l
      · exact hitem
          (itemKeysC_sub T p _ hfind [p] (List.mem_singleton.mpr rfl))
      · rcases Bool.eq_false_or_eq_true dt with hdt | hdt
        · rw [hdt] at hfind
          exact hprs (itemPres_sub T p df elems hfind).1
        · rw [hdt] at hfind
          exact hsub (subtable_sub_table T p df elems hfind)
      · exact hsub (subtable_sub_arr T p l hfind)
  | p :: q :: rest2, T, v, hw, hai, _, hitem, hprs, hsub, hpre => by
    rcases hfind : T.find? p with _ | c
    · obtain ⟨sub, hgo, hvd2, hwf2⟩ :=
        assignGo_vd (q :: rest2) .nil v trivial trivial (by simp)
          (fun i _ _ => by simp [itemKeysIT]) (by simp [itemKeysIT])
          (by simp [itemPresIT])
      refine ⟨T.set p (.table true true sub), ?_, ?_, ?_⟩
      · rw [assignGo_cons2]
        simp only [hfind]
        rw [hgo, bindOk]
      · exact WF_set T hw (.table true true sub)
          ⟨fun _ => rfl, fun hc => Bool.noConfusion hc, hwf2⟩ p
      · refine AInv_set T hai (.table true true sub) ?_ p
        intro df e2 he
        simp only [Child.table.injEq] at he
        exact he.2.2 ▸ hvd2
    · rcases c with v0 | ⟨df, dt, elems⟩ | l
      · exact absurd
          (itemKeysC_sub T p _ hfind [p] (List.mem_singleton.mpr rfl))
          (hpre 1 (by omega) (by simp only [List.length_cons]; omega)).1
      · rcases Bool.eq_false_or_eq_true dt with hdt | hdt
        · subst hdt
          have hvde := AInv_find T p df elems hai hfind
          have hwc := WF_find T p _ hw hfind
          have hdf : df = true := hwc.1 rfl
          subst hdf
          have hx1 : ∀ i, 1 ≤ i → i < (q :: rest2).length →
              (q :: rest2).take i ∉ itemKeysIT elems := by
            intro i h1 h2
            intro hmem
            refine (hpre (i + 1) (by omega)
              (by simp only [List.length_cons] at h2 ⊢; omega)).1 ?_
            rw [List.take_succ_cons]
            exact mem_item_table T p true true elems hfind _ hmem
          have hx2 : (q :: rest2) ∉ itemKeysIT elems := by
            intro hmem
            exact hitem (mem_item_table T p true true elems hfind _ hmem)
          have hx3 : (q :: rest2) ∉ itemPresIT elems := by
            intro hmem
            exact hprs ((itemPres_sub T p true elems hfind).2 _ hmem)
          obtain ⟨e2, hgo, hvd2, hwf2⟩ :=
            assignGo_vd (q :: rest2) elems v hvde hwc.2.2 (by simp)
              hx1 hx2 hx3
          refine ⟨T.set p (.table true true e2), ?_, ?_, ?_⟩
          · rw [assignGo_cons2]
            simp only [hfind]
            rw [hgo, bindOk]
          · exact WF_set T hw (.table true true e2)
              ⟨fun _ => rfl, fun hc => Bool.noConfusion hc, hwf2⟩ p
          · refine AInv_set T hai (.table true true e2) ?_ p
            intro df2 e3 he
            simp only [Child.table.injEq] at he
            exact he.2.2 ▸ hvd2
        · subst hdt
          exact absurd (subtable_sub_table T p df elems hfind)
            (hpre 1 (by omega) (by simp only [List.length_cons]; omega)).2
      · exact absurd (subtable_sub_arr T p l hfind)
          (hpre 1 (by omega) (by simp only [List.length_cons]; omega)).2


/-! ## C4 stage F (continued): locating the active table -/

/-- The keyval exclusion facts for `key` relative to a table. -/
abbrev KeyFits (key : Key) (e : ITable) : Prop :=
  key ∉ itemKeysIT e ∧ key ∉ itemPresIT e ∧ key ∉ subtableKeysIT e ∧
  (∀ i, 1 ≤ i → i < key.length →
    key.take i ∉ itemKeysIT e ∧ key.take i ∉ subtableKeysIT e)

/-- The active path names the root, a defined table or a table array
(the only things `open_table` / `open_table_array` ever activate). -/
abbrev ANodeOK (t : ITable) (path : Key) : Prop :=
  path = [] ∨
    (∃ dt elems, resolveC t path = some (.table true dt elems)) ∨
    (∃ l, resolveC t path = some (.tarray l))

theorem resolveC_through_table (t : ITable) (p : String) (df dt : Bool)
    (elems : ITable) (rest : Key)
    (hf : t.find? p = some (.table df dt elems)) (hne : rest ≠ []) :
    resolveC t (p :: rest) = resolveC elems rest := by
  rcases rest with _ | ⟨q, rest2⟩
  · exact absurd rfl hne
  · rw [resolveC_cons2]
    simp only [hf]

theorem resolveC_through_tarr (t : ITable) (p : String) (l : TList)
    (last : ITable) (rest : Key) (hf : t.find? p = some (.tarray l))
    (hl : l.last? = some last) (hne : rest ≠ []) :
    resolveC t (p :: rest) = resolveC last rest := by
  rcases rest with _ | ⟨q, rest2⟩
  · exact absurd rfl hne
  · rw [resolveC_cons2]
    simp only [hf, hl]

theorem resolveT_through_table (t : ITable) (p : String) (df dt : Bool)
    (elems : ITable) (rest : Key)
    (hf : t.find? p = some (.table df dt elems)) :
    resolveT t (p :: rest) = resolveT elems rest := by
  rw [resolveT_cons]
  simp only [hf]

theorem resolveT_through_tarr (t : ITable) (p : String) (l : TList)
    (last : ITable) (rest : Key) (hf : t.find? p = some (.tarray l))
    (hl : l.last? = some last) :
    resolveT t (p :: rest) = resolveT last rest := by
  rw [resolveT_cons]
  simp only [hf, hl]

theorem modifyAt_cons (t : ITable) (p : String) (rest : Key)
    (f : ITable → Except GenErr ITable) :
    modifyAt t (p :: rest) f
      = (match t.find? p with
         | some (.table df dt elems) => do
           let e ← modifyAt elems rest f
           Except.ok (t.set p (.table df dt e))
         | some (.tarray l) =>
           match l.last? with
           | some last => do
             let e ← modifyAt last rest f
             Except.ok (t.set p (.tarray (l.setLast e)))
           | none => Except.error .typeErr
         | _ => Except.error .typeErr) := rfl

/-- `modify_at` along a non-trivial path only rewrites a child back with
its own flags, so the top level keeps `NoDotTop`. -/
theorem modifyAt_NoDotTop (f : ITable → Except GenErr ITable) :
    ∀ (path : Key) (t tQ : ITable), path ≠ [] → NoDotTop t →
      modifyAt t path f = .ok tQ → NoDotTop tQ := by
  intro path t tQ hne hn h
  rcases path with _ | ⟨p, rest⟩
  · exact absurd rfl hne
  · rw [modifyAt_cons] at h
    rcases hfind : t.find? p with _ | c
    · simp only [hfind] at h
      exact Except.noConfusion h
    · rcases c with v | ⟨df, dt, elems⟩ | l
      · simp only [hfind] at h
        exact Except.noConfusion h
      · simp only [hfind] at h
        rcases hrec : modifyAt elems rest f with e | e2
        · rw [hrec, bindErr] at h
          exact Except.noConfusion h
        · rw [hrec, bindOk] at h
          simp only [Except.ok.injEq] at h
          rw [← h]
          have hdt : dt = false := by
            rcases Bool.eq_false_or_eq_true dt with hb | hb
            · exfalso
              have hne2 := NoDotTop_find t p _ hn hfind df elems
              rw [hb] at hne2
              exact hne2 rfl
            · exact hb
          refine NoDotTop_set t hn _ ?_ p
          rw [hdt]
          intro df2 e he
          simp at he
      · simp only [hfind] at h
        rcases hlst : l.last? with _ | last
        · simp only [hlst] at h
          exact Except.noConfusion h
        · simp only [hlst] at h
          rcases hrec : modifyAt last rest f with e | e2
          · rw [hrec, bindErr] at h
            exact Except.noConfusion h
          · rw [hrec, bindOk] at h
            simp only [Except.ok.injEq] at h
            rw [← h]
            refine NoDotTop_set t hn _ ?_ p
            intro df2 e he
            simp at he

/-- `Context.assign` = `modify_at` of `assignGo` at the active path:
under the invariants it never hits an assert, and on success the root
stays well formed, the path keeps naming a node of the same kind, and
the active table keeps its invariant. -/
theorem assign_modifyAt :
    ∀ (path : Key) (t : ITable) (key : Key) (v : Val), WF t → key ≠ [] →
      ANodeOK t path →
      (∀ e, resolveT t path = some e → AInv e ∧ KeyFits key e) →
      (modifyAt t path (fun e => assignGo e key v) ≠ .error .assertFail) ∧
      (∀ tQ, modifyAt t path (fun e => assignGo e key v) = .ok tQ →
        WF tQ ∧ ANodeOK tQ path ∧
        ∃ eQ, resolveT tQ path = some eQ ∧ AInv eQ)
  | [], t, key, v, hw, hne, _, hfit => by
    obtain ⟨hai, h1, h2, h3, h4⟩ := hfit t rfl
    obtain ⟨T2, hgo, hwf2, hai2⟩ :=
      assignGo_top key t v hw hai hne h1 h2 h3 h4
    have hmn : modifyAt t [] (fun e => assignGo e key v)
        = assignGo t key v := rfl
    constructor
    · intro h
      rw [hmn, hgo] at h
      exact Except.noConfusion h
    · intro tQ h
      rw [hmn, hgo] at h
      simp only [Except.ok.injEq] at h
      subst h
      exact ⟨hwf2, Or.inl rfl, T2, rfl, hai2⟩
  | p :: rest, t, key, v, hw, hne, hAN, hfit => by
    rcases hfind : t.find? p with _ | c
    · constructor
      · intro h
        rw [modifyAt_cons] at h
        simp only [hfind] at h
        exact GenErr.noConfusion (Except.error.inj h)
      · intro tQ h
        rw [modifyAt_cons] at h
        simp only [hfind] at h
        exact Except.noConfusion h
    · rcases c with v0 | ⟨df, dt, elems⟩ | l
      · constructor
        · intro h
          rw [modifyAt_cons] at h
          simp only [hfind] at h
          exact GenErr.noConfusion (Except.error.inj h)
        · intro tQ h
          rw [modifyAt_cons] at h
          simp only [hfind] at h
          exact Except.noConfusion h
      · have hwc := WF_find t p _ hw hfind
        by_cases hrnil : rest = []
        · subst hrnil
          have hdf : df = true := by
            rcases hAN with h0 | ⟨dtq, elq, h0⟩ | ⟨lq, h0⟩
            · exact absurd h0 (by simp)
            · rw [show resolveC t [p] = t.find? p from rfl, hfind] at h0
              simp only [Option.some.injEq, Child.table.injEq] at h0
              exact h0.1
            · rw [show resolveC t [p] = t.find? p from rfl, hfind] at h0
              exact absurd h0 (by simp)
          subst hdf
          have hres : resolveT t [p] = some elems := by
            rw [resolveT_cons]
            simp only [hfind]
            rfl
          obtain ⟨hai, h1, h2, h3, h4⟩ := hfit elems hres
          obtain ⟨T2, hgo, hwf2, hai2⟩ :=
            assignGo_top key elems v hwc.2.2 hai hne h1 h2 h3 h4
          have hmn : modifyAt elems [] (fun e => assignGo e key v)
              = assignGo elems key v := rfl
          constructor
          · intro h
            rw [modifyAt_cons] at h
            simp only [hfind] at h
            rw [hmn, hgo, bindOk] at h
            exact Except.noConfusion h
          · intro tQ h
            rw [modifyAt_cons] at h
            simp only [hfind] at h
            rw [hmn, hgo, bindOk] at h
            simp only [Except.ok.injEq] at h
            subst h
            refine ⟨?_, ?_, T2, ?_, hai2⟩
            · exact WF_set t hw (.table true dt T2)
                ⟨fun _ => rfl, fun hc => Bool.noConfusion hc, hwf2⟩ p
            · refine Or.inr (Or.inl ⟨dt, T2, ?_⟩)
              rw [show resolveC (t.set p (.table true dt T2)) [p]
                = (t.set p (.table true dt T2)).find? p from rfl,
                find?_set_self]
            · rw [resolveT_cons, find?_set_self]
              rfl
        · have hANe : ANodeOK elems rest := by
            rcases hAN with h0 | ⟨dtq, elq, h0⟩ | ⟨lq, h0⟩
            · exact absurd h0 (by simp)
            · rw [resolveC_through_table t p df dt elems rest hfind
                hrnil] at h0
              exact Or.inr (Or.inl ⟨dtq, elq, h0⟩)
            · rw [resolveC_through_table t p df dt elems rest hfind
                hrnil] at h0
              exact Or.inr (Or.inr ⟨lq, h0⟩)
          have hfite : ∀ e, resolveT elems rest = some e →
              AInv e ∧ KeyFits key e := by
            intro e hre
            refine hfit e ?_
            rw [resolveT_through_table t p df dt elems rest hfind]
            exact hre
          obtain ⟨hnaf, hok⟩ :=
            assign_modifyAt rest elems key v hwc.2.2 hne hANe hfite
          constructor
          · intro h
            rw [modifyAt_cons] at h
            simp only [hfind] at h
            rcases hrec : modifyAt elems rest (fun e => assignGo e key v)
              with e | e2
            · rw [hrec, bindErr] at h
              simp only [Except.error.injEq] at h
              rw [h] at hrec
              exact hnaf hrec
            · rw [hrec, bindOk] at h
              exact Except.noConfusion h
          · intro tQ h
            rw [modifyAt_cons] at h
            simp only [hfind] at h
            rcases hrec : modifyAt elems rest (fun e => assignGo e key v)
              with e | e2
            · rw [hrec, bindErr] at h
              exact Except.noConfusion h
            · rw [hrec, bindOk] at h
              simp only [Except.ok.injEq] at h
              subst h
              obtain ⟨hwf2, hAN2, eQ, hrTQ, haiQ⟩ := hok e2 hrec
              refine ⟨?_, ?_, eQ, ?_, haiQ⟩
              · refine WF_set t hw (.table df dt e2) ⟨hwc.1, ?_, hwf2⟩ p
                intro hdf
                exact modifyAt_NoDotTop (fun e => assignGo e key v) rest
                  elems e2 hrnil (hwc.2.1 hdf) hrec
              · rcases hAN2 with h0 | ⟨dt2, el2, h0⟩ | ⟨l2, h0⟩
                · exact absurd h0 hrnil
                · refine Or.inr (Or.inl ⟨dt2, el2, ?_⟩)
                  rw [resolveC_through_table (t.set p (.table df dt e2)) p
                    df dt e2 rest (find?_set_self t p _) hrnil]
                  exact h0
                · refine Or.inr (Or.inr ⟨l2, ?_⟩)
                  rw [resolveC_through_table (t.set p (.table df dt e2)) p
                    df dt e2 rest (find?_set_self t p _) hrnil]
                  exact h0
              · rw [resolveT_through_table (t.set p (.table df dt e2)) p
                  df dt e2 rest (find?_set_self t p _)]
                exact hrTQ
      · have hwc := WF_find t p _ hw hfind
        rcases hlst : l.last? with _ | last
        · constructor
          · intro h
            rw [modifyAt_cons] at h
            simp only [hfind, hlst] at h
            exact GenErr.noConfusion (Except.error.inj h)
          · intro tQ h
            rw [modifyAt_cons] at h
            simp only [hfind, hlst] at h
            exact Except.noConfusion h
        · have hwlast : WF last := WFTL_last l last hwc.2 hlst
          by_cases hrnil : rest = []
          · subst hrnil
            have hres : resolveT t [p] = some last := by
              rw [resolveT_cons]
              simp only [hfind, hlst]
              rfl
            obtain ⟨hai, h1, h2, h3, h4⟩ := hfit last hres
            obtain ⟨T2, hgo, hwf2, hai2⟩ :=
              assignGo_top key last v hwlast hai hne h1 h2 h3 h4
            have hmn : modifyAt last [] (fun e => assignGo e key v)
                = assignGo last key v := rfl
            constructor
            · intro h
              rw [modifyAt_cons] at h
              simp only [hfind, hlst] at h
              rw [hmn, hgo, bindOk] at h
              exact Except.noConfusion h
            · intro tQ h
              rw [modifyAt_cons] at h
              simp only [hfind, hlst] at h
              rw [hmn, hgo, bindOk] at h
              simp only [Except.ok.injEq] at h
              subst h
              refine ⟨?_, ?_, T2, ?_, hai2⟩
              · exact WF_set t hw (.tarray (l.setLast T2))
                  ⟨setLast_ne_nil l hwc.1 T2,
                    WFTL_setLast l hwc.2 T2 hwf2⟩ p
              · refine Or.inr (Or.inr ⟨l.setLast T2, ?_⟩)
                rw [show resolveC (t.set p (.tarray (l.setLast T2))) [p]
                  = (t.set p (.tarray (l.setLast T2))).find? p from rfl,
                  find?_set_self]
              · rw [resolveT_cons, find?_set_self]
                show (match (l.setLast T2).last? with
                      | some x => resolveT x []
                      | none => none) = some T2
                rw [TList.last?_setLast _ hlst T2]
                rfl
          · have hANe : ANodeOK last rest := by
              rcases hAN with h0 | ⟨dtq, elq, h0⟩ | ⟨lq, h0⟩
              · exact absurd h0 (by simp)
              · rw [resolveC_through_tarr t p l last rest hfind hlst
                  hrnil] at h0
                exact Or.inr (Or.inl ⟨dtq, elq, h0⟩)
              · rw [resolveC_through_tarr t p l last rest hfind hlst
                  hrnil] at h0
                exact Or.inr (Or.inr ⟨lq, h0⟩)
            have hfite : ∀ e, resolveT last rest = some e →
                AInv e ∧ KeyFits key e := by
              intro e hre
              refine hfit e ?_
              rw [resolveT_through_tarr t p l last rest hfind hlst]
              exact hre
            obtain ⟨hnaf, hok⟩ :=
              assign_modifyAt rest last key v hwlast hne hANe hfite
            constructor
            · intro h
              rw [modifyAt_cons] at h
              simp only [hfind, hlst] at h
              rcases hrec : modifyAt last rest (fun e => assignGo e key v)
                with e | e2
              · rw [hrec, bindErr] at h
                simp only [Except.error.injEq] at h
                rw [h] at hrec
                exact hnaf hrec
              · rw [hrec, bindOk] at h
                exact Except.noConfusion h
            · intro tQ h
              rw [modifyAt_cons] at h
              simp only [hfind, hlst] at h
              rcases hrec : modifyAt last rest (fun e => assignGo e key v)
                with e | e2
              · rw [hrec, bindErr] at h
                exact Except.noConfusion h
              · rw [hrec, bindOk] at h
                simp only [Except.ok.injEq] at h
                subst h
                obtain ⟨hwf2, hAN2, eQ, hrTQ, haiQ⟩ := hok e2 hrec
                refine ⟨?_, ?_, eQ, ?_, haiQ⟩
                · exact WF_set t hw (.tarray (l.setLast e2))
                    ⟨setLast_ne_nil l hwc.1 e2,
                      WFTL_setLast l hwc.2 e2 hwf2⟩ p
                · rcases hAN2 with h0 | ⟨dt2, el2, h0⟩ | ⟨l2, h0⟩
                  · exact absurd h0 hrnil
                  · refine Or.inr (Or.inl ⟨dt2, el2, ?_⟩)
                    rw [resolveC_through_tarr
                      (t.set p (.tarray (l.setLast e2))) p (l.setLast e2)
                      e2 rest (find?_set_self t p _)
                      (TList.last?_setLast _ hlst e2) hrnil]
                    exact h0
                  · refine Or.inr (Or.inr ⟨l2, ?_⟩)
                    rw [resolveC_through_tarr
                      (t.set p (.tarray (l.setLast e2))) p (l.setLast e2)
                      e2 rest (find?_set_self t p _)
                      (TList.last?_setLast _ hlst e2) hrnil]
                    exact h0
                · rw [resolveT_through_tarr
                    (t.set p (.tarray (l.setLast e2))) p (l.setLast e2)
                    e2 rest (find?_set_self t p _)
                    (TList.last?_setLast _ hlst e2)]
                  exact hrTQ


/-! ## C4 stage G: the generator level -/

/-- The context invariant maintained across every expression of
`gen_toml`. -/
abbrev CtxInv (ctx : Ctx) : Prop :=
  WF ctx.data ∧ ANodeOK ctx.data ctx.active ∧ AInv ctx.activeTable

theorem ctx_assign_spec (ctx : Ctx) (key : Key) (v : Val)
    (hinv : CtxInv ctx) (hne : key ≠ [])
    (hfits : KeyFits key ctx.activeTable) :
    (ctx.assign key v ≠ .error .assertFail) ∧
    (∀ c2, ctx.assign key v = .ok c2 → CtxInv c2) := by
  obtain ⟨hw, hAN, hai⟩ := hinv
  have hfit : ∀ e, resolveT ctx.data ctx.active = some e →
      AInv e ∧ KeyFits key e := by
    intro e hre
    have hact : ctx.activeTable = e := by
      unfold Ctx.activeTable
      rw [hre]
      rfl
    rw [← hact]
    exact ⟨hai, hfits⟩
  obtain ⟨hnaf, hok⟩ :=
    assign_modifyAt ctx.active ctx.data key v hw hne hAN hfit
  constructor
  · intro h
    unfold Ctx.assign at h
    rcases hm : modifyAt ctx.data ctx.active (fun t => assignGo t key v)
      with e | d
    · rw [hm, bindErr] at h
      simp only [Except.error.injEq] at h
      rw [h] at hm
      exact hnaf hm
    · rw [hm, bindOk] at h
      exact Except.noConfusion h
  · intro c2 h
    unfold Ctx.assign at h
    rcases hm : modifyAt ctx.data ctx.active (fun t => assignGo t key v)
      with e | d
    · rw [hm, bindErr] at h
      exact Except.noConfusion h
    · rw [hm, bindOk] at h
      simp only [Except.ok.injEq] at h
      obtain ⟨hwf2, hAN2, eQ, hrTQ, haiQ⟩ := hok d hm
      rw [← h]
      refine ⟨hwf2, hAN2, ?_⟩
      show AInv ((resolveT d ctx.active).getD .nil)
      rw [hrTQ]
      exact haiQ

theorem genKeyval_spec (fuel : Nat) (ctx : Ctx) (g : Rng)
    (hinv : CtxInv ctx) :
    (genKeyval fuel ctx g ≠ .error .assertFail) ∧
    (∀ r, genKeyval fuel ctx g = .ok r → CtxInv r.1.2) := by
  have hun : genKeyval fuel ctx g
      = (match genKey fuel
          (ctx.getActiveItemKeys ++ ctx.getActiveSubtableKeys)
          (ctx.getActiveItemKeys ++ ctx.getActiveItemPres
            ++ ctx.getActiveSubtableKeys)
          ctx.getActiveItemPres [] g with
        | .error e => .error e
        | .ok ((keyStr, key), g2) =>
          match genVal fuel g2 with
          | .error e => .error e
          | .ok ((valStr, v), g3) =>
            let (w1, g4) := genWs g3
            let (w2, g5) := genWs g4
            match ctx.assign key v with
            | .error e => .error e
            | .ok ctx2 =>
              .ok ((keyStr ++ w1 ++ "=" ++ w2 ++ valStr, ctx2), g5)) := rfl
  rcases hk : genKey fuel
      (ctx.getActiveItemKeys ++ ctx.getActiveSubtableKeys)
      (ctx.getActiveItemKeys ++ ctx.getActiveItemPres
        ++ ctx.getActiveSubtableKeys)
      ctx.getActiveItemPres [] g with e | ⟨⟨keyStr, key⟩, g2⟩
  · constructor
    · intro h
      rw [hun] at h
      simp only [hk] at h
      simp only [Except.error.injEq] at h
      rw [h] at hk
      exact naf_genKey fuel _ _ _ _ g hk
    · intro r h
      rw [hun] at h
      simp only [hk] at h
      exact Except.noConfusion h
  · rcases genKey_ok hk with hin | ⟨pre, ks, hpre0, hkey, hl1, hl2, hchk⟩
    · exact absurd hin (List.not_mem_nil key)
    · have hne : key ≠ [] := by
        rw [hkey]
        intro hc
        rcases List.append_eq_nil.mp hc with ⟨_, h2⟩
        rw [h2] at hl1
        simp at hl1
      obtain ⟨hnotk, hnotp⟩ := checkKeyOK_sem hchk
      have hfits : KeyFits key ctx.activeTable := by
        refine ⟨?_, ?_, ?_, ?_⟩
        · intro hmem
          exact hnotk (List.mem_append_left _ (List.mem_append_left _
            (mem_sortKeys.mpr hmem)))
        · intro hmem
          exact hnotk (List.mem_append_left _ (List.mem_append_right _
            (mem_sortKeys.mpr hmem)))
        · intro hmem
          exact hnotk (List.mem_append_right _ (mem_sortKeys.mpr hmem))
        · intro i h1 h2
          constructor
          · intro hmem
            exact hnotp i h1 h2
              (List.mem_append_left _ (mem_sortKeys.mpr hmem))
          · intro hmem
            exact hnotp i h1 h2
              (List.mem_append_right _ (mem_sortKeys.mpr hmem))
      rcases hv : genVal fuel g2 with e | ⟨⟨valStr, v⟩, g3⟩
      · constructor
        · intro h
          rw [hun] at h
          simp only [hk, hv] at h
          simp only [Except.error.injEq] at h
          rw [h] at hv
          exact naf_genVal fuel g2 hv
        · intro r h
          rw [hun] at h
          simp only [hk, hv] at h
          exact Except.noConfusion h
      · rcases hgw1 : genWs g3 with ⟨w1, g4⟩
        rcases hgw2 : genWs g4 with ⟨w2, g5⟩
        obtain ⟨hanaf2, haok2⟩ := ctx_assign_spec ctx key v hinv hne hfits
        rcases ha : ctx.assign key v with e | ctx2
        · constructor
          · intro h
            rw [hun] at h
            simp only [hk, hv, hgw1, hgw2, ha] at h
            simp only [Except.error.injEq] at h
            rw [h] at ha
            exact hanaf2 ha
          · intro r h
            rw [hun] at h
            simp only [hk, hv, hgw1, hgw2, ha] at h
            exact Except.noConfusion h
        · constructor
          · intro h
            rw [hun] at h
            simp only [hk, hv, hgw1, hgw2, ha] at h
            exact Except.noConfusion h
          · intro r h
            rw [hun] at h
            simp only [hk, hv, hgw1, hgw2, ha] at h
            simp only [Except.ok.injEq] at h
            rw [← h]
            exact haok2 ctx2 ha

set_option maxHeartbeats 2000000 in
theorem genTable_spec (fuel : Nat) (ctx : Ctx) (g : Rng)
    (hinv : CtxInv ctx) :
    (genTable fuel ctx g ≠ .error .assertFail) ∧
    (∀ r, genTable fuel ctx g = .ok r → CtxInv r.1.2) := by
  obtain ⟨hw, hAN, hai⟩ := hinv
  rcases hb : Rng.randNat 0 1 g with ⟨b, g0⟩
  by_cases hbb : 0 < b
  · rcases hk : genKey fuel ctx.getItemKeys
        (ctx.getItemKeys ++ ctx.getTableKeys none (some false))
        (ctx.getTableKeys none (some false)
          ++ ctx.getTableKeys none (some true))
        (ctx.getTableKeys none (some true)) g0
      with e | ⟨⟨keyStr, key⟩, g2⟩
    · have hred : genTable fuel ctx g = .error e := by
        rw [genTable]
        simp only [hb]
        rw [if_pos hbb]
        simp only [hk]
      constructor
      · intro h
        rw [hred] at h
        simp only [Except.error.injEq] at h
        rw [h] at hk
        exact naf_genKey fuel _ _ _ _ g0 hk
      · intro r h
        rw [hred] at h
        exact Except.noConfusion h
    · have hpre : OTAPre ctx.data key = true := by
        rcases genKey_ok hk with hin | ⟨pre, ks, hpre0, hkey, hl1, hl2, hchk⟩
        · exact OTAPre_of_reuse none key ctx.data hw (mem_sortKeys.mp hin)
        · have hne : key ≠ [] := by
            rw [hkey]
            intro hc
            rcases List.append_eq_nil.mp hc with ⟨_, h2⟩
            rw [h2] at hl1
            simp at hl1
          obtain ⟨hnotk, hnotp⟩ := checkKeyOK_sem hchk
          refine OTAPre_of_fresh key ctx.data hw hne ?_ ?_ ?_
          · intro i h1 h2
            intro hmem
            exact hnotp i h1 h2 (mem_sortKeys.mpr hmem)
          · intro hmem
            exact hnotk (List.mem_append_left _ (mem_sortKeys.mpr hmem))
          · intro hmem
            exact hnotk (List.mem_append_right _ (mem_sortKeys.mpr hmem))
      obtain ⟨d2, l2, hgo, hres, hlast, hresT, hc1, hc2⟩ :=
        openTableArrayGo_spec key ctx.data hpre
      have hota : ctx.openTableArray key = .ok ⟨d2, key⟩ := by
        unfold Ctx.openTableArray
        rw [hgo, bindOk]
      rcases hgw1 : genWs g2 with ⟨w1, g3⟩
      rcases hgw2 : genWs g3 with ⟨w2, g4⟩
      have hred : genTable fuel ctx g
          = .ok (("[[" ++ w1 ++ keyStr ++ w2 ++ "]]",
              (⟨d2, key⟩ : Ctx)), g4) := by
        rw [genTable]
        simp only [hb]
        rw [if_pos hbb]
        simp only [hk, hota, hgw1, hgw2]
      have hinv2 : CtxInv (⟨d2, key⟩ : Ctx) := by
        refine ⟨ota_WF key ctx.data d2 hw hgo,
          Or.inr (Or.inr ⟨l2, hres⟩), ?_⟩
        show AInv ((resolveT d2 key).getD .nil)
        rw [hresT]
        exact trivial
      constructor
      · intro h
        rw [hred] at h
        exact Except.noConfusion h
      · intro r h
        rw [hred] at h
        simp only [Except.ok.injEq] at h
        rw [← h]
        exact hinv2
  · rcases hk : genKey fuel ctx.getItemKeys
        (ctx.getItemKeys ++ ctx.getTableKeys (some true) (some false)
          ++ ctx.getTableKeys none (some true))
        (ctx.getTableKeys (some false) (some false)
          ++ ctx.getTableKeys (some true) (some false))
        (ctx.getTableKeys (some false) (some false)) g0
      with e | ⟨⟨keyStr, key⟩, g2⟩
    · have hred : genTable fuel ctx g = .error e := by
        rw [genTable]
        simp only [hb]
        rw [if_neg hbb]
        simp only [hk]
      constructor
      · intro h
        rw [hred] at h
        simp only [Except.error.injEq] at h
        rw [h] at hk
        exact naf_genKey fuel _ _ _ _ g0 hk
      · intro r h
        rw [hred] at h
        exact Except.noConfusion h
    · have hpre : OTPre ctx.data key = true := by
        rcases genKey_ok hk with hin | ⟨pre, ks, hpre0, hkey, hl1, hl2, hchk⟩
        · exact OTPre_of_reuse key ctx.data hw (mem_sortKeys.mp hin)
        · have hne : key ≠ [] := by
            rw [hkey]
            intro hc
            rcases List.append_eq_nil.mp hc with ⟨_, h2⟩
            rw [h2] at hl1
            simp at hl1
          obtain ⟨hnotk, hnotp⟩ := checkKeyOK_sem hchk
          refine OTPre_of_fresh key ctx.data hw hne ?_ ?_ ?_ ?_
          · intro i h1 h2
            intro hmem
            exact hnotp i h1 h2 (mem_sortKeys.mpr hmem)
          · intro hmem
            exact hnotk (List.mem_append_left _ (List.mem_append_left _
              (mem_sortKeys.mpr hmem)))
          · intro hmem
            exact hnotk (List.mem_append_left _ (List.mem_append_right _
              (mem_sortKeys.mpr hmem)))
          · intro hmem
            exact hnotk (List.mem_append_right _ (mem_sortKeys.mpr hmem))
      obtain ⟨t2, e2, hgo, hres, hresT, hc1, hc2, hc3⟩ :=
        openTableGo_spec key ctx.data hpre
      have hot : ctx.openTable key = .ok ⟨t2, key⟩ := by
        unfold Ctx.openTable
        rw [hgo, bindOk]
      rcases hgw1 : genWs g2 with ⟨w1, g3⟩
      rcases hgw2 : genWs g3 with ⟨w2, g4⟩
      have hred : genTable fuel ctx g
          = .ok (("[" ++ w1 ++ keyStr ++ w2 ++ "]",
              (⟨t2, key⟩ : Ctx)), g4) := by
        rw [genTable]
        simp only [hb]
        rw [if_neg hbb]
        simp only [hk, hot, hgw1, hgw2]
      have hai2 : AInv e2 := by
        rcases hc3 with h0 | ⟨df0, dt0, e0, h0⟩
        · rw [hc1 h0]
          exact trivial
        · obtain ⟨he, hdf, hdt⟩ := hc2 df0 dt0 e0 h0
          rw [he]
          have hwfc := resolve_WFc key ctx.data _ hw h0
          exact NoDotTop_AInv e0 (hwfc.2.1 hdf)
      have hinv2 : CtxInv (⟨t2, key⟩ : Ctx) := by
        refine ⟨ot_WF key ctx.data t2 hw hgo,
          Or.inr (Or.inl ⟨false, e2, hres⟩), ?_⟩
        show AInv ((resolveT t2 key).getD .nil)
        rw [hresT]
        exact hai2
      constructor
      · intro h
        rw [hred] at h
        exact Except.noConfusion h
      · intro r h
        rw [hred] at h
        simp only [Except.ok.injEq] at h
        rw [← h]
        exact hinv2

theorem finishExpr_spec (doc : String) (ctx : Ctx) (g : Rng) :
    (finishExpr doc ctx g ≠ .error .assertFail) ∧
    (∀ r, finishExpr doc ctx g = .ok r → r.1.2 = ctx) := by
  rcases hr : Rng.randFloat g with ⟨rv, g1⟩
  by_cases hc : rv < PROB_COMMENT
  · rcases hgc : genComment g1 with ⟨c, g2⟩
    have hun : finishExpr doc ctx g = .ok ((doc ++ c, ctx), g2) := by
      rw [finishExpr]
      simp only [hr]
      rw [if_pos hc]
      simp only [hgc]
    constructor
    · intro h
      rw [hun] at h
      exact Except.noConfusion h
    · intro r h
      rw [hun] at h
      simp only [Except.ok.injEq] at h
      rw [← h]
  · have hun : finishExpr doc ctx g = .ok ((doc, ctx), g1) := by
      rw [finishExpr]
      simp only [hr]
      rw [if_neg hc]
    constructor
    · intro h
      rw [hun] at h
      exact Except.noConfusion h
    · intro r h
      rw [hun] at h
      simp only [Except.ok.injEq] at h
      rw [← h]

theorem genExpression_spec (fuel : Nat) (ctx : Ctx) (g : Rng)
    (hinv : CtxInv ctx) :
    (genExpression fuel ctx g ≠ .error .assertFail) ∧
    (∀ r, genExpression fuel ctx g = .ok r → CtxInv r.1.2) := by
  rcases hgw0 : genWs g with ⟨w0, g1⟩
  rcases hr : Rng.randFloat g1 with ⟨rv, g2⟩
  have hun : genExpression fuel ctx g
      = (if rv < PROB_EXPR_KEYVAL then
          match genKeyval fuel ctx g2 with
          | .error e => .error e
          | .ok ((s, ctx2), g3) =>
            let (w1, g4) := genWs g3
            finishExpr (w0 ++ s ++ w1) ctx2 g4
        else if rv < mkRat 4 5 then
          match genTable fuel ctx g2 with
          | .error e => .error e
          | .ok ((s, ctx2), g3) =>
            let (w1, g4) := genWs g3
            finishExpr (w0 ++ s ++ w1) ctx2 g4
        else finishExpr w0 ctx g2) := by
    rw [genExpression]
    simp only [hgw0, hr]
  by_cases h1 : rv < PROB_EXPR_KEYVAL
  · rw [if_pos h1] at hun
    rcases hkv : genKeyval fuel ctx g2 with e | ⟨⟨s, ctx2⟩, g3⟩
    · simp only [hkv] at hun
      obtain ⟨hnaf, _⟩ := genKeyval_spec fuel ctx g2 hinv
      constructor
      · intro h
        rw [hun] at h
        simp only [Except.error.injEq] at h
        rw [h] at hkv
        exact hnaf hkv
      · intro r h
        rw [hun] at h
        exact Except.noConfusion h
    · obtain ⟨_, hok⟩ := genKeyval_spec fuel ctx g2 hinv
      have hinv2 : CtxInv ctx2 := hok _ hkv
      simp only [hkv] at hun
      rcases hgw1 : genWs g3 with ⟨w1, g4⟩
      simp only [hgw1] at hun
      obtain ⟨hfnaf, hfok⟩ := finishExpr_spec (w0 ++ s ++ w1) ctx2 g4
      constructor
      · intro h
        rw [hun] at h
        exact hfnaf h
      · intro r h
        rw [hun] at h
        rw [hfok r h]
        exact hinv2
  · rw [if_neg h1] at hun
    by_cases h2 : rv < mkRat 4 5
    · rw [if_pos h2] at hun
      rcases hkv : genTable fuel ctx g2 with e | ⟨⟨s, ctx2⟩, g3⟩
      · simp only [hkv] at hun
        obtain ⟨hnaf, _⟩ := genTable_spec fuel ctx g2 hinv
        constructor
        · intro h
          rw [hun] at h
          simp only [Except.error.injEq] at h
          rw [h] at hkv
          exact hnaf hkv
        · intro r h
          rw [hun] at h
          exact Except.noConfusion h
      · obtain ⟨_, hok⟩ := genTable_spec fuel ctx g2 hinv
        have hinv2 : CtxInv ctx2 := hok _ hkv
        simp only [hkv] at hun
        rcases hgw1 : genWs g3 with ⟨w1, g4⟩
        simp only [hgw1] at hun
        obtain ⟨hfnaf, hfok⟩ := finishExpr_spec (w0 ++ s ++ w1) ctx2 g4
        constructor
        · intro h
          rw [hun] at h
          exact hfnaf h
        · intro r h
          rw [hun] at h
          rw [hfok r h]
          exact hinv2
    · rw [if_neg h2] at hun
      obtain ⟨hfnaf, hfok⟩ := finishExpr_spec w0 ctx g2
      constructor
      · intro h
        rw [hun] at h
        exact hfnaf h
      · intro r h
        rw [hun] at h
        rw [hfok r h]
        exact hinv

theorem genTomlLoop_naf (fuel : Nat) :
    ∀ (n : Nat) (first : Bool) (ctx : Ctx) (doc : String) (g : Rng),
      CtxInv ctx →
      genTomlLoop fuel n first ctx doc g ≠ .error .assertFail := by
  intro n
  induction n with
  | zero =>
    intro first ctx doc g _ h
    rw [show genTomlLoop fuel 0 first ctx doc g
      = .ok ((doc, ctx), g) from rfl] at h
    exact Except.noConfusion h
  | succ n ih =>
    intro first ctx doc g hinv h
    rw [show genTomlLoop fuel (n + 1) first ctx doc g
      = (let (nl, g1) := if first then ("", g) else genNewline g
         match genExpression fuel ctx g1 with
         | .error e => .error e
         | .ok ((s, ctx2), g2) =>
           genTomlLoop fuel n false ctx2 (doc ++ nl ++ s) g2)
      from rfl] at h
    rcases hnl : (if first then ("", g) else genNewline g) with ⟨nl, g1⟩
    simp only [hnl] at h
    rcases he : genExpression fuel ctx g1 with e | ⟨⟨s, ctx2⟩, g2⟩
    · simp only [he] at h
      simp only [Except.error.injEq] at h
      rw [h] at he
      exact (genExpression_spec fuel ctx g1 hinv).1 he
    · simp only [he] at h
      exact ih false ctx2 (doc ++ nl ++ s) g2
        ((genExpression_spec fuel ctx g1 hinv).2 _ he) h

/-- Discriminator for the assert failure of the embedded tree model. -/
def isAssertFail {α : Type} : Except GenErr α → Bool
  | .error .assertFail => true
  | _ => false

/-- C4: the assertion branches of the tree model are unreachable in every
run of `gen_toml`: for every oracle stream and every fuel, the generator
never returns the `assertFail` outcome.  The exclusion sets that
`_gen_keyval` and `_gen_table` pass to `_gen_key` establish the tree-model
preconditions before every mutating call, so `assign` never finds its
terminal segment present, `open_table` never targets a defined or dotted
table (nor a table array or value), and no traversal ever crosses a
value. -/
theorem genToml_no_assert :
    ∀ (fuel : Nat) (g : Rng), isAssertFail (genToml fuel g) = false := by
  intro fuel g
  have hinit : CtxInv Ctx.init := ⟨trivial, Or.inl rfl, trivial⟩
  have hnaf : genToml fuel g ≠ .error .assertFail := by
    intro h
    rw [genToml] at h
    rcases hn : Rng.randNat 1 MAX_EXPRESSIONS g with ⟨n, g1⟩
    simp only [hn] at h
    rcases hl : genTomlLoop fuel n true Ctx.init "" g1 with e | r
    · simp only [hl] at h
      simp only [Except.error.injEq] at h
      rw [h] at hl
      exact genTomlLoop_naf fuel n true Ctx.init "" g1 hinit hl
    · simp only [hl] at h
      exact Except.noConfusion h
  rcases hres : genToml fuel g with e | r
  · rcases e with _ | _ | _
    · exact absurd hres hnaf
    · rfl
    · rfl
  · rfl


end TomlGen
